import Mathlib

/-!
Shallow embedding of the connection/object-protocol layer of
`playwright/_impl/_connection.py`: the request/response multiplexer
(`Connection`), the remote-object graph (`ChannelOwner`), the per-object
call facade (`Channel`) and the wire codec
(`_replace_channels_with_guids` / `_replace_guids_with_channels`).

Modelling conventions:
* Python objects (`ChannelOwner` instances) live in an explicit heap keyed
  by allocation number (`ref`); object identity is the `ref`.  References
  are never removed from the heap (Python references keep objects alive);
  liveness means presence in the connection's flat `_objects` index.
* Python dicts are association lists with Python-dict semantics: insertion
  replaces in place or appends, deletion removes the binding, lookup finds
  the unique binding.
* `asyncio` futures are a four-state value (`pending/cancelled/resolved/
  failed`); the cooperative scheduling itself is not modelled, only the
  state transitions the connection code performs on these structures.
* Exceptions are `Except String`; diagnostics-only data (stack traces,
  call metadata, the `_api_zone` context variable) are not modelled.
-/

/-- Python-dict lookup on an association list (the unique binding for a key). -/
def fmLookup {κ α : Type} [BEq κ] : List (κ × α) → κ → Option α
  | [], _ => none
  | (k', v) :: t, k => if k' == k then some v else fmLookup t k

/-- Python-dict insertion: replace the binding in place, or append a new one. -/
def fmInsert {κ α : Type} [BEq κ] : List (κ × α) → κ → α → List (κ × α)
  | [], k, v => [(k, v)]
  | (k', v') :: t, k, v =>
    if k' == k then (k, v) :: t else (k', v') :: fmInsert t k v

/-- Python-dict deletion (`del d[k]`): drops the binding; callers check presence first. -/
def fmErase {κ α : Type} [BEq κ] : List (κ × α) → κ → List (κ × α)
  | [], _ => []
  | (k', v') :: t, k => if k' == k then t else (k', v') :: fmErase t k

/-- The identity of one `Channel` object: the allocation of its owning
`ChannelOwner` plus the `_guid` it was constructed with. -/
structure ChannelV where
  ref : Nat
  guid : String
deriving DecidableEq, Repr

/-- The behaviour of one registered event listener when invoked: returns
normally or raises.  Listener side effects other than raising are outside
the model. -/
inductive ListenerB where
  | ok
  | raises (msg : String)
deriving DecidableEq, Repr

/-- Logical payloads travelling through the codec: JSON-like data that may
embed `pathlib.Path` values and `Channel` objects. -/
inductive Payload where
  | null
  | bool (b : Bool)
  | num (n : Int)
  | str (s : String)
  | path (s : String)
  | channel (c : ChannelV)
  | list (xs : List Payload)
  | dict (fields : List (String × Payload))

/-- Python truthiness of a payload (`if not result: ...`). -/
def payloadTruthy : Payload → Bool
  | .null => false
  | .bool b => b
  | .num n => n != 0
  | .str s => s != ""
  | .path _ => true
  | .channel _ => true
  | .list xs => xs.length != 0
  | .dict fs => fs.length != 0

mutual

/-- `Connection._replace_channels_with_guids`: outbound encoding.  `None`
passes through, a `Path` becomes its string form, lists and dicts recurse,
a `Channel` becomes `dict(guid=channel._guid)`, everything else passes
through. -/
def replaceChannelsWithGuids : Payload → Payload
  | .null => .null
  | .path s => .str s
  | .list xs => .list (replaceChannelsWithGuidsList xs)
  | .channel ch => .dict [("guid", .str ch.guid)]
  | .dict fs => .dict (replaceChannelsWithGuidsFields fs)
  | .bool b => .bool b
  | .num n => .num n
  | .str s => .str s

def replaceChannelsWithGuidsList : List Payload → List Payload
  | [] => []
  | p :: ps => replaceChannelsWithGuids p :: replaceChannelsWithGuidsList ps

def replaceChannelsWithGuidsFields :
    List (String × Payload) → List (String × Payload)
  | [] => []
  | (k, v) :: fs => (k, replaceChannelsWithGuids v) :: replaceChannelsWithGuidsFields fs

end

/-- The state of one `ChannelOwner`: `_guid`, `_type`, `_parent` (an object
reference), `_objects` (the child dict, guid to object), the listeners
registered on its `_channel`, the attached `Channel` object, and the
`_initializer` record. -/
structure ObjData where
  guid : String
  type : String
  parent : Option Nat
  children : List (String × Nat)
  listeners : List (String × ListenerB)
  channel : ChannelV
  initializer : Payload

mutual

/-- `Connection._replace_guids_with_channels`: inbound decoding over the
flat index `objects` and the heap `h`.  A dict whose `"guid"` entry is a
registered identifier is replaced by that object's `_channel` in its
entirety; otherwise dicts and lists recurse and leaves pass through.
(The heap lookup cannot fail for a ref stored in the index — references
always point at allocated objects — the fallback keeps the function total.) -/
def replaceGuidsWithChannels (objects : List (String × Nat))
    (h : List (Nat × ObjData)) : Payload → Payload
  | .null => .null
  | .list xs => .list (replaceGuidsWithChannelsList objects h xs)
  | .dict fs =>
    match fmLookup fs "guid" with
    | some (.str g) =>
      match fmLookup objects g with
      | some r =>
        match fmLookup h r with
        | some o => .channel o.channel
        | none => .channel { ref := r, guid := g }
      | none => .dict (replaceGuidsWithChannelsFields objects h fs)
    | some _ => .dict (replaceGuidsWithChannelsFields objects h fs)
    | none => .dict (replaceGuidsWithChannelsFields objects h fs)
  | .bool b => .bool b
  | .num n => .num n
  | .str s => .str s
  | .path s => .path s
  | .channel c => .channel c

def replaceGuidsWithChannelsList (objects : List (String × Nat))
    (h : List (Nat × ObjData)) : List Payload → List Payload
  | [] => []
  | p :: ps =>
    replaceGuidsWithChannels objects h p :: replaceGuidsWithChannelsList objects h ps

def replaceGuidsWithChannelsFields (objects : List (String × Nat))
    (h : List (Nat × ObjData)) : List (String × Payload) → List (String × Payload)
  | [] => []
  | (k, v) :: fs =>
    (k, replaceGuidsWithChannels objects h v) ::
      replaceGuidsWithChannelsFields objects h fs

end

/-- A decoded remote error (`playwright._impl._helper.parse_error`): the
server-reported `name` picks `TimeoutError` when it is the distinguished
timeout name, and the message is carried along.  (`patch_error_message`'s
cosmetic rewriting and the stack-trace substitution performed by
`dispatch` are diagnostics and are not modelled.) -/
structure PwError where
  name : String
  message : Option String
deriving DecidableEq, Repr

/-- The inner `ErrorPayload` record of a reply (`msg["error"]["error"]`). -/
structure ErrorRecV where
  name : Option String
  message : Option String
  stack : Option String
deriving DecidableEq, Repr

/-- `parse_error`: `error.get("name")` selects the class, then
`error["name"]` and `error["stack"]` are read with mandatory-key access
(KeyError when absent). -/
def parseErrorRec (e : ErrorRecV) : Except String PwError :=
  match e.name with
  | none => .error "KeyError: name"
  | some n =>
    match e.stack with
    | none => .error "KeyError: stack"
    | some _ => .ok { name := n, message := e.message }

/-- The state of one `ProtocolCallback.future`. -/
inductive FutureState where
  | pending
  | cancelled
  | resolved (v : Payload)
  | failed (e : PwError)

/-- One framed request handed to `transport.send` (the `metadata` field
carries diagnostics only and is not modelled). -/
structure OutMsg where
  id : Nat
  guid : String
  method : String
  params : Payload

/-- One inbound `ParsedMessagePayload`; every field is optional
(`total=False`), mirroring `msg.get(...)` / `msg[...]` access. -/
structure Msg where
  id : Option Nat
  guid : Option String
  method : Option String
  params : Option Payload
  error : Option ErrorRecV
  result : Option Payload

/-- The state of one `Connection`:
* `heap` — every `ChannelOwner` ever allocated, keyed by allocation number;
* `nextRef` — the next allocation number;
* `objects` — the flat `_objects` index (guid to object reference);
* `lastId` — `_last_id`;
* `callbacks` — the keys of the in-flight `_callbacks` dict (each key maps
  to the `ProtocolCallback` created for it, recorded in `futures`);
* `futures` — the future state of every `ProtocolCallback` ever created,
  keyed by the correlation id it was created for;
* `error` — `_error`, the stored connection-level fault;
* `sent` — the messages handed to `transport.send`, in order. -/
structure Conn where
  heap : List (Nat × ObjData)
  nextRef : Nat
  objects : List (String × Nat)
  lastId : Nat
  callbacks : List Nat
  futures : List (Nat × FutureState)
  error : Option String
  sent : List OutMsg

/-- The connection right after `run()` created the `RootChannelOwner`
(guid `""`, no parent, registered in the flat index). -/
def conn0 : Conn :=
  { heap := [(0, { guid := "", type := "Root", parent := none, children := [],
                   listeners := [], channel := { ref := 0, guid := "" },
                   initializer := .dict [] })],
    nextRef := 1,
    objects := [("", 0)],
    lastId := 0,
    callbacks := [],
    futures := [],
    error := none,
    sent := [] }

/-- `ChannelOwner.__init__` for a `ChannelOwner` parent: allocate the
object, attach a fresh `Channel`, register under the guid in the
connection's flat index and in the parent's child dict. -/
def channelOwnerInit (c : Conn) (parentRef : Nat) (type guid : String)
    (initializer : Payload) : Conn :=
  let n := c.nextRef
  let node : ObjData :=
    { guid := guid, type := type, parent := some parentRef, children := [],
      listeners := [], channel := { ref := n, guid := guid },
      initializer := initializer }
  let heap1 := fmInsert c.heap n node
  let objects1 := fmInsert c.objects guid n
  let heap2 :=
    match fmLookup heap1 parentRef with
    | some po => fmInsert heap1 parentRef { po with children := fmInsert po.children guid n }
    | none => heap1
  { c with heap := heap2, nextRef := n + 1, objects := objects1 }

/-- `Connection._create_remote_object`: decode the initializer, then run the
object factory, which constructes the `ChannelOwner` (every concrete type
registers through `ChannelOwner.__init__`).  The `_waiting_for_object`
callback hook is not modelled (empty registry). -/
def createRemoteObject (c : Conn) (parentRef : Nat) (type guid : String)
    (initializer : Payload) : Conn :=
  channelOwnerInit c parentRef type guid
    (replaceGuidsWithChannels c.objects c.heap initializer)

/-- `ChannelOwner._adopt`: `del child._parent._objects[child._guid]`
(crashes when the child has no parent), insert into the new parent's child
dict, set the child's parent.  Each attribute access re-reads the current
heap, mirroring sequential Python mutation. -/
def channelOwnerAdopt (c : Conn) (selfRef childRef : Nat) : Except String Conn :=
  match fmLookup c.heap childRef with
  | none => .error "dangling child reference"
  | some ch =>
    match ch.parent with
    | none => .error "AttributeError: child has no parent"
    | some op =>
      match fmLookup c.heap op with
      | none => .error "dangling parent reference"
      | some opo =>
        match fmLookup opo.children ch.guid with
        | none => .error "KeyError"
        | some _ =>
          let heap1 := fmInsert c.heap op { opo with children := fmErase opo.children ch.guid }
          match fmLookup heap1 selfRef with
          | none => .error "dangling self reference"
          | some so =>
            let heap2 := fmInsert heap1 selfRef
              { so with children := fmInsert so.children ch.guid childRef }
            match fmLookup heap2 childRef with
            | none => .error "dangling child reference"
            | some ch2 =>
              .ok { c with heap := fmInsert heap2 childRef { ch2 with parent := some selfRef } }

/-- The `for object in list(self._objects.values()): object._dispose()`
loop, abstracted over the dispose step. -/
def disposeListF (f : Conn → Nat → Except String Conn) :
    Conn → List Nat → Except String Conn
  | c, [] => .ok c
  | c, r :: rs =>
    match f c r with
    | .error e => .error e
    | .ok c1 => disposeListF f c1 rs

/-- `ChannelOwner._dispose`: remove self from the parent's child dict (when
there is a parent) and from the connection's flat index (`del` raises
KeyError on a missing key), then dispose every child from a snapshot of
the child dict, then clear the child dict.  The fuel argument is a
termination artifact; it is proven sufficient on well-formed states. -/
def channelOwnerDisposeRec : Nat → Conn → Nat → Except String Conn
  | 0, _, _ => .error "recursion limit"
  | fuel + 1, c, r =>
    match fmLookup c.heap r with
    | none => .error "dangling object reference"
    | some o =>
      let step1 : Except String Conn :=
        match o.parent with
        | none => .ok c
        | some p =>
          match fmLookup c.heap p with
          | none => .error "dangling parent reference"
          | some po =>
            match fmLookup po.children o.guid with
            | none => .error "KeyError"
            | some _ =>
              .ok { c with heap := fmInsert c.heap p { po with children := fmErase po.children o.guid } }
      match step1 with
      | .error e => .error e
      | .ok c1 =>
        match fmLookup c1.objects o.guid with
        | none => .error "KeyError"
        | some _ =>
          let c2 := { c1 with objects := fmErase c1.objects o.guid }
          match fmLookup c2.heap r with
          | none => .error "dangling object reference"
          | some o2 =>
            match disposeListF (channelOwnerDisposeRec fuel) c2 (o2.children.map Prod.snd) with
            | .error e => .error e
            | .ok c3 =>
              match fmLookup c3.heap r with
              | none => .error "dangling object reference"
              | some o3 => .ok { c3 with heap := fmInsert c3.heap r { o3 with children := [] } }

/-- The listeners registered for one event name, in registration order
(`object._channel.listeners(method)`). -/
def listenersFor (o : ObjData) (m : String) : List ListenerB :=
  (o.listeners.filter (fun kv => kv.1 == m)).map Prod.snd

/-- Invoking the listeners in order: the first one that raises aborts the
emission with its exception. -/
def emitFirstRaise : List ListenerB → Option String
  | [] => none
  | .ok :: rest => emitFirstRaise rest
  | .raises e :: _ => some e

/-- `"jsonPipe@" not in guid`, negated: whether the guid contains the
`jsonPipe@` marker (params of such objects are passed to listeners
undecoded). -/
def containsJsonPipe (g : String) : Bool :=
  (g.splitOn "jsonPipe@").length != 1

/-- Python truthiness of `params` in `assert params`. -/
def paramsTruthy : Option Payload → Bool
  | none => false
  | some p => payloadTruthy p

/-- `f"{method}"` for the `Cannot find object` message (`None` prints as
`"None"`). -/
def methodText : Option String → String
  | some m => m
  | none => "None"

/-- `Connection.dispatch`, the single entry point for inbound messages.
A message with a truthy correlation id resolves (or drops) the pending
callback; otherwise the message is a notification: `__create__` builds a
remote object under the addressed parent, an unknown guid raises
`Cannot find object`, `__adopt__` re-parents, `__dispose__` cascades, and
any other method is re-emitted on the addressed object's channel with a
listener exception caught and stored in `_error`. -/
def dispatch (c : Conn) (msg : Msg) : Except String Conn :=
  match msg.id with
  | some id =>
    if id != 0 then
      if c.callbacks.contains id then
        let c1 := { c with callbacks := c.callbacks.erase id }
        match fmLookup c.futures id with
        | none => .error "missing callback object"
        | some fs =>
          match fs with
          | .cancelled => .ok c1
          | .pending =>
            match msg.error with
            | some er =>
              match parseErrorRec er with
              | .error e => .error e
              | .ok pe => .ok { c1 with futures := fmInsert c1.futures id (.failed pe) }
            | none =>
              let result := replaceGuidsWithChannels c1.objects c1.heap
                (match msg.result with | some p => p | none => .null)
              .ok { c1 with futures := fmInsert c1.futures id (.resolved result) }
          | _ => .error "InvalidStateError"
      else .error "KeyError"
    else dispatchNotification c msg
  | none => dispatchNotification c msg
where
  /-- The notification half of `dispatch` (below the `if id:` early return). -/
  dispatchNotification (c : Conn) (msg : Msg) : Except String Conn :=
    match msg.guid with
    | none => .error "KeyError: guid"
    | some guid =>
      if msg.method == some "__create__" then
        if paramsTruthy msg.params then
          match msg.params with
          | some (.dict fs) =>
            match fmLookup fs "type", fmLookup fs "guid", fmLookup fs "initializer" with
            | some (.str t), some (.str g), some init =>
              match fmLookup c.objects guid with
              | none => .error "KeyError"
              | some parentRef => .ok (createRemoteObject c parentRef t g init)
            | _, _, _ => .error "KeyError"
          | _ => .error "TypeError"
        else .error "AssertionError"
      else
        match fmLookup c.objects guid with
        | none =>
          .error ("Cannot find object to \"" ++ methodText msg.method ++ "\": " ++ guid)
        | some r =>
          if msg.method == some "__adopt__" then
            match msg.params with
            | some (.dict fs) =>
              match fmLookup fs "guid" with
              | some (.str childGuid) =>
                match fmLookup c.objects childGuid with
                | none => .error ("Unknown new child: " ++ childGuid)
                | some childRef => channelOwnerAdopt c r childRef
              | _ => .error "KeyError"
            | _ => .error "TypeError"
          else if msg.method == some "__dispose__" then
            channelOwnerDisposeRec (c.objects.length + 1) c r
          else
            match msg.method with
            | none => .ok c
            | some m =>
              match fmLookup c.heap r with
              | none => .error "dangling object reference"
              | some o =>
                let args :=
                  if containsJsonPipe guid then
                    (match msg.params with | some p => p | none => .null)
                  else
                    replaceGuidsWithChannels c.objects c.heap
                      (match msg.params with | some p => p | none => .null)
                match invokeListeners (listenersFor o m) args with
                | none => .ok c
                | some e => .ok { c with error := some e }
  /-- Emitting one event to its listeners with the (decoded) params; the
  model's listeners depend only on their registered behaviour. -/
  invokeListeners (ls : List ListenerB) (_args : Payload) : Option String :=
    emitFirstRaise ls

/-- `self._callbacks[id] = callback` on the key set of the callback table. -/
def cbInsert (l : List Nat) (i : Nat) : List Nat :=
  if l.contains i then l else l ++ [i]

/-- `Connection._send_message_to_server`: allocate the next correlation id,
create a `ProtocolCallback`, store it in the callback table (the source
stores it twice, same key and value), frame the request with encoded
params and hand it to the transport.  Returns the id of the callback
created for this call. -/
def sendMessageToServer (c : Conn) (guid method : String) (params : Payload) :
    Conn × Nat :=
  let id := c.lastId + 1
  let msg : OutMsg :=
    { id := id, guid := guid, method := method,
      params := replaceChannelsWithGuids params }
  ({ c with lastId := id,
            callbacks := cbInsert c.callbacks id,
            futures := fmInsert c.futures id .pending,
            sent := c.sent ++ [msg] }, id)

/-- `Channel.inner_send`, lines up to the suspension point: default the
params, issue the call, then fail fast when a stored connection error is
pending — that error is raised once and cleared. -/
def innerSendIssue (c : Conn) (guid method : String) (params : Option Payload) :
    Conn × Except String Nat :=
  let ps := match params with | none => .dict [] | some p => p
  let res := sendMessageToServer c guid method ps
  match res.1.error with
  | some e => ({ res.1 with error := none }, .error e)
  | none => (res.1, .ok res.2)

/-- `Channel.inner_send`, lines after the future resolves: `None`/falsy
results return `None`, the result must be a dict, `return_as_dict`
returns it unchanged, otherwise the single named field is unwrapped
(`assert len(result) == 1`). -/
def innerSendFinish (result : Payload) (returnAsDict : Bool) :
    Except String (Option Payload) :=
  if payloadTruthy result = false then .ok none
  else
    match result with
    | .dict fs =>
      if returnAsDict then .ok (some (.dict fs))
      else if fs.length == 0 then .ok none
      else
        match fs with
        | [kv] => .ok (some kv.2)
        | _ => .error "AssertionError"
    | _ => .error "AssertionError"

/-- Dispatching a sequence of inbound messages in transport order. -/
def runMsgs (c : Conn) : List Msg → Except String Conn
  | [] => .ok c
  | m :: ms =>
    match dispatch c m with
    | .error e => .error e
    | .ok c1 => runMsgs c1 ms

/-- A `__create__` notification addressed to the parent. -/
def gCreateMsg (parentGuid type newGuid : String) (init : Payload) : Msg :=
  { id := none, guid := some parentGuid, method := some "__create__",
    params := some (.dict [("type", .str type), ("guid", .str newGuid),
                           ("initializer", init)]),
    error := none, result := none }

/-- An `__adopt__` notification addressed to the new parent. -/
def gAdoptMsg (newParentGuid childGuid : String) : Msg :=
  { id := none, guid := some newParentGuid, method := some "__adopt__",
    params := some (.dict [("guid", .str childGuid)]),
    error := none, result := none }

/-- A `__dispose__` notification. -/
def gDisposeMsg (guid : String) : Msg :=
  { id := none, guid := some guid, method := some "__dispose__",
    params := none, error := none, result := none }

/-- An application-event notification. -/
def eventMsg (guid method : String) (params : Option Payload) : Msg :=
  { id := none, guid := some guid, method := some method,
    params := params, error := none, result := none }

/-- A reply carrying a result. -/
def replyMsg (i : Nat) (res : Payload) : Msg :=
  { id := some i, guid := none, method := none, params := none,
    error := none, result := some res }

/-- Issuing a batch of calls (`guid`, `method`, `params` each), returning
the final state and the correlation ids in issue order. -/
def sendAll (c : Conn) : List (String × String × Payload) → Conn × List Nat
  | [] => (c, [])
  | (g, m, p) :: rest =>
    let res := sendMessageToServer c g m p
    let res2 := sendAll res.1 rest
    (res2.1, res.2 :: res2.2)

/-- Delivering a batch of replies in the given arrival order. -/
def deliverAll (c : Conn) : List (Nat × Payload) → Except String Conn
  | [] => .ok c
  | (i, p) :: rest =>
    match dispatch c (replyMsg i p) with
    | .error e => .error e
    | .ok c1 => deliverAll c1 rest

/-! ### Basic lemmas about the codec and dispatch -/

theorem replaceGuidsWithChannelsFields_eq_map (O : List (String × Nat))
    (h : List (Nat × ObjData)) (fs : List (String × Payload)) :
    replaceGuidsWithChannelsFields O h fs
      = fs.map (fun kv => (kv.1, replaceGuidsWithChannels O h kv.2)) := by
  induction fs with
  | nil => rfl
  | cons kv rest ih =>
    obtain ⟨k, v⟩ := kv
    simp [replaceGuidsWithChannelsFields, ih]

/-! ### C10: decoding replaces registered-guid dicts wholesale -/

/-- C10: during decoding, `_replace_guids_with_channels` replaces any dict
whose `"guid"` entry is a registered identifier by that object's channel
in its entirety, discarding every other key; a dict whose `"guid"` value
is absent, not a string, or not registered is instead decoded field by
field and returned as a dict. -/
theorem c10_decode_guid_replacement (O : List (String × Nat))
    (h : List (Nat × ObjData)) (fs : List (String × Payload)) :
    (∀ g r o, fmLookup fs "guid" = some (.str g) → fmLookup O g = some r →
       fmLookup h r = some o →
       replaceGuidsWithChannels O h (.dict fs) = .channel o.channel)
    ∧ (fmLookup fs "guid" = none →
       replaceGuidsWithChannels O h (.dict fs)
         = .dict (fs.map (fun kv => (kv.1, replaceGuidsWithChannels O h kv.2))))
    ∧ (∀ g, fmLookup fs "guid" = some (.str g) → fmLookup O g = none →
       replaceGuidsWithChannels O h (.dict fs)
         = .dict (fs.map (fun kv => (kv.1, replaceGuidsWithChannels O h kv.2))))
    ∧ (∀ w, fmLookup fs "guid" = some w → (∀ s, w ≠ .str s) →
       replaceGuidsWithChannels O h (.dict fs)
         = .dict (fs.map (fun kv => (kv.1, replaceGuidsWithChannels O h kv.2)))) := by
  refine ⟨?_, ?_, ?_, ?_⟩
  · intro g r o h1 h2 h3
    simp [replaceGuidsWithChannels, h1, h2, h3]
  · intro h1
    simp [replaceGuidsWithChannels, h1, replaceGuidsWithChannelsFields_eq_map]
  · intro g h1 h2
    simp [replaceGuidsWithChannels, h1, h2, replaceGuidsWithChannelsFields_eq_map]
  · intro w h1 h2
    cases w with
    | str s => exact absurd rfl (h2 s)
    | null => simp [replaceGuidsWithChannels, h1, replaceGuidsWithChannelsFields_eq_map]
    | bool b => simp [replaceGuidsWithChannels, h1, replaceGuidsWithChannelsFields_eq_map]
    | num n => simp [replaceGuidsWithChannels, h1, replaceGuidsWithChannelsFields_eq_map]
    | path s => simp [replaceGuidsWithChannels, h1, replaceGuidsWithChannelsFields_eq_map]
    | channel ch => simp [replaceGuidsWithChannels, h1, replaceGuidsWithChannelsFields_eq_map]
    | list xs => simp [replaceGuidsWithChannels, h1, replaceGuidsWithChannelsFields_eq_map]
    | dict gs => simp [replaceGuidsWithChannels, h1, replaceGuidsWithChannelsFields_eq_map]

/-- Witness for C10 at a concrete registry and payloads. -/
theorem c10_decode_guid_replacement_witness :
    replaceGuidsWithChannels [("a", 1)]
        [(1, { guid := "a", type := "t", parent := some 0, children := [],
               listeners := [], channel := { ref := 1, guid := "a" },
               initializer := .dict [] })]
        (.dict [("guid", .str "a"), ("other", .num 7)])
      = .channel { ref := 1, guid := "a" }
    ∧ replaceGuidsWithChannels [("a", 1)] []
        (.dict [("guid", .str "zz")])
      = .dict [("guid", .str "zz")] := by
  constructor
  · exact (c10_decode_guid_replacement [("a", 1)]
      [(1, { guid := "a", type := "t", parent := some 0, children := [],
             listeners := [], channel := { ref := 1, guid := "a" },
             initializer := .dict [] })]
      [("guid", .str "a"), ("other", .num 7)]).1 "a" 1
      { guid := "a", type := "t", parent := some 0, children := [],
        listeners := [], channel := { ref := 1, guid := "a" },
        initializer := .dict [] } rfl rfl rfl
  · exact ((c10_decode_guid_replacement [("a", 1)] []
      [("guid", .str "zz")]).2.2.1 "zz" rfl rfl).trans (by rfl)

/-! ### C7: result unwrapping in `Channel.inner_send` -/

/-- C7 counterexample: `Channel.send` does not return the raw result when
the result is a multi-field record and no one-field wrapping applies —
`assert len(result) == 1` fails instead. -/
theorem c7_result_unwrapping_counterexample :
    innerSendFinish (.dict [("a", .num 1), ("b", .num 2)]) false
      = .error "AssertionError" := by rfl

/-- C7 amended: `Channel.send` returns `None` when the reply's result is
falsy (empty or missing), returns the single field's value when the
result is a one-field record, and raises an `AssertionError` when the
result is neither falsy nor a one-field record; `send_return_as_dict`
returns `None` on a falsy result, the record unchanged on a non-empty
record, and raises on a truthy non-record. -/
theorem c7_result_unwrapping (v : Payload) (fs : List (String × Payload))
    (k : String) (w : Payload) :
    (payloadTruthy v = false →
       innerSendFinish v false = .ok none ∧ innerSendFinish v true = .ok none)
    ∧ innerSendFinish (.dict [(k, w)]) false = .ok (some w)
    ∧ (payloadTruthy (.dict fs) = true →
       innerSendFinish (.dict fs) true = .ok (some (.dict fs)))
    ∧ (2 ≤ fs.length →
       innerSendFinish (.dict fs) false = .error "AssertionError")
    ∧ (payloadTruthy v = true → (∀ gs, v ≠ .dict gs) →
       innerSendFinish v false = .error "AssertionError"
         ∧ innerSendFinish v true = .error "AssertionError") := by
  refine ⟨?_, ?_, ?_, ?_, ?_⟩
  · intro hv
    simp [innerSendFinish, hv]
  · simp [innerSendFinish, payloadTruthy]
  · intro hv
    simp [innerSendFinish, hv]
  · intro h2
    match fs, h2 with
    | a :: b :: rest, _ =>
      simp [innerSendFinish, payloadTruthy]
  · intro hv hnd
    have : innerSendFinish v false = .error "AssertionError"
        ∧ innerSendFinish v true = .error "AssertionError" := by
      cases v with
      | dict gs => exact absurd rfl (hnd gs)
      | null => simp [payloadTruthy] at hv
      | bool b => simp [innerSendFinish, hv]
      | num n => simp [innerSendFinish, hv]
      | str s => simp [innerSendFinish, hv]
      | path s => simp [innerSendFinish, hv]
      | channel ch => simp [innerSendFinish, hv]
      | list xs => simp [innerSendFinish, hv]
    exact this

/-- Witness for C7 at concrete results. -/
theorem c7_result_unwrapping_witness :
    (innerSendFinish .null false = .ok none ∧ innerSendFinish .null true = .ok none)
    ∧ innerSendFinish (.dict [("a", .num 1)]) false = .ok (some (.num 1))
    ∧ innerSendFinish (.dict [("a", .num 1), ("b", .num 2)]) false
        = .error "AssertionError"
    ∧ innerSendFinish (.str "s") false = .error "AssertionError" := by
  have h := c7_result_unwrapping .null [("a", .num 1), ("b", .num 2)] "a" (.num 1)
  have h2 := c7_result_unwrapping (.str "s") [] "a" (.num 1)
  exact ⟨h.1 rfl, h.2.1, h.2.2.2.1 (by decide),
    (h2.2.2.2.2 rfl (fun gs hgs => by cases hgs)).1⟩

/-! ### C8: encode/decode round-trip preserves channel identity -/

/-- C8: for a registered object, encoding its channel yields
`dict(guid=id)` and decoding `dict(guid=id)` yields back the identical
channel object of that registered object — also when the channel is
embedded inside a parameter record. -/
theorem c8_roundtrip_identity (c : Conn) (g : String) (r : Nat) (o : ObjData)
    (k : String)
    (h1 : fmLookup c.objects g = some r) (h2 : fmLookup c.heap r = some o)
    (h3 : o.channel = { ref := r, guid := g }) :
    replaceChannelsWithGuids (.channel o.channel) = .dict [("guid", .str g)]
    ∧ replaceGuidsWithChannels c.objects c.heap (.dict [("guid", .str g)])
        = .channel o.channel
    ∧ replaceGuidsWithChannels c.objects c.heap
        (replaceChannelsWithGuids (.dict [(k, .channel o.channel)]))
        = .dict [(k, .channel o.channel)] := by
  refine ⟨?_, ?_, ?_⟩
  · simp [replaceChannelsWithGuids, h3]
  · simp [replaceGuidsWithChannels, fmLookup, h1, h2]
  · have henc : replaceChannelsWithGuids (.dict [(k, .channel o.channel)])
        = .dict [(k, .dict [("guid", .str g)])] := by
      simp [replaceChannelsWithGuids, replaceChannelsWithGuidsFields, h3]
    rw [henc]
    by_cases hk : k = "guid"
    · subst hk
      simp [replaceGuidsWithChannels, replaceGuidsWithChannelsFields, fmLookup,
        h1, h2]
    · simp [replaceGuidsWithChannels, replaceGuidsWithChannelsFields, fmLookup,
        hk, h1, h2]

/-- Witness for C8 at a concrete registered object. -/
theorem c8_roundtrip_identity_witness :
    replaceChannelsWithGuids (.channel { ref := 1, guid := "a" })
      = .dict [("guid", .str "a")]
    ∧ replaceGuidsWithChannels [("a", 1)]
        [(1, { guid := "a", type := "t", parent := some 0, children := [],
               listeners := [], channel := { ref := 1, guid := "a" },
               initializer := .dict [] })]
        (.dict [("guid", .str "a")])
      = .channel { ref := 1, guid := "a" } := by
  have h := c8_roundtrip_identity
    { conn0 with
      objects := [("a", 1)],
      heap := [(1, { guid := "a", type := "t", parent := some 0, children := [],
                     listeners := [], channel := { ref := 1, guid := "a" },
                     initializer := .dict [] })] }
    "a" 1
    { guid := "a", type := "t", parent := some 0, children := [],
      listeners := [], channel := { ref := 1, guid := "a" },
      initializer := .dict [] }
    "k" rfl rfl rfl
  exact ⟨h.1, h.2.1⟩

/-! ### C5: a cancelled pending call's reply is consumed silently -/

/-- C5: when the future of a pending call was cancelled before its reply
arrives, dispatching that reply pops the callback from the table and
returns — no result, no exception, no error raised, and no other state is
touched. -/
theorem c5_cancelled_reply_dropped (c : Conn) (i : Nat) (msg : Msg)
    (h1 : c.callbacks.contains i = true)
    (h2 : fmLookup c.futures i = some .cancelled)
    (h3 : msg.id = some i) (h4 : i ≠ 0) :
    dispatch c msg = .ok { c with callbacks := c.callbacks.erase i } := by
  have h1m : i ∈ c.callbacks := by
    have := List.mem_of_elem_eq_true h1
    exact this
  unfold dispatch
  rw [h3]
  simp [h4, h1m, h2]

/-- Witness for C5: a connection with one cancelled in-flight call. -/
theorem c5_cancelled_reply_dropped_witness :
    dispatch { conn0 with callbacks := [1], futures := [(1, .cancelled)] }
        (replyMsg 1 (.str "late"))
      = .ok { conn0 with callbacks := [], futures := [(1, .cancelled)] } := by
  have h := c5_cancelled_reply_dropped
    { conn0 with callbacks := [1], futures := [(1, .cancelled)] }
    1 (replyMsg 1 (.str "late")) rfl rfl rfl (by decide)
  exact h

/-! ### C4: a `__dispose__` notification for an absent guid raises -/

/-- C4 counterexample: delivering a second `__dispose__` notification for
an already-disposed id does not fail silently — `dispatch` raises
`Cannot find object`. -/
theorem c4_redispose_counterexample :
    runMsgs conn0
        [gCreateMsg "" "Frame" "a" (.dict []), gDisposeMsg "a", gDisposeMsg "a"]
      = .error "Cannot find object to \"__dispose__\": a" := by rfl

/-- C4 amended: invoking dispose for a guid absent from the registry — in
particular a second `__dispose__` notification for an already-disposed
id — raises a `Cannot find object` exception out of `dispatch` (before
any state is mutated) rather than being a silent no-op. -/
theorem c4_dispose_absent_raises (c : Conn) (g : String)
    (h : fmLookup c.objects g = none) :
    dispatch c (gDisposeMsg g)
      = .error ("Cannot find object to \"__dispose__\": " ++ g) := by
  unfold dispatch dispatch.dispatchNotification
  simp [gDisposeMsg, h, methodText]

/-- Witness for C4 on a fresh connection and an unknown guid. -/
theorem c4_dispose_absent_raises_witness :
    dispatch conn0 (gDisposeMsg "zz")
      = .error "Cannot find object to \"__dispose__\": zz" :=
  c4_dispose_absent_raises conn0 "zz" rfl

/-! ### C9: a non-reserved notification for an absent guid raises -/

/-- C9 counterexample: a notification addressed to a disposed object id is
not silently dropped — `dispatch` raises `Cannot find object`. -/
theorem c9_unknown_guid_counterexample :
    runMsgs conn0
        [gCreateMsg "" "Frame" "a" (.dict []), gDisposeMsg "a",
         eventMsg "a" "close" none]
      = .error "Cannot find object to \"close\": a" := by rfl

/-- C9 amended: an inbound non-reserved notification addressed to an object
id absent from the registry makes `dispatch` raise a `Cannot find object`
exception (the raise happens before any mutation, so no state changes);
the message is not silently dropped. -/
theorem c9_unknown_guid_raises (c : Conn) (g m : String) (params : Option Payload)
    (h : fmLookup c.objects g = none)
    (hm1 : m ≠ "__create__") (_hm2 : m ≠ "__adopt__") (_hm3 : m ≠ "__dispose__") :
    dispatch c (eventMsg g m params)
      = .error ("Cannot find object to \"" ++ m ++ "\": " ++ g) := by
  unfold dispatch dispatch.dispatchNotification
  simp [eventMsg, h, methodText, hm1]

/-- Witness for C9 on a fresh connection and an unknown guid. -/
theorem c9_unknown_guid_raises_witness :
    dispatch conn0 (eventMsg "zz" "close" none)
      = .error "Cannot find object to \"close\": zz" :=
  c9_unknown_guid_raises conn0 "zz" "close" none rfl
    (by decide) (by decide) (by decide)

/-! ### C6: listener faults are stored and surfaced on the next call -/

/-- C6: when an event listener raises during dispatch of a notification,
`dispatch` catches the exception and stores it as the connection's pending
error instead of propagating it; the next call issued through
`Channel.send` (whose core is `inner_send`) raises exactly that stored
error and clears it, so a further subsequent call does not raise it
again. -/
theorem c6_listener_fault_deferred (c : Conn) (g m : String) (r : Nat)
    (o : ObjData) (params : Option Payload) (e : String)
    (g2 m2 g3 m3 : String) (p2 p3 : Option Payload)
    (h1 : fmLookup c.objects g = some r)
    (h2 : fmLookup c.heap r = some o)
    (h3 : emitFirstRaise (listenersFor o m) = some e)
    (hm1 : m ≠ "__create__") (hm2 : m ≠ "__adopt__") (hm3 : m ≠ "__dispose__") :
    dispatch c (eventMsg g m params) = .ok { c with error := some e }
    ∧ (innerSendIssue { c with error := some e } g2 m2 p2).2 = .error e
    ∧ (innerSendIssue { c with error := some e } g2 m2 p2).1.error = none
    ∧ (innerSendIssue (innerSendIssue { c with error := some e } g2 m2 p2).1
        g3 m3 p3).2
      = .ok ((innerSendIssue { c with error := some e } g2 m2 p2).1.lastId + 1) := by
  refine ⟨?_, ?_, ?_, ?_⟩
  · unfold dispatch dispatch.dispatchNotification
    simp [eventMsg, h1, h2, hm1, hm2, hm3, dispatch.invokeListeners, h3]
  · simp [innerSendIssue, sendMessageToServer]
  · simp [innerSendIssue, sendMessageToServer]
  · simp [innerSendIssue, sendMessageToServer]

/-- Witness for C6: a connection holding an object with a raising listener. -/
theorem c6_listener_fault_deferred_witness :
    dispatch
        { conn0 with
          objects := [("", 0), ("a", 1)],
          heap := [(0, { guid := "", type := "Root", parent := none,
                         children := [("a", 1)], listeners := [],
                         channel := { ref := 0, guid := "" },
                         initializer := .dict [] }),
                   (1, { guid := "a", type := "Page", parent := some 0,
                         children := [],
                         listeners := [("close", .raises "boom")],
                         channel := { ref := 1, guid := "a" },
                         initializer := .dict [] })] }
        (eventMsg "a" "close" none)
      = .ok { conn0 with
              objects := [("", 0), ("a", 1)],
              heap := [(0, { guid := "", type := "Root", parent := none,
                             children := [("a", 1)], listeners := [],
                             channel := { ref := 0, guid := "" },
                             initializer := .dict [] }),
                       (1, { guid := "a", type := "Page", parent := some 0,
                             children := [],
                             listeners := [("close", .raises "boom")],
                             channel := { ref := 1, guid := "a" },
                             initializer := .dict [] })],
              error := some "boom" } := by
  have h := c6_listener_fault_deferred
    { conn0 with
      objects := [("", 0), ("a", 1)],
      heap := [(0, { guid := "", type := "Root", parent := none,
                     children := [("a", 1)], listeners := [],
                     channel := { ref := 0, guid := "" },
                     initializer := .dict [] }),
               (1, { guid := "a", type := "Page", parent := some 0,
                     children := [],
                     listeners := [("close", .raises "boom")],
                     channel := { ref := 1, guid := "a" },
                     initializer := .dict [] })] }
    "a" "close" 1
    { guid := "a", type := "Page", parent := some 0, children := [],
      listeners := [("close", .raises "boom")],
      channel := { ref := 1, guid := "a" }, initializer := .dict [] }
    none "boom" "" "m2" "" "m3" none none
    rfl rfl rfl (by decide) (by decide) (by decide)
  exact h.1

/-! ### Finite-map lemmas -/

theorem fmLookup_insert_self {κ α : Type} [BEq κ] [LawfulBEq κ]
    (l : List (κ × α)) (k : κ) (v : α) :
    fmLookup (fmInsert l k v) k = some v := by
  induction l with
  | nil => simp [fmInsert, fmLookup]
  | cons kv t ih =>
    obtain ⟨k', v'⟩ := kv
    by_cases h : k' = k
    · subst h
      simp [fmInsert, fmLookup]
    · simp [fmInsert, fmLookup, h, ih]

theorem fmLookup_insert_ne {κ α : Type} [BEq κ] [LawfulBEq κ]
    (l : List (κ × α)) (k k' : κ) (v : α) (h : k' ≠ k) :
    fmLookup (fmInsert l k v) k' = fmLookup l k' := by
  have h' : k ≠ k' := Ne.symm h
  induction l with
  | nil => simp [fmInsert, fmLookup, h']
  | cons kv t ih =>
    obtain ⟨k0, v0⟩ := kv
    by_cases h0 : k0 = k
    · subst h0
      simp [fmInsert, fmLookup, h']
    · simp [fmInsert, fmLookup, h0, ih]

theorem fmLookup_erase_ne {κ α : Type} [BEq κ] [LawfulBEq κ]
    (l : List (κ × α)) (k k' : κ) (h : k' ≠ k) :
    fmLookup (fmErase l k) k' = fmLookup l k' := by
  have h' : k ≠ k' := Ne.symm h
  induction l with
  | nil => simp [fmErase]
  | cons kv t ih =>
    obtain ⟨k0, v0⟩ := kv
    by_cases h0 : k0 = k
    · subst h0
      simp [fmErase, fmLookup, h']
    · simp [fmErase, fmLookup, h0, ih]

theorem fmLookup_eq_none_iff {κ α : Type} [BEq κ] [LawfulBEq κ]
    (l : List (κ × α)) (k : κ) :
    fmLookup l k = none ↔ k ∉ l.map Prod.fst := by
  induction l with
  | nil => simp [fmLookup]
  | cons kv t ih =>
    obtain ⟨k0, v0⟩ := kv
    by_cases h0 : k0 = k
    · subst h0
      simp [fmLookup]
    · have h0' : k ≠ k0 := Ne.symm h0
      simp [fmLookup, h0, h0', ih]

theorem fmInsert_fresh {κ α : Type} [BEq κ] [LawfulBEq κ]
    (l : List (κ × α)) (k : κ) (v : α) (h : fmLookup l k = none) :
    fmInsert l k v = l ++ [(k, v)] := by
  induction l with
  | nil => simp [fmInsert]
  | cons kv t ih =>
    obtain ⟨k0, v0⟩ := kv
    by_cases h0 : k0 = k
    · subst h0
      simp [fmLookup] at h
    · simp [fmLookup, h0] at h
      simp [fmInsert, h0, ih h]

theorem fmLookup_append_right {κ α : Type} [BEq κ] [LawfulBEq κ]
    (l1 l2 : List (κ × α)) (k : κ) (h : fmLookup l1 k = none) :
    fmLookup (l1 ++ l2) k = fmLookup l2 k := by
  induction l1 with
  | nil => simp
  | cons kv t ih =>
    obtain ⟨k0, v0⟩ := kv
    by_cases h0 : k0 = k
    · subst h0
      simp [fmLookup] at h
    · simp [fmLookup, h0] at h ⊢
      exact ih h

theorem fmLookup_append_left {κ α : Type} [BEq κ] [LawfulBEq κ]
    (l1 l2 : List (κ × α)) (k : κ) (v : α) (h : fmLookup l1 k = some v) :
    fmLookup (l1 ++ l2) k = some v := by
  induction l1 with
  | nil => simp [fmLookup] at h
  | cons kv t ih =>
    obtain ⟨k0, v0⟩ := kv
    by_cases h0 : k0 = k
    · subst h0
      simp [fmLookup] at h ⊢
      exact h
    · simp [fmLookup, h0] at h ⊢
      exact ih h

theorem fmLookup_map_const_of_mem {α : Type} (l : List Nat) (i : Nat) (x : α)
    (h : i ∈ l) :
    fmLookup (l.map (fun j => (j, x))) i = some x := by
  induction l with
  | nil => simp at h
  | cons j t ih =>
    by_cases h0 : j = i
    · subst h0
      simp [fmLookup]
    · have h0' : ¬ i = j := fun hh => h0 hh.symm
      simp [h0'] at h
      simp [fmLookup, h0, ih h]

theorem fmLookup_map_const_of_not_mem {α : Type} (l : List Nat) (i : Nat) (x : α)
    (h : i ∉ l) :
    fmLookup (l.map (fun j => (j, x))) i = none := by
  induction l with
  | nil => simp [fmLookup]
  | cons j t ih =>
    simp at h
    have h1 : ¬ j = i := fun hh => h.1 hh.symm
    simp [fmLookup, h1, ih h.2]

theorem cbInsert_fresh (l : List Nat) (i : Nat) (h : i ∉ l) :
    cbInsert l i = l ++ [i] := by
  simp [cbInsert]
  intro hmem
  exact absurd hmem h

/-! ### C1: correlation of concurrently issued calls with their replies -/

theorem sendAll_ids (c : Conn) (calls : List (String × String × Payload)) :
    (sendAll c calls).2 = List.range' (c.lastId + 1) calls.length := by
  induction calls generalizing c with
  | nil => simp [sendAll]
  | cons call rest ih =>
    obtain ⟨g, m, p⟩ := call
    simp [sendAll, sendMessageToServer, ih, List.range'_succ]

theorem sendAll_frame (c : Conn) (calls : List (String × String × Payload)) :
    (sendAll c calls).1.lastId = c.lastId + calls.length
    ∧ (sendAll c calls).1.objects = c.objects
    ∧ (sendAll c calls).1.heap = c.heap
    ∧ (sendAll c calls).1.error = c.error := by
  induction calls generalizing c with
  | nil => simp [sendAll]
  | cons call rest ih =>
    obtain ⟨g, m, p⟩ := call
    have h := ih (sendMessageToServer c g m p).1
    simp [sendAll, sendMessageToServer] at h ⊢
    refine ⟨by omega, h.2.1, h.2.2.1, h.2.2.2⟩

theorem sendAll_tables (c : Conn) (calls : List (String × String × Payload))
    (hcb : ∀ k ∈ c.callbacks, k ≤ c.lastId)
    (hfut : ∀ k ∈ c.futures.map Prod.fst, k ≤ c.lastId) :
    (sendAll c calls).1.callbacks
      = c.callbacks ++ List.range' (c.lastId + 1) calls.length
    ∧ (sendAll c calls).1.futures
      = c.futures ++ (List.range' (c.lastId + 1) calls.length).map
          (fun i => (i, FutureState.pending)) := by
  induction calls generalizing c with
  | nil => simp [sendAll]
  | cons call rest ih =>
    obtain ⟨g, m, p⟩ := call
    have hcbf : (c.lastId + 1) ∉ c.callbacks := by
      intro hmem
      exact absurd (hcb _ hmem) (by omega)
    have hfutf : fmLookup c.futures (c.lastId + 1) = none := by
      rw [fmLookup_eq_none_iff]
      intro hmem
      exact absurd (hfut _ hmem) (by omega)
    have hstep1 : (sendMessageToServer c g m p).1.callbacks
        = c.callbacks ++ [c.lastId + 1] := by
      simp [sendMessageToServer, cbInsert_fresh _ _ hcbf]
    have hstep2 : (sendMessageToServer c g m p).1.futures
        = c.futures ++ [(c.lastId + 1, FutureState.pending)] := by
      simp [sendMessageToServer, fmInsert_fresh _ _ _ hfutf]
    have hcb1 : ∀ k ∈ (sendMessageToServer c g m p).1.callbacks,
        k ≤ (sendMessageToServer c g m p).1.lastId := by
      rw [hstep1]
      intro k hk
      simp [sendMessageToServer]
      rcases List.mem_append.mp hk with hk | hk
      · exact le_trans (hcb _ hk) (by omega)
      · simp at hk
        omega
    have hfut1 : ∀ k ∈ (sendMessageToServer c g m p).1.futures.map Prod.fst,
        k ≤ (sendMessageToServer c g m p).1.lastId := by
      rw [hstep2]
      intro k hk
      simp [sendMessageToServer]
      simp at hk
      rcases hk with hk | hk
      · obtain ⟨x, hx⟩ := hk
        exact le_trans (hfut k (by simpa using List.mem_map_of_mem Prod.fst hx)) (by omega)
      · omega
    have hlast : (sendMessageToServer c g m p).1.lastId = c.lastId + 1 := by
      simp [sendMessageToServer]
    have h := ih (sendMessageToServer c g m p).1 hcb1 hfut1
    rw [hstep1, hstep2, hlast] at h
    constructor
    · show (sendAll (sendMessageToServer c g m p).1 rest).1.callbacks = _
      rw [h.1]
      simp [List.range'_succ, List.append_assoc]
    · show (sendAll (sendMessageToServer c g m p).1 rest).1.futures = _
      rw [h.2]
      simp [List.range'_succ, List.append_assoc]

theorem deliverAll_spec (replies : List (Nat × Payload)) (c : Conn)
    (hnodup : (replies.map Prod.fst).Nodup)
    (hcbnd : c.callbacks.Nodup)
    (hpend : ∀ i p, (i, p) ∈ replies →
      i ∈ c.callbacks ∧ fmLookup c.futures i = some .pending ∧ i ≠ 0) :
    ∃ c2, deliverAll c replies = .ok c2
      ∧ c2.objects = c.objects ∧ c2.heap = c.heap ∧ c2.lastId = c.lastId
      ∧ c2.error = c.error ∧ c2.callbacks.Nodup
      ∧ (∀ i p, (i, p) ∈ replies →
          i ∉ c2.callbacks
          ∧ fmLookup c2.futures i
              = some (.resolved (replaceGuidsWithChannels c.objects c.heap p)))
      ∧ (∀ j, j ∉ replies.map Prod.fst →
          (j ∈ c2.callbacks ↔ j ∈ c.callbacks)
          ∧ fmLookup c2.futures j = fmLookup c.futures j) := by
  induction replies generalizing c with
  | nil =>
    exact ⟨c, rfl, rfl, rfl, rfl, rfl, hcbnd, by simp, by simp⟩
  | cons reply rest ih =>
    obtain ⟨i, p⟩ := reply
    obtain ⟨hmem, hpendi, hi0⟩ := hpend i p (by simp)
    have hikeys : i ∉ rest.map Prod.fst := (List.nodup_cons.mp (by simpa using hnodup)).1
    have hrestnd : (rest.map Prod.fst).Nodup := (List.nodup_cons.mp (by simpa using hnodup)).2
    have hdisp : dispatch c (replyMsg i p)
        = .ok { c with callbacks := c.callbacks.erase i,
                       futures := fmInsert c.futures i
                         (.resolved (replaceGuidsWithChannels c.objects c.heap p)) } := by
      unfold dispatch
      simp [replyMsg, hi0, hmem, hpendi]
    set c1 : Conn :=
      { c with callbacks := c.callbacks.erase i,
               futures := fmInsert c.futures i
                 (.resolved (replaceGuidsWithChannels c.objects c.heap p)) } with hc1
    have hcbnd1 : c1.callbacks.Nodup := hcbnd.erase i
    have hpend1 : ∀ j q, (j, q) ∈ rest →
        j ∈ c1.callbacks ∧ fmLookup c1.futures j = some .pending ∧ j ≠ 0 := by
      intro j q hjq
      obtain ⟨hj1, hj2, hj3⟩ := hpend j q (by simp [hjq])
      have hji : j ≠ i := by
        intro hh
        subst hh
        exact hikeys (List.mem_map_of_mem Prod.fst hjq)
      refine ⟨?_, ?_, hj3⟩
      · exact (List.mem_erase_of_ne hji).mpr hj1
      · show fmLookup (fmInsert c.futures i _) j = some .pending
        rw [fmLookup_insert_ne _ _ _ _ hji]
        exact hj2
    obtain ⟨c2, hrun, hobj, hheap, hlast, herr, hnd2, hres, hframe⟩ :=
      ih c1 hrestnd hcbnd1 hpend1
    refine ⟨c2, ?_, ?_, ?_, ?_, ?_, hnd2, ?_, ?_⟩
    · show deliverAll c ((i, p) :: rest) = .ok c2
      simp only [deliverAll, hdisp]
      exact hrun
    · exact hobj
    · exact hheap
    · exact hlast
    · exact herr
    · intro j q hjq
      rcases List.mem_cons.mp hjq with hjq | hjq
      · cases hjq
        have hfr := hframe i hikeys
        constructor
        · intro hmem2
          have hin := hfr.1.mp hmem2
          exact ((hcbnd.mem_erase_iff).mp hin).1 rfl
        · rw [hfr.2]
          show fmLookup (fmInsert c.futures i _) i = _
          rw [fmLookup_insert_self]
      · obtain ⟨hj1, hj2⟩ := hres j q hjq
        exact ⟨hj1, hj2⟩
    · intro j hj
      have hji : j ≠ i := by
        intro hh
        subst hh
        exact hj (by simp)
      have hjrest : j ∉ rest.map Prod.fst := by
        intro hh
        exact hj (by simp [hh])
      have hfr := hframe j hjrest
      constructor
      · rw [hfr.1]
        show j ∈ c.callbacks.erase i ↔ j ∈ c.callbacks
        exact List.mem_erase_of_ne hji
      · rw [hfr.2]
        show fmLookup (fmInsert c.futures i _) j = fmLookup c.futures j
        exact fmLookup_insert_ne _ _ _ _ hji

/-- C1: for every batch of N calls issued on one connection,
`_send_message_to_server` assigns distinct, monotonically increasing
correlation ids (`lastId+1 … lastId+N`) and stores exactly one
`ProtocolCallback` per id; for every arrival order of the N replies,
`dispatch` resolves each callback with exactly the reply carrying its id
and removes it from the callback table exactly once — a second delivery
of the same id raises `KeyError`. -/
theorem c1_correlation (c : Conn) (calls : List (String × String × Payload))
    (replies : List (Nat × Payload))
    (hcb : ∀ k ∈ c.callbacks, k ≤ c.lastId)
    (hfut : ∀ k ∈ c.futures.map Prod.fst, k ≤ c.lastId)
    (hcbnd : c.callbacks.Nodup)
    (hperm : (replies.map Prod.fst).Perm (sendAll c calls).2) :
    (sendAll c calls).2 = List.range' (c.lastId + 1) calls.length
    ∧ List.Pairwise (· < ·) (sendAll c calls).2
    ∧ (∀ i ∈ (sendAll c calls).2,
        (sendAll c calls).1.callbacks.count i = 1
        ∧ fmLookup (sendAll c calls).1.futures i = some .pending)
    ∧ ∃ c2, deliverAll (sendAll c calls).1 replies = .ok c2
        ∧ (∀ i p, (i, p) ∈ replies →
            fmLookup c2.futures i
              = some (.resolved (replaceGuidsWithChannels c.objects c.heap p))
            ∧ i ∉ c2.callbacks
            ∧ dispatch c2 (replyMsg i p) = .error "KeyError") := by
  have hids := sendAll_ids c calls
  have htab := sendAll_tables c calls hcb hfut
  have hidnodup : (sendAll c calls).2.Nodup := by
    rw [hids]
    exact List.nodup_range' _ _ 1 (by norm_num)
  have hmemid : ∀ i ∈ (sendAll c calls).2, c.lastId + 1 ≤ i ∧ i ≠ 0 := by
    intro i hi
    rw [hids] at hi
    have := List.mem_range'_1.mp hi
    omega
  have hfreshcb : ∀ i ∈ (sendAll c calls).2, i ∉ c.callbacks := by
    intro i hi hmem
    have h1 := (hmemid i hi).1
    have h2 := hcb i hmem
    omega
  have hfreshfut : ∀ i ∈ (sendAll c calls).2, fmLookup c.futures i = none := by
    intro i hi
    rw [fmLookup_eq_none_iff]
    intro hmem
    have h1 := (hmemid i hi).1
    have h2 := hfut i hmem
    omega
  refine ⟨hids, ?_, ?_, ?_⟩
  · rw [hids]
    exact List.pairwise_lt_range' _ _ 1 (by norm_num)
  · intro i hi
    have hi' : i ∈ List.range' (c.lastId + 1) calls.length := by
      rw [hids] at hi
      exact hi
    have hnd' : (List.range' (c.lastId + 1) calls.length).Nodup := by
      rw [hids] at hidnodup
      exact hidnodup
    constructor
    · rw [htab.1, List.count_append,
        List.count_eq_zero_of_not_mem (hfreshcb i hi),
        List.count_eq_one_of_mem hnd' hi']
    · rw [htab.2, fmLookup_append_right _ _ _ (hfreshfut i hi)]
      exact fmLookup_map_const_of_mem _ _ _ hi' 
  · have hnodup : (replies.map Prod.fst).Nodup := hperm.nodup_iff.mpr hidnodup
    have hdisj : List.Disjoint c.callbacks (sendAll c calls).2 := by
      intro k hk1 hk2
      exact hfreshcb k hk2 hk1
    have hcbnd1 : (sendAll c calls).1.callbacks.Nodup := by
      rw [htab.1, ← hids]
      exact hcbnd.append hidnodup hdisj
    have hpend : ∀ i p, (i, p) ∈ replies →
        i ∈ (sendAll c calls).1.callbacks
        ∧ fmLookup (sendAll c calls).1.futures i = some .pending
        ∧ i ≠ 0 := by
      intro i p hip
      have hikey : i ∈ (sendAll c calls).2 :=
        hperm.mem_iff.mp (List.mem_map_of_mem Prod.fst hip)
      refine ⟨?_, ?_, (hmemid i hikey).2⟩
      · rw [htab.1, ← hids]
        exact List.mem_append_right _ hikey
      · rw [htab.2, fmLookup_append_right _ _ _ (hfreshfut i hikey)]
        rw [hids] at hikey
        exact fmLookup_map_const_of_mem _ _ _ hikey
    obtain ⟨c2, hrun, hobj, hheap, _, _, _, hres, _⟩ :=
      deliverAll_spec replies (sendAll c calls).1 hnodup hcbnd1 hpend
    have hframe := sendAll_frame c calls
    refine ⟨c2, hrun, ?_⟩
    intro i p hip
    obtain ⟨hnot, hresv⟩ := hres i p hip
    have hi0 : i ≠ 0 := by
      have hikey : i ∈ (sendAll c calls).2 :=
        hperm.mem_iff.mp (List.mem_map_of_mem Prod.fst hip)
      exact (hmemid i hikey).2
    refine ⟨?_, hnot, ?_⟩
    · rw [hresv, hframe.2.1, hframe.2.2.1]
    · have hcont : ¬ i ∈ c2.callbacks := hnot
      unfold dispatch
      simp [replyMsg, hi0, hcont]

/-- Witness for C1: two calls on a fresh connection, replies delivered in
reverse order. -/
theorem c1_correlation_witness :
    (sendAll conn0 [("", "a", .dict []), ("", "b", .dict [])]).2 = [1, 2]
    ∧ ∃ c2,
        deliverAll (sendAll conn0 [("", "a", .dict []), ("", "b", .dict [])]).1
            [(2, .str "y"), (1, .str "x")] = .ok c2
        ∧ fmLookup c2.futures 1 = some (.resolved (.str "x"))
        ∧ fmLookup c2.futures 2 = some (.resolved (.str "y")) := by
  have h := c1_correlation conn0 [("", "a", .dict []), ("", "b", .dict [])]
    [(2, .str "y"), (1, .str "x")]
    (by intro k hk; simp [conn0] at hk)
    (by intro k hk; simp [conn0] at hk)
    (by simp [conn0])
    (by decide)
  obtain ⟨c2, hrun, hres⟩ := h.2.2.2
  refine ⟨h.1.trans (by rfl), c2, hrun, ?_, ?_⟩
  · exact (hres 1 (.str "x") (by simp)).1
  · exact (hres 2 (.str "y") (by simp)).1

/-! ### More finite-map lemmas (for the object graph) -/

theorem fmLookup_some_mem {κ α : Type} [BEq κ] [LawfulBEq κ]
    (l : List (κ × α)) (k : κ) (v : α) (h : fmLookup l k = some v) :
    (k, v) ∈ l := by
  induction l with
  | nil => simp [fmLookup] at h
  | cons kv t ih =>
    obtain ⟨k0, v0⟩ := kv
    by_cases h0 : k0 = k
    · subst h0
      simp [fmLookup] at h
      simp [h]
    · simp [fmLookup, h0] at h
      simp [ih h]

theorem mem_fmLookup_of_nodupKeys {κ α : Type} [BEq κ] [LawfulBEq κ]
    (l : List (κ × α)) (k : κ) (v : α)
    (hmem : (k, v) ∈ l) (hnd : (l.map Prod.fst).Nodup) :
    fmLookup l k = some v := by
  induction l with
  | nil => simp at hmem
  | cons kv t ih =>
    obtain ⟨k0, v0⟩ := kv
    simp at hnd
    rcases List.mem_cons.mp hmem with heq | hmem2
    · cases heq
      simp [fmLookup]
    · have hk : k0 ≠ k := by
        intro hh
        subst hh
        exact hnd.1 v hmem2
      simp [fmLookup, hk, ih hmem2 hnd.2]

theorem fmErase_map_fst_sublist {κ α : Type} [BEq κ]
    (l : List (κ × α)) (k : κ) :
    ((fmErase l k).map Prod.fst).Sublist (l.map Prod.fst) := by
  induction l with
  | nil => simp [fmErase]
  | cons kv t ih =>
    obtain ⟨k0, v0⟩ := kv
    by_cases h0 : (k0 == k) = true
    · simp [fmErase, h0]
    · simp [fmErase, h0]
      exact ih

theorem fmErase_nodupKeys {κ α : Type} [BEq κ]
    (l : List (κ × α)) (k : κ) (h : (l.map Prod.fst).Nodup) :
    ((fmErase l k).map Prod.fst).Nodup :=
  (fmErase_map_fst_sublist l k).nodup h

theorem fmLookup_erase_self_of_nodup {κ α : Type} [BEq κ] [LawfulBEq κ]
    (l : List (κ × α)) (k : κ) (h : (l.map Prod.fst).Nodup) :
    fmLookup (fmErase l k) k = none := by
  induction l with
  | nil => simp [fmErase, fmLookup]
  | cons kv t ih =>
    obtain ⟨k0, v0⟩ := kv
    simp at h
    by_cases h0 : k0 = k
    · subst h0
      simp [fmErase]
      rw [fmLookup_eq_none_iff]
      intro hmem
      obtain ⟨w, hw⟩ : ∃ w, (k0, w) ∈ t := by simpa using hmem
      exact h.1 w hw
    · simp [fmErase, h0, fmLookup, ih h.2]

theorem fmErase_length {κ α : Type} [BEq κ] [LawfulBEq κ]
    (l : List (κ × α)) (k : κ) (v : α) (h : fmLookup l k = some v) :
    (fmErase l k).length + 1 = l.length := by
  induction l with
  | nil => simp [fmLookup] at h
  | cons kv t ih =>
    obtain ⟨k0, v0⟩ := kv
    by_cases h0 : k0 = k
    · subst h0
      simp [fmErase]
    · simp [fmLookup, h0] at h
      simp [fmErase, h0, ih h]

theorem fmInsert_present_keys {κ α : Type} [BEq κ] [LawfulBEq κ]
    (l : List (κ × α)) (k : κ) (v w : α) (h : fmLookup l k = some v) :
    (fmInsert l k w).map Prod.fst = l.map Prod.fst := by
  induction l with
  | nil => simp [fmLookup] at h
  | cons kv t ih =>
    obtain ⟨k0, v0⟩ := kv
    by_cases h0 : k0 = k
    · subst h0
      simp [fmInsert]
    · simp [fmLookup, h0] at h
      simp [fmInsert, h0, ih h]

theorem fmInsert_lookup_self_eq {κ α : Type} [BEq κ] [LawfulBEq κ]
    (l : List (κ × α)) (k : κ) (v : α) (h : fmLookup l k = some v) :
    fmInsert l k v = l := by
  induction l with
  | nil => simp [fmLookup] at h
  | cons kv t ih =>
    obtain ⟨k0, v0⟩ := kv
    by_cases h0 : k0 = k
    · subst h0
      simp [fmLookup] at h
      simp [fmInsert, h]
    · simp [fmLookup, h0] at h
      simp [fmInsert, h0, ih h]

/-! ### The object graph as a tree -/

/-- Reachability by walking child dicts in heap `h` from `a` down to `b`
(the spec's "reachable from the root by walking child sets"). -/
inductive Reach (h : List (Nat × ObjData)) : Nat → Nat → Prop where
  | refl (a : Nat) : Reach h a a
  | step (a y b : Nat) (o : ObjData) (g : String) :
      fmLookup h a = some o → (g, y) ∈ o.children → Reach h y b → Reach h a b

/-- `Forest h O pr kids l`: the child dict `kids` of parent `pr` spans
well-formed, pairwise disjoint trees in heap `h`: every entry points to a
live object carrying that guid whose parent pointer is `pr`, the object's
own child dict recursively spans its subtree, and `l` collects the subtree
references (node first, then its subtrees, then the remaining siblings). -/
inductive Forest (h : List (Nat × ObjData)) (O : List (String × Nat)) :
    Nat → List (String × Nat) → List Nat → Prop where
  | nil (pr : Nat) : Forest h O pr [] []
  | cons (pr : Nat) (g : String) (x : Nat) (xo : ObjData)
      (rest : List (String × Nat)) (lx lrest : List Nat) :
      fmLookup h x = some xo →
      xo.guid = g →
      xo.parent = some pr →
      fmLookup O g = some x →
      Forest h O x xo.children lx →
      Forest h O pr rest lrest →
      fmLookup rest g = none →
      x ∉ lx →
      pr ∉ x :: lx →
      (∀ z ∈ x :: lx, z ∉ lrest) →
      Forest h O pr ((g, x) :: rest) (x :: (lx ++ lrest))

/-- No live object (`dispose` of the root empties the registry for good). -/
def WFdead (c : Conn) : Prop := ∀ g, fmLookup c.objects g = none

/-- The connection's object registries form a rooted tree: the root object
(allocation 0, guid `""`, no parent) is live, its child dict spans a
forest `l`, the flat index contains exactly the tree's nodes with matching
guids and channels, and the bookkeeping lists are duplicate-free. -/
def WFrooted (c : Conn) : Prop :=
  ∃ ro l,
    fmLookup c.heap 0 = some ro
    ∧ ro.parent = none
    ∧ ro.guid = ""
    ∧ fmLookup c.objects "" = some 0
    ∧ Forest c.heap c.objects 0 ro.children l
    ∧ 0 ∉ l
    ∧ (∀ g r, fmLookup c.objects g = some r → r ∈ 0 :: l)
    ∧ (∀ g r, fmLookup c.objects g = some r →
        ∃ o, fmLookup c.heap r = some o ∧ o.guid = g
          ∧ o.channel = { ref := r, guid := g })
    ∧ (∀ r, r ∈ c.heap.map Prod.fst → r < c.nextRef)
    ∧ (c.heap.map Prod.fst).Nodup
    ∧ (c.objects.map Prod.fst).Nodup

/-- The object registries are in a well-formed state. -/
def WFconn (c : Conn) : Prop := WFdead c ∨ WFrooted c

/-- The registry-consistency property of C2: every live object carries its
index guid and sits in its parent's child dict; no object sits in two
parents' child dicts (nor twice in one); and every live object is
reachable from the root by walking child dicts. -/
def Consistent (c : Conn) : Prop :=
  (∀ g r, fmLookup c.objects g = some r →
    ∃ o, fmLookup c.heap r = some o ∧ o.guid = g
      ∧ ∀ p, o.parent = some p →
          ∃ po, fmLookup c.heap p = some po ∧ fmLookup po.children g = some r)
  ∧ (∀ r g₁ g₂ q₁ q₂ o₁ o₂ k₁ k₂,
      fmLookup c.objects g₁ = some q₁ → fmLookup c.objects g₂ = some q₂ →
      fmLookup c.heap q₁ = some o₁ → fmLookup c.heap q₂ = some o₂ →
      fmLookup o₁.children k₁ = some r → fmLookup o₂.children k₂ = some r →
      q₁ = q₂ ∧ k₁ = k₂)
  ∧ (∀ g r, fmLookup c.objects g = some r → Reach c.heap 0 r)

/-! ### Basic facts about `Forest` -/

theorem forest_pr_not_mem {h : List (Nat × ObjData)} {O : List (String × Nat)}
    {pr : Nat} {kids : List (String × Nat)} {l : List Nat}
    (F : Forest h O pr kids l) : pr ∉ l := by
  induction F with
  | nil => simp
  | cons pr g x xo rest lx lrest h1 h2 h3 h4 Fx Frest hkey hxl hpr hdisj ihx ihrest =>
    intro hmem
    rcases List.mem_cons.mp hmem with hmem | hmem
    · exact hpr (by simp [hmem])
    · rcases List.mem_append.mp hmem with hmem | hmem
      · exact hpr (by simp [hmem])
      · exact ihrest hmem

theorem forest_mem_node {h : List (Nat × ObjData)} {O : List (String × Nat)}
    {pr : Nat} {kids : List (String × Nat)} {l : List Nat}
    (F : Forest h O pr kids l) :
    ∀ z ∈ l, ∃ zo, fmLookup h z = some zo ∧ fmLookup O zo.guid = some z := by
  induction F with
  | nil => simp
  | cons pr g x xo rest lx lrest h1 h2 h3 h4 Fx Frest hkey hxl hpr hdisj ihx ihrest =>
    intro z hz
    rcases List.mem_cons.mp hz with hz | hz
    · subst hz
      exact ⟨xo, h1, by rw [h2]; exact h4⟩
    · rcases List.mem_append.mp hz with hz | hz
      · exact ihx z hz
      · exact ihrest z hz

theorem forest_nodup {h : List (Nat × ObjData)} {O : List (String × Nat)}
    {pr : Nat} {kids : List (String × Nat)} {l : List Nat}
    (F : Forest h O pr kids l) : l.Nodup := by
  induction F with
  | nil => simp
  | cons pr g x xo rest lx lrest h1 h2 h3 h4 Fx Frest hkey hxl hpr hdisj ihx ihrest =>
    refine List.nodup_cons.mpr ⟨?_, ?_⟩
    · intro hmem
      rcases List.mem_append.mp hmem with hmem | hmem
      · exact hxl hmem
      · exact hdisj x (by simp) hmem
    · refine List.Nodup.append ihx ihrest ?_
      intro z hz1 hz2
      exact hdisj z (by simp [hz1]) hz2

theorem forest_kids_nodupKeys {h : List (Nat × ObjData)} {O : List (String × Nat)}
    {pr : Nat} {kids : List (String × Nat)} {l : List Nat}
    (F : Forest h O pr kids l) : (kids.map Prod.fst).Nodup := by
  induction F with
  | nil => simp
  | cons pr g x xo rest lx lrest h1 h2 h3 h4 Fx Frest hkey hxl hpr hdisj ihx ihrest =>
    refine List.nodup_cons.mpr ⟨?_, ihrest⟩
    intro hmem
    obtain ⟨w, hw⟩ : ∃ w, (g, w) ∈ rest := by simpa using hmem
    have : fmLookup rest g ≠ none := by
      intro hnone
      rw [fmLookup_eq_none_iff] at hnone
      exact hnone (List.mem_map_of_mem Prod.fst hw)
    exact this hkey

theorem forest_functional {h : List (Nat × ObjData)} {O : List (String × Nat)}
    {pr : Nat} {kids : List (String × Nat)} {l₁ : List Nat}
    (F : Forest h O pr kids l₁) :
    ∀ l₂, Forest h O pr kids l₂ → l₁ = l₂ := by
  induction F with
  | nil =>
    intro l₂ F₂
    cases F₂
    rfl
  | cons pr g x xo rest lx lrest h1 h2 h3 h4 Fx Frest hkey hxl hpr hdisj ihx ihrest =>
    intro l₂ F₂
    cases F₂ with
    | cons _ _ _ xo' _ lx' lrest' h1' h2' h3' h4' Fx' Frest' =>
      have hxo : xo = xo' := by
        rw [h1] at h1'
        exact Option.some.inj h1'
      subst hxo
      rw [ihx lx' Fx', ihrest lrest' Frest']

theorem forest_frame {h h' : List (Nat × ObjData)} {O O' : List (String × Nat)}
    {pr : Nat} {kids : List (String × Nat)} {l : List Nat}
    (F : Forest h O pr kids l)
    (hagree : ∀ z ∈ l, fmLookup h' z = fmLookup h z)
    (hO : ∀ z ∈ l, ∀ zo, fmLookup h z = some zo →
      fmLookup O' zo.guid = fmLookup O zo.guid) :
    Forest h' O' pr kids l := by
  induction F with
  | nil p => exact .nil p
  | cons pr g x xo rest lx lrest h1 h2 h3 h4 Fx Frest hkey hxl hpr hdisj ihx ihrest =>
    have hxmem : x ∈ x :: (lx ++ lrest) := by simp
    refine Forest.cons pr g x xo rest lx lrest ?_ h2 h3 ?_ ?_ ?_ hkey hxl hpr hdisj
    · rw [hagree x hxmem]
      exact h1
    · have hg := hO x hxmem xo h1
      rw [h2] at hg
      rw [hg]
      exact h4
    · refine ihx ?_ ?_
      · intro z hz
        exact hagree z (by simp [hz])
      · intro z hz zo hzo
        exact hO z (by simp [hz]) zo hzo
    · refine ihrest ?_ ?_
      · intro z hz
        exact hagree z (by simp [hz])
      · intro z hz zo hzo
        exact hO z (by simp [hz]) zo hzo

theorem forest_edge {h : List (Nat × ObjData)} {O : List (String × Nat)}
    {pr : Nat} {kids : List (String × Nat)} {l : List Nat}
    (F : Forest h O pr kids l) :
    ∀ g x, (g, x) ∈ kids → x ∈ l
      ∧ ∃ xo, fmLookup h x = some xo ∧ xo.guid = g ∧ xo.parent = some pr
        ∧ fmLookup O g = some x := by
  induction F with
  | nil => simp
  | cons pr g x xo rest lx lrest h1 h2 h3 h4 Fx Frest hkey hxl hpr hdisj ihx ihrest =>
    intro g' x' hmem
    rcases List.mem_cons.mp hmem with hmem | hmem
    · cases hmem
      exact ⟨by simp, xo, h1, h2, h3, h4⟩
    · obtain ⟨hxm, rest_data⟩ := ihrest g' x' hmem
      exact ⟨by simp [hxm], rest_data⟩

theorem forest_reach {h : List (Nat × ObjData)} {O : List (String × Nat)}
    {pr : Nat} {kids : List (String × Nat)} {l : List Nat}
    (F : Forest h O pr kids l) :
    ∀ z ∈ l, ∃ g y, (g, y) ∈ kids ∧ Reach h y z := by
  induction F with
  | nil => simp
  | cons pr g x xo rest lx lrest h1 h2 h3 h4 Fx Frest hkey hxl hpr hdisj ihx ihrest =>
    intro z hz
    rcases List.mem_cons.mp hz with hz | hz
    · subst hz
      exact ⟨g, z, by simp, .refl z⟩
    · rcases List.mem_append.mp hz with hz | hz
      · obtain ⟨g', y, hmem, hreach⟩ := ihx z hz
        exact ⟨g, x, by simp, .step x y z xo g' h1 hmem hreach⟩
      · obtain ⟨g', y, hmem, hreach⟩ := ihrest z hz
        exact ⟨g', y, by simp [hmem], hreach⟩

theorem forest_sub {h : List (Nat × ObjData)} {O : List (String × Nat)}
    {pr : Nat} {kids : List (String × Nat)} {l : List Nat}
    (F : Forest h O pr kids l) :
    ∀ x ∈ l, ∃ xo lx op, fmLookup h x = some xo
      ∧ Forest h O x xo.children lx
      ∧ xo.parent = some op ∧ op ∉ x :: lx ∧ x ∉ lx
      ∧ fmLookup O xo.guid = some x
      ∧ (∀ z ∈ x :: lx, z ∈ l)
      ∧ ((op = pr ∧ fmLookup kids xo.guid = some x)
         ∨ (op ∈ l ∧ ∃ oo, fmLookup h op = some oo
              ∧ fmLookup oo.children xo.guid = some x)) := by
  induction F with
  | nil => simp
  | cons pr g x xo rest lx lrest h1 h2 h3 h4 Fx Frest hkey hxl hpr hdisj ihx ihrest =>
    intro z hz
    rcases List.mem_cons.mp hz with hz | hz
    · subst hz
      refine ⟨xo, lx, pr, h1, Fx, h3, hpr, hxl, by rw [h2]; exact h4, ?_, ?_⟩
      · intro w hw
        rcases List.mem_cons.mp hw with hw | hw
        · simp [hw]
        · simp [hw]
      · left
        refine ⟨rfl, ?_⟩
        rw [h2]
        simp [fmLookup]
    · rcases List.mem_append.mp hz with hz | hz
      · obtain ⟨zo, lz, op, hz1, hz2, hz3, hz4, hz5, hz6, hz7, hz8⟩ := ihx z hz
        refine ⟨zo, lz, op, hz1, hz2, hz3, hz4, hz5, hz6, ?_, ?_⟩
        · intro w hw
          simp [List.mem_append.mpr (Or.inl (hz7 w hw))]
        · right
          rcases hz8 with ⟨hop, hlk⟩ | ⟨hop, oo, hoo1, hoo2⟩
          · subst hop
            exact ⟨by simp, xo, h1, hlk⟩
          · exact ⟨by simp [hop], oo, hoo1, hoo2⟩
      · obtain ⟨zo, lz, op, hz1, hz2, hz3, hz4, hz5, hz6, hz7, hz8⟩ := ihrest z hz
        refine ⟨zo, lz, op, hz1, hz2, hz3, hz4, hz5, hz6, ?_, ?_⟩
        · intro w hw
          simp [List.mem_append.mpr (Or.inr (hz7 w hw))]
        · rcases hz8 with ⟨hop, hlk⟩ | ⟨hop, oo, hoo1, hoo2⟩
          · left
            refine ⟨hop, ?_⟩
            have hgne : g ≠ zo.guid := by
              intro hh
              rw [← hh] at hlk
              rw [hkey] at hlk
              cases hlk
            simp [fmLookup, hgne, hlk]
          · right
            exact ⟨by simp [hop], oo, hoo1, hoo2⟩

/-! ### Well-formedness implies the C2 consistency properties -/

theorem wf_consistent (c : Conn) (hwf : WFconn c) : Consistent c := by
  rcases hwf with hdead | hrooted
  · refine ⟨?_, ?_, ?_⟩
    · intro g r hg
      rw [hdead g] at hg
      cases hg
    · intro r g₁ g₂ q₁ q₂ o₁ o₂ k₁ k₂ hg1 hg2
      rw [hdead g₁] at hg1
      cases hg1
    · intro g r hg
      rw [hdead g] at hg
      cases hg
  · obtain ⟨ro, l, hro, hrop, hrog, hro0, F, h0l, hlive, hmatch, hfresh, hhnd, hond⟩ :=
      hrooted
    refine ⟨?_, ?_, ?_⟩
    · intro g r hg
      obtain ⟨o, ho, hog, hoch⟩ := hmatch g r hg
      refine ⟨o, ho, hog, ?_⟩
      intro p hp
      have hr0l := hlive g r hg
      rcases List.mem_cons.mp hr0l with hh | hh
      · subst hh
        have hor : o = ro := by
          rw [ho] at hro
          exact Option.some.inj hro
        subst hor
        rw [hrop] at hp
        cases hp
      · obtain ⟨xo, lx, op, hx1, hx2, hx3, hx4, hx5, hx6, hx7, hx8⟩ := forest_sub F r hh
        have hxo : xo = o := by
          rw [hx1] at ho
          exact Option.some.inj ho
        subst hxo
        have hop : op = p := by
          rw [hx3] at hp
          exact Option.some.inj hp
        subst hop
        rcases hx8 with ⟨hpr, hlk⟩ | ⟨hop2, oo, hoo1, hoo2⟩
        · subst hpr
          refine ⟨ro, hro, ?_⟩
          rw [← hog]
          exact hlk
        · refine ⟨oo, hoo1, ?_⟩
          rw [← hog]
          exact hoo2
    · intro r g₁ g₂ q₁ q₂ o₁ o₂ k₁ k₂ hg1 hg2 hq1 hq2 hk1 hk2
      have hedge : ∀ gq q oq k, fmLookup c.objects gq = some q →
          fmLookup c.heap q = some oq → fmLookup oq.children k = some r →
          ∃ rr, fmLookup c.heap r = some rr ∧ rr.guid = k ∧ rr.parent = some q := by
        intro gq q oq k hgq hq hk
        have hmem := fmLookup_some_mem _ _ _ hk
        have hq0l := hlive gq q hgq
        rcases List.mem_cons.mp hq0l with hh | hh
        · subst hh
          have hoq : oq = ro := by
            rw [hq] at hro
            exact (Option.some.inj hro)
          subst hoq
          obtain ⟨hrl, rr, hrr1, hrr2, hrr3, _⟩ := forest_edge F k r hmem
          exact ⟨rr, hrr1, hrr2, hrr3⟩
        · obtain ⟨xo, lx, op, hx1, hx2, _⟩ := forest_sub F q hh
          have hxo : xo = oq := by
            rw [hx1] at hq
            exact Option.some.inj hq
          subst hxo
          obtain ⟨hrl, rr, hrr1, hrr2, hrr3, _⟩ := forest_edge hx2 k r hmem
          exact ⟨rr, hrr1, hrr2, hrr3⟩
      obtain ⟨r1, hr1, hrg1, hrp1⟩ := hedge g₁ q₁ o₁ k₁ hg1 hq1 hk1
      obtain ⟨r2, hr2, hrg2, hrp2⟩ := hedge g₂ q₂ o₂ k₂ hg2 hq2 hk2
      have hr12 : r1 = r2 := by
        rw [hr1] at hr2
        exact Option.some.inj hr2
      subst hr12
      constructor
      · rw [hrp1] at hrp2
        exact Option.some.inj hrp2
      · rw [hrg1] at hrg2
        exact hrg2
    · intro g r hg
      have hr0l := hlive g r hg
      rcases List.mem_cons.mp hr0l with hh | hh
      · subst hh
        exact .refl 0
      · obtain ⟨g', y, hmem, hre⟩ := forest_reach F r hh
        exact .step 0 y r ro g' hro hmem hre

theorem fmLookup_append_none {κ α : Type} [BEq κ] [LawfulBEq κ]
    (l1 l2 : List (κ × α)) (k : κ)
    (h1 : fmLookup l1 k = none) (h2 : fmLookup l2 k = none) :
    fmLookup (l1 ++ l2) k = none := by
  rw [fmLookup_append_right _ _ _ h1]
  exact h2

/-- Attaching a detached subtree (root `s`, guid `gs`, subtree refs `ls`,
parent pointer already set to `p`) as a new last child of `p`, at the level
of `p`'s own child forest. -/
theorem forest_attach_here {h' : List (Nat × ObjData)} {O' : List (String × Nat)}
    (p s : Nat) (gs : String) (ls : List Nat) (so : ObjData)
    (hs : fmLookup h' s = some so)
    (hsg : so.guid = gs)
    (hsp : so.parent = some p)
    (sub : Forest h' O' s so.children ls)
    (hOs : fmLookup O' gs = some s)
    (hsls : s ∉ ls)
    (hpsls : p ∉ s :: ls) :
    ∀ kids l pr, Forest h' O' pr kids l → pr = p →
      fmLookup kids gs = none →
      (∀ z ∈ s :: ls, z ∉ l) →
      Forest h' O' pr (kids ++ [(gs, s)]) (l ++ (s :: ls)) := by
  intro kids l pr F
  induction F with
  | nil p0 =>
    intro hpr hkey hdisj
    have base : Forest h' O' p0 [(gs, s)] (s :: (ls ++ [])) := by
      rw [hpr]
      exact Forest.cons p gs s so [] ls [] hs hsg hsp hOs sub (.nil p) rfl hsls
        hpsls (by intro z hz; simp)
    simpa using base
  | cons pr g x xo rest lx lrest h1 h2 h3 h4 Fx Frest hkey hxl hpr hdisj ihrest1 ihrest2 =>
    intro hpreq hkeyg hdisj2
    have hkg : ¬ (g == gs) = true := by
      intro hgg
      simp [fmLookup, hgg] at hkeyg
    have hkeyg2 : fmLookup rest gs = none := by
      simpa [fmLookup, hkg] using hkeyg
    have hrest2 : Forest h' O' pr (rest ++ [(gs, s)]) (lrest ++ (s :: ls)) := by
      refine ihrest2 hpreq hkeyg2 ?_
      intro z hz hzmem
      exact hdisj2 z hz (by simp [hzmem])
    have hkey2 : fmLookup (rest ++ [(gs, s)]) g = none := by
      refine fmLookup_append_none _ _ _ hkey ?_
      have hgne : ¬ (gs == g) = true := by
        intro hgg
        have : gs = g := by simpa using hgg
        subst this
        exact hkg (by simp)
      simp [fmLookup, hgne]
    have hgoal : Forest h' O' pr (((g, x) :: rest) ++ [(gs, s)])
        (x :: (lx ++ (lrest ++ (s :: ls)))) := by
      refine Forest.cons pr g x xo (rest ++ [(gs, s)]) lx (lrest ++ (s :: ls))
        h1 h2 h3 h4 Fx hrest2 hkey2 hxl hpr ?_
      intro z hz hzmem
      rcases List.mem_append.mp hzmem with hm | hm
      · exact hdisj z hz hm
      · have hzin : z ∈ x :: (lx ++ lrest) := by
          rcases List.mem_cons.mp hz with hh | hh
          · simp [hh]
          · simp [hh]
        exact absurd hzin (hdisj2 z hm)
    have hlist : x :: (lx ++ (lrest ++ (s :: ls)))
        = (x :: (lx ++ lrest)) ++ (s :: ls) := by
      simp
    rw [hlist] at hgoal
    exact hgoal

/-- Attaching a detached subtree under a node `p` lying inside a forest:
the forest is rebuilt over the updated heap `h'` (which differs from `h`
only at `p`, whose child dict gains the entry `(gs, s)`, and on the
subtree's own nodes) and updated index `O'`. -/
theorem forest_attach_deep {h h' : List (Nat × ObjData)} {O O' : List (String × Nat)}
    (p s : Nat) (gs : String) (ls : List Nat) (so : ObjData)
    (hps : fmLookup h' s = some so)
    (hsg : so.guid = gs)
    (hsp : so.parent = some p)
    (sub : Forest h' O' s so.children ls)
    (hOs : fmLookup O' gs = some s)
    (hpp : ∀ po, fmLookup h p = some po →
        fmLookup h' p = some { po with children := po.children ++ [(gs, s)] })
    (hsls : s ∉ ls)
    (hpsls : p ∉ s :: ls) :
    ∀ kids l pr, Forest h O pr kids l → p ∈ l →
      (∀ z ∈ l, z ≠ p → fmLookup h' z = fmLookup h z) →
      (∀ z ∈ l, ∀ zo, fmLookup h z = some zo →
        fmLookup O' zo.guid = fmLookup O zo.guid) →
      (∀ z ∈ l, ∀ zo, fmLookup h z = some zo → zo.guid ≠ gs) →
      (∀ z ∈ s :: ls, z ∉ l) →
      pr ∉ s :: ls →
      ∃ l', Forest h' O' pr kids l' ∧ ∀ z, z ∈ l' ↔ z ∈ l ∨ z ∈ s :: ls := by
  intro kids l pr F
  induction F with
  | nil p0 =>
    intro hp
    simp at hp
  | cons pr g x xo rest lx lrest h1 h2 h3 h4 Fx Frest hkey hxl hpr hdisj ihx ihrest =>
    intro hpl hagree hOl hgl hdisjSL hprS
    have hxmem : x ∈ x :: (lx ++ lrest) := by simp
    rcases List.mem_cons.mp hpl with hpx | hplx
    · -- the attach target is this node
      have hxp : x = p := hpx.symm
      subst hxp
      have Fx1 : Forest h' O' x xo.children lx := by
        refine forest_frame Fx ?_ ?_
        · intro z hz
          exact hagree z (by simp [hz]) (fun hh => hxl (hh ▸ hz))
        · intro z hz zo hzo
          exact hOl z (by simp [hz]) zo hzo
      have hk : fmLookup xo.children gs = none := by
        rw [fmLookup_eq_none_iff]
        intro hmem
        obtain ⟨w, hw⟩ : ∃ w, (gs, w) ∈ xo.children := by simpa using hmem
        obtain ⟨hwl, wo, hwo1, hwo2, _⟩ := forest_edge Fx gs w hw
        exact hgl w (by simp [hwl]) wo hwo1 hwo2
      have hatt : Forest h' O' x (xo.children ++ [(gs, s)]) (lx ++ (s :: ls)) := by
        refine forest_attach_here x s gs ls so hps hsg hsp sub hOs hsls hpsls
          xo.children lx x Fx1 rfl hk ?_
        intro z hz hzmem
        exact hdisjSL z hz (by simp [hzmem])
      have hlook : fmLookup h' x = some { xo with children := xo.children ++ [(gs, s)] } :=
        hpp xo h1
      have Frest1 : Forest h' O' pr rest lrest := by
        refine forest_frame Frest ?_ ?_
        · intro z hz
          refine hagree z (by simp [hz]) ?_
          intro hh
          subst hh
          exact hdisj z (by simp) hz
        · intro z hz zo hzo
          exact hOl z (by simp [hz]) zo hzo
      have hO'g : fmLookup O' g = some x := by
        have hg := hOl x hxmem xo h1
        rw [h2] at hg
        rw [hg]
        exact h4
      refine ⟨x :: ((lx ++ (s :: ls)) ++ lrest), ?_, ?_⟩
      · refine Forest.cons pr g x { xo with children := xo.children ++ [(gs, s)] }
          rest (lx ++ (s :: ls)) lrest hlook (by simpa using h2) (by simpa using h3)
          hO'g (by simpa using hatt) Frest1 hkey ?_ ?_ ?_
        · intro hmem
          rcases List.mem_append.mp hmem with hm | hm
          · exact hxl hm
          · exact hpsls hm
        · intro hmem
          rcases List.mem_cons.mp hmem with hm | hm
          · exact hpr (by simp [hm])
          · rcases List.mem_append.mp hm with hm2 | hm2
            · exact hpr (by simp [hm2])
            · exact hprS hm2
        · intro z hz
          rcases List.mem_cons.mp hz with hm | hm
          · rw [hm]
            exact hdisj x (by simp)
          · rcases List.mem_append.mp hm with hm2 | hm2
            · exact hdisj z (by simp [hm2])
            · intro hzl
              exact hdisjSL z hm2 (by simp [hzl])
      · intro z
        constructor
        · intro hz
          rcases List.mem_cons.mp hz with hm | hm
          · exact Or.inl (List.mem_cons.mpr (Or.inl hm))
          · rcases List.mem_append.mp hm with hm2 | hm2
            · rcases List.mem_append.mp hm2 with hm3 | hm3
              · exact Or.inl (List.mem_cons.mpr (Or.inr (List.mem_append.mpr (Or.inl hm3))))
              · exact Or.inr hm3
            · exact Or.inl (List.mem_cons.mpr (Or.inr (List.mem_append.mpr (Or.inr hm2))))
        · intro hz
          rcases hz with hm | hm
          · rcases List.mem_cons.mp hm with hm2 | hm2
            · exact List.mem_cons.mpr (Or.inl hm2)
            · rcases List.mem_append.mp hm2 with hm3 | hm3
              · exact List.mem_cons.mpr
                  (Or.inr (List.mem_append.mpr (Or.inl (List.mem_append.mpr (Or.inl hm3)))))
              · exact List.mem_cons.mpr (Or.inr (List.mem_append.mpr (Or.inr hm3)))
          · exact List.mem_cons.mpr
              (Or.inr (List.mem_append.mpr (Or.inl (List.mem_append.mpr (Or.inr hm)))))
    · rcases List.mem_append.mp hplx with hpin | hpin
      · -- the attach target lies in this node's subtree
        have hxnp : x ≠ p := by
          intro hh
          subst hh
          exact hxl hpin
        obtain ⟨lx', Fx', hmemx⟩ := by
          refine ihx hpin ?_ ?_ ?_ ?_ ?_
          · intro z hz hznp
            exact hagree z (by simp [hz]) hznp
          · intro z hz zo hzo
            exact hOl z (by simp [hz]) zo hzo
          · intro z hz zo hzo
            exact hgl z (by simp [hz]) zo hzo
          · intro z hz hzmem
            exact hdisjSL z hz (by simp [hzmem])
          · intro hmem
            exact hdisjSL x hmem (by simp)
        have hlookx : fmLookup h' x = some xo := by
          rw [hagree x hxmem hxnp]
          exact h1
        have Frest1 : Forest h' O' pr rest lrest := by
          refine forest_frame Frest ?_ ?_
          · intro z hz
            refine hagree z (by simp [hz]) ?_
            intro hh
            subst hh
            exact hdisj z (by simp [hpin]) hz
          · intro z hz zo hzo
            exact hOl z (by simp [hz]) zo hzo
        have hO'g : fmLookup O' g = some x := by
          have hg := hOl x hxmem xo h1
          rw [h2] at hg
          rw [hg]
          exact h4
        refine ⟨x :: (lx' ++ lrest), ?_, ?_⟩
        · refine Forest.cons pr g x xo rest lx' lrest hlookx h2 h3 hO'g Fx' Frest1
            hkey ?_ ?_ ?_
          · intro hmem
            rcases (hmemx x).mp hmem with hm | hm
            · exact hxl hm
            · exact (hdisjSL x hm) hxmem
          · intro hmem
            rcases List.mem_cons.mp hmem with hm | hm
            · exact hpr (by simp [hm])
            · rcases (hmemx pr).mp hm with hm2 | hm2
              · exact hpr (by simp [hm2])
              · exact hprS hm2
          · intro z hz
            rcases List.mem_cons.mp hz with hm | hm
            · rw [hm]
              exact hdisj x (by simp)
            · rcases (hmemx z).mp hm with hm2 | hm2
              · exact hdisj z (by simp [hm2])
              · intro hzl
                exact hdisjSL z hm2 (by simp [hzl])
        · intro z
          constructor
          · intro hz
            rcases List.mem_cons.mp hz with hm | hm
            · exact Or.inl (List.mem_cons.mpr (Or.inl hm))
            · rcases List.mem_append.mp hm with hm2 | hm2
              · rcases (hmemx z).mp hm2 with hm3 | hm3
                · exact Or.inl (List.mem_cons.mpr (Or.inr (List.mem_append.mpr (Or.inl hm3))))
                · exact Or.inr hm3
              · exact Or.inl (List.mem_cons.mpr (Or.inr (List.mem_append.mpr (Or.inr hm2))))
          · intro hz
            rcases hz with hm | hm
            · rcases List.mem_cons.mp hm with hm2 | hm2
              · exact List.mem_cons.mpr (Or.inl hm2)
              · rcases List.mem_append.mp hm2 with hm3 | hm3
                · exact List.mem_cons.mpr
                    (Or.inr (List.mem_append.mpr (Or.inl ((hmemx z).mpr (Or.inl hm3)))))
                · exact List.mem_cons.mpr (Or.inr (List.mem_append.mpr (Or.inr hm3)))
            · exact List.mem_cons.mpr
                (Or.inr (List.mem_append.mpr (Or.inl ((hmemx z).mpr (Or.inr hm)))))
      · -- the attach target lies among the later siblings
        have hxnp : x ≠ p := by
          intro hh
          subst hh
          exact hdisj x (by simp) hpin
        obtain ⟨lrest', Frest', hmemr⟩ := by
          refine ihrest hpin ?_ ?_ ?_ ?_ ?_
          · intro z hz hznp
            exact hagree z (by simp [hz]) hznp
          · intro z hz zo hzo
            exact hOl z (by simp [hz]) zo hzo
          · intro z hz zo hzo
            exact hgl z (by simp [hz]) zo hzo
          · intro z hz hzmem
            exact hdisjSL z hz (by simp [hzmem])
          · exact hprS
        have hlookx : fmLookup h' x = some xo := by
          rw [hagree x hxmem hxnp]
          exact h1
        have Fx1 : Forest h' O' x xo.children lx := by
          refine forest_frame Fx ?_ ?_
          · intro z hz
            refine hagree z (by simp [hz]) ?_
            intro hh
            subst hh
            exact hdisj z (by simp [hz]) hpin
          · intro z hz zo hzo
            exact hOl z (by simp [hz]) zo hzo
        have hO'g : fmLookup O' g = some x := by
          have hg := hOl x hxmem xo h1
          rw [h2] at hg
          rw [hg]
          exact h4
        refine ⟨x :: (lx ++ lrest'), ?_, ?_⟩
        · refine Forest.cons pr g x xo rest lx lrest' hlookx h2 h3 hO'g Fx1 Frest'
            hkey hxl hpr ?_
          intro z hz hzmem
          rcases (hmemr z).mp hzmem with hm | hm
          · exact hdisj z hz hm
          · exact hdisjSL z hm (by
              rcases List.mem_cons.mp hz with hh | hh
              · simp [hh]
              · simp [hh])
        · intro z
          constructor
          · intro hz
            rcases List.mem_cons.mp hz with hm | hm
            · exact Or.inl (List.mem_cons.mpr (Or.inl hm))
            · rcases List.mem_append.mp hm with hm2 | hm2
              · exact Or.inl (List.mem_cons.mpr (Or.inr (List.mem_append.mpr (Or.inl hm2))))
              · rcases (hmemr z).mp hm2 with hm3 | hm3
                · exact Or.inl (List.mem_cons.mpr (Or.inr (List.mem_append.mpr (Or.inr hm3))))
                · exact Or.inr hm3
          · intro hz
            rcases hz with hm | hm
            · rcases List.mem_cons.mp hm with hm2 | hm2
              · exact List.mem_cons.mpr (Or.inl hm2)
              · rcases List.mem_append.mp hm2 with hm3 | hm3
                · exact List.mem_cons.mpr (Or.inr (List.mem_append.mpr (Or.inl hm3)))
                · exact List.mem_cons.mpr
                    (Or.inr (List.mem_append.mpr (Or.inr ((hmemr z).mpr (Or.inl hm3)))))
            · exact List.mem_cons.mpr
                (Or.inr (List.mem_append.mpr (Or.inr ((hmemr z).mpr (Or.inr hm)))))

theorem fmLookup_some_key {κ α : Type} [BEq κ] [LawfulBEq κ]
    (l : List (κ × α)) (k : κ) (v : α) (h : fmLookup l k = some v) :
    k ∈ l.map Prod.fst := by
  by_contra hn
  rw [(fmLookup_eq_none_iff l k).mpr hn] at h
  cases h

/-- `ChannelOwner.__init__` preserves registry well-formedness when the
parent is live and the new guid is fresh. -/
theorem wf_channelOwnerInit (c : Conn) (p : Nat) (t g : String) (init : Payload)
    (hwf : WFconn c)
    (hplive : ∃ pg, fmLookup c.objects pg = some p)
    (hg : fmLookup c.objects g = none) :
    WFconn (channelOwnerInit c p t g init) := by
  obtain ⟨pg, hpg⟩ := hplive
  rcases hwf with hdead | hrooted
  · rw [hdead pg] at hpg
    cases hpg
  obtain ⟨ro, l, hro, hrop, hrog, hro0, F, h0l, hlive, hmatch, hfresh, hhnd, hond⟩ :=
    hrooted
  obtain ⟨po, hpo, hpog, hpoch⟩ := hmatch pg p hpg
  set n := c.nextRef with hn
  set node : ObjData :=
    { guid := g, type := t, parent := some p, children := [],
      listeners := [], channel := { ref := n, guid := g },
      initializer := init } with hnode
  have hpkey : p ∈ c.heap.map Prod.fst := fmLookup_some_key _ _ _ hpo
  have hpn : p ≠ n := by
    have := hfresh p hpkey
    omega
  have hnheap : fmLookup c.heap n = none := by
    rw [fmLookup_eq_none_iff]
    intro hmem
    have := hfresh n hmem
    omega
  have hliven : ∀ z r', fmLookup c.objects z = some r' → r' ≠ n := by
    intro z r' hz hh
    obtain ⟨o, ho, _⟩ := hmatch z r' hz
    rw [hh, hnheap] at ho
    cases ho
  have h0n : (0 : Nat) ≠ n := by
    have := hfresh 0 (fmLookup_some_key _ _ _ hro)
    omega
  have hln : ∀ z ∈ l, z ≠ n := by
    intro z hz
    obtain ⟨zo, hzo, hzg⟩ := forest_mem_node F z hz
    exact hliven zo.guid z hzg
  have hguidnotg : ∀ z r' o, fmLookup c.objects z = some r' →
      fmLookup c.heap r' = some o → o.guid ≠ g := by
    intro z r' o hz ho hh
    obtain ⟨o2, ho2, hg2, _⟩ := hmatch z r' hz
    have ho22 : o2 = o := by
      rw [ho2] at ho
      exact Option.some.inj ho
    rw [ho22] at hg2
    rw [hg2] at hh
    rw [hh] at hz
    rw [hz] at hg
    cases hg
  have hheap1 : fmLookup (fmInsert c.heap n node) p = some po := by
    rw [fmLookup_insert_ne _ _ _ _ hpn]
    exact hpo
  have hresult : channelOwnerInit c p t g init
      = { c with
          heap := fmInsert (fmInsert c.heap n node) p
            { po with children := fmInsert po.children g n },
          nextRef := n + 1,
          objects := fmInsert c.objects g n } := by
    unfold channelOwnerInit
    simp only [hheap1]
  set h2 := fmInsert (fmInsert c.heap n node) p
    { po with children := fmInsert po.children g n } with hh2
  set O2 := fmInsert c.objects g n with hO2
  have hlookn : fmLookup h2 n = some node := by
    rw [hh2, fmLookup_insert_ne _ _ _ _ (Ne.symm hpn), fmLookup_insert_self]
  have hlookp : fmLookup h2 p
      = some { po with children := fmInsert po.children g n } := by
    rw [hh2]
    exact fmLookup_insert_self _ _ _
  have hlookother : ∀ z, z ≠ n → z ≠ p → fmLookup h2 z = fmLookup c.heap z := by
    intro z hzn hzp
    rw [hh2, fmLookup_insert_ne _ _ _ _ hzp, fmLookup_insert_ne _ _ _ _ hzn]
  have hO2g : fmLookup O2 g = some n := by
    rw [hO2]
    exact fmLookup_insert_self _ _ _
  have hO2other : ∀ g', g' ≠ g → fmLookup O2 g' = fmLookup c.objects g' := by
    intro g' hne
    rw [hO2]
    exact fmLookup_insert_ne _ _ _ _ hne
  have hkeys2 : h2.map Prod.fst = c.heap.map Prod.fst ++ [n] := by
    rw [hh2, fmInsert_present_keys _ _ _ _ hheap1, fmInsert_fresh _ _ _ hnheap]
    simp
  have hOkeys : O2.map Prod.fst = c.objects.map Prod.fst ++ [g] := by
    rw [hO2, fmInsert_fresh _ _ _ hg]
    simp
  have hnextbound : ∀ r, r ∈ h2.map Prod.fst → r < n + 1 := by
    intro r hr
    rw [hkeys2] at hr
    rcases List.mem_append.mp hr with hm | hm
    · have := hfresh r hm
      omega
    · simp at hm
      omega
  have hheapnodup : (h2.map Prod.fst).Nodup := by
    rw [hkeys2]
    refine List.Nodup.append hhnd (by simp) ?_
    intro z hz1 hz2
    simp at hz2
    rw [hz2] at hz1
    have := hfresh n hz1
    omega
  have hOnodup : (O2.map Prod.fst).Nodup := by
    rw [hOkeys]
    refine List.Nodup.append hond (by simp) ?_
    intro z hz1 hz2
    simp at hz2
    rw [hz2] at hz1
    rw [fmLookup_eq_none_iff] at hg
    exact hg hz1
  have hroot0 : fmLookup O2 "" = some 0 := by
    rw [hO2other "" ?_]
    · exact hro0
    · intro hh
      rw [← hh] at hg
      rw [hro0] at hg
      cases hg
  rw [hresult]
  right
  have hpkids : fmLookup po.children g = none := by
    have hlivep := hlive pg p hpg
    rcases List.mem_cons.mp hlivep with hh | hh
    · have hporo : po = ro := by
        rw [hh] at hpo
        rw [hpo] at hro
        exact Option.some.inj hro
      rw [fmLookup_eq_none_iff]
      intro hmem
      obtain ⟨w, hw⟩ : ∃ w, (g, w) ∈ po.children := by simpa using hmem
      rw [hporo] at hw
      obtain ⟨_, wo, _, _, _, hwO⟩ := forest_edge F g w hw
      rw [hg] at hwO
      cases hwO
    · obtain ⟨xo, lxp, op, hx1, hx2, _⟩ := forest_sub F p hh
      have hxo : xo = po := by
        rw [hx1] at hpo
        exact Option.some.inj hpo
      rw [fmLookup_eq_none_iff]
      intro hmem
      obtain ⟨w, hw⟩ : ∃ w, (g, w) ∈ po.children := by simpa using hmem
      rw [← hxo] at hw
      obtain ⟨_, wo, _, _, _, hwO⟩ := forest_edge hx2 g w hw
      rw [hg] at hwO
      cases hwO
  have hins : fmInsert po.children g n = po.children ++ [(g, n)] :=
    fmInsert_fresh _ _ _ hpkids
  have subleaf : Forest h2 O2 n node.children [] := .nil n
  have hlivep := hlive pg p hpg
  have hagree : ∀ z ∈ l, z ≠ p → fmLookup h2 z = fmLookup c.heap z := by
    intro z hz hzp
    exact hlookother z (hln z hz) hzp
  have hOl : ∀ z ∈ l, ∀ zo, fmLookup c.heap z = some zo →
      fmLookup O2 zo.guid = fmLookup c.objects zo.guid := by
    intro z hz zo hzo
    obtain ⟨zo2, hzo2, hzg2⟩ := forest_mem_node F z hz
    have heq : zo2 = zo := by
      rw [hzo2] at hzo
      exact Option.some.inj hzo
    rw [heq] at hzg2
    refine hO2other zo.guid ?_
    exact hguidnotg zo.guid z zo hzg2 hzo
  have hgl : ∀ z ∈ l, ∀ zo, fmLookup c.heap z = some zo → zo.guid ≠ g := by
    intro z hz zo hzo
    obtain ⟨zo2, hzo2, hzg2⟩ := forest_mem_node F z hz
    have heq : zo2 = zo := by
      rw [hzo2] at hzo
      exact Option.some.inj hzo
    rw [heq] at hzg2
    exact hguidnotg zo.guid z zo hzg2 hzo
  have hnl : n ∉ l := fun hmem => (hln n hmem) rfl
  have hmatch2common : ∀ g' r', fmLookup O2 g' = some r' →
      ∃ o, fmLookup h2 r' = some o ∧ o.guid = g'
        ∧ o.channel = { ref := r', guid := g' } := by
    intro g' r' hg'
    by_cases hgeq : g' = g
    · rw [hgeq] at hg' ⊢
      rw [hO2g] at hg'
      have hrn : r' = n := Option.some.inj hg'.symm
      rw [hrn]
      exact ⟨node, hlookn, rfl, rfl⟩
    · rw [hO2other g' hgeq] at hg'
      obtain ⟨o, ho, hog, hoch⟩ := hmatch g' r' hg'
      by_cases hrp : r' = p
      · rw [hrp] at ho hoch ⊢
        have hop2 : o = po := by
          rw [ho] at hpo
          exact Option.some.inj hpo
        refine ⟨{ po with children := fmInsert po.children g n }, hlookp, ?_, ?_⟩
        · show po.guid = g'
          rw [← hop2]
          exact hog
        · show po.channel = { ref := p, guid := g' }
          rw [← hop2]
          exact hoch
      · refine ⟨o, ?_, hog, hoch⟩
        rw [hlookother r' (hliven g' r' hg') hrp]
        exact ho
  rcases List.mem_cons.mp hlivep with hp0 | hpl
  · -- new object created under the root
    have hporo : po = ro := by
      rw [hp0] at hpo
      rw [hpo] at hro
      exact Option.some.inj hro
    have F2 : Forest h2 O2 0 po.children l := by
      rw [hporo]
      refine forest_frame F ?_ ?_
      · intro z hz
        refine hagree z hz ?_
        intro hh
        rw [hh, hp0] at hz
        exact h0l hz
      · intro z hz zo hzo
        exact hOl z hz zo hzo
    have FA : Forest h2 O2 0 (po.children ++ [(g, n)]) (l ++ (n :: [])) := by
      refine forest_attach_here 0 n g [] node hlookn rfl ?_ subleaf hO2g
        (by simp) (by simp [h0n]) po.children l 0 F2 rfl hpkids ?_
      · show node.parent = some 0
        rw [hnode, ← hp0]
      · intro z hz hzmem
        rcases List.mem_cons.mp hz with hh | hh
        · rw [hh] at hzmem
          exact hnl hzmem
        · simp at hh
    refine ⟨{ po with children := fmInsert po.children g n }, l ++ [n],
      ?_, by simp [hporo ▸ hrop], by simp [hporo ▸ hrog], hroot0, ?_, ?_, ?_,
      hmatch2common, hnextbound, hheapnodup, hOnodup⟩
    · show fmLookup h2 0 = _
      rw [← hp0]
      exact hlookp
    · show Forest h2 O2 0 (fmInsert po.children g n) (l ++ [n])
      rw [hins]
      simpa using FA
    · intro hmem
      rcases List.mem_append.mp hmem with hm | hm
      · exact h0l hm
      · simp at hm
        exact h0n hm
    · intro g' r' hg'
      by_cases hgeq : g' = g
      · rw [hgeq, hO2g] at hg'
        have : r' = n := Option.some.inj hg'.symm
        rw [this]
        simp
      · rw [hO2other g' hgeq] at hg'
        have := hlive g' r' hg'
        rcases List.mem_cons.mp this with hh | hh
        · simp [hh]
        · simp [List.mem_append.mpr (Or.inl hh)]
  · -- new object created under an inner node
    have hp0 : p ≠ 0 := by
      intro hh
      rw [hh] at hpl
      exact h0l hpl
    obtain ⟨l', FA, hmem'⟩ := by
      refine forest_attach_deep p n g [] node hlookn rfl rfl subleaf hO2g
        (fun po2 hpo2 => ?_) (by simp) ?_ ro.children l 0 F hpl hagree hOl hgl
        ?_ ?_
      · have hpp2 : po2 = po := by
          rw [hpo2] at hpo
          exact Option.some.inj hpo
        rw [hpp2, hlookp, hins]
      · intro hmem
        rcases List.mem_cons.mp hmem with hh | hh
        · exact hpn hh
        · simp at hh
      · intro z hz
        rcases List.mem_cons.mp hz with hh | hh
        · rw [hh]
          exact hnl
        · simp at hh
      · intro hmem
        rcases List.mem_cons.mp hmem with hh | hh
        · exact h0n hh
        · simp at hh
    refine ⟨ro, l', ?_, hrop, hrog, hroot0, FA, ?_, ?_,
      hmatch2common, hnextbound, hheapnodup, hOnodup⟩
    · show fmLookup h2 0 = some ro
      rw [hlookother 0 h0n (Ne.symm hp0)]
      exact hro
    · intro hmem
      rcases (hmem' 0).mp hmem with hm | hm
      · exact h0l hm
      · rcases List.mem_cons.mp hm with hh | hh
        · exact h0n hh
        · simp at hh
    · intro g' r' hg'
      by_cases hgeq : g' = g
      · rw [hgeq, hO2g] at hg'
        have : r' = n := Option.some.inj hg'.symm
        rw [this]
        simp [(hmem' n).mpr (Or.inr (by simp))]
      · rw [hO2other g' hgeq] at hg'
        have := hlive g' r' hg'
        rcases List.mem_cons.mp this with hh | hh
        · simp [hh]
        · simp [(hmem' r').mpr (Or.inl hh)]

/-- Reaching every node of a subtree from its root. -/
theorem subtree_reach {h : List (Nat × ObjData)} {O : List (String × Nat)}
    (x : Nat) (xo : ObjData) (lx : List Nat)
    (hx : fmLookup h x = some xo) (F : Forest h O x xo.children lx) :
    ∀ z ∈ x :: lx, Reach h x z := by
  intro z hz
  rcases List.mem_cons.mp hz with hh | hh
  · rw [hh]
    exact .refl x
  · obtain ⟨g, y, hmem, hre⟩ := forest_reach F z hh
    exact .step x y z xo g hx hmem hre


/-- Cutting the subtree rooted at `x` out of a forest: the remaining
nodes still form a forest over any heap `h₁` that agrees with `h` outside
the subtree except at `x`'s parent `op`, whose child dict loses the entry
for `x`'s guid, and any index `O₁` that agrees on the remaining nodes'
guids. -/
theorem forest_cut {h h₁ : List (Nat × ObjData)} {O O₁ : List (String × Nat)}
    (x : Nat) :
    ∀ kids l pr, Forest h O pr kids l → x ∈ l →
      ∃ xo lx op, fmLookup h x = some xo
        ∧ Forest h O x xo.children lx
        ∧ xo.parent = some op ∧ op ∉ x :: lx ∧ x ∉ lx
        ∧ fmLookup O xo.guid = some x
        ∧ (∀ z ∈ x :: lx, z ∈ l)
        ∧ (op = pr ∨ op ∈ l)
        ∧ ((∀ z ∈ l, z ∉ x :: lx → z ≠ op → fmLookup h₁ z = fmLookup h z) →
           (∀ oo, fmLookup h op = some oo →
             fmLookup h₁ op = some { oo with children := fmErase oo.children xo.guid }) →
           (∀ z ∈ l, z ∉ x :: lx → ∀ zo, fmLookup h z = some zo →
             fmLookup O₁ zo.guid = fmLookup O zo.guid) →
           ∃ lrem, (∀ z, z ∈ lrem ↔ z ∈ l ∧ z ∉ x :: lx)
             ∧ ((op = pr ∧ Forest h₁ O₁ pr (fmErase kids xo.guid) lrem)
                ∨ (op ≠ pr ∧ Forest h₁ O₁ pr kids lrem))) := by
  intro kids l pr F
  induction F with
  | nil p0 =>
    intro hx
    simp at hx
  | cons pr g x0 xo0 rest lx0 lrest h1 h2 h3 h4 Fx Frest hkey hxl hpr hdisj ihx ihrest =>
    intro hxmem
    rcases List.mem_cons.mp hxmem with hxm | hxm
    · -- x is the head entry of this forest level
      rw [hxm] at *
      refine ⟨xo0, lx0, pr, h1, Fx, h3, hpr, hxl, by rw [h2]; exact h4, ?_,
        Or.inl rfl, ?_⟩
      · intro z hz
        rcases List.mem_cons.mp hz with hh | hh
        · simp [hh]
        · simp [hh]
      · intro hagree hop hO1
        refine ⟨lrest, ?_, ?_⟩
        · intro z
          constructor
          · intro hz
            refine ⟨by simp [hz], ?_⟩
            intro hmem
            exact hdisj z hmem hz
          · intro hz
            obtain ⟨hz1, hz2⟩ := hz
            rcases List.mem_cons.mp hz1 with hh | hh
            · exact absurd (by simp [hh]) hz2
            · rcases List.mem_append.mp hh with hm | hm
              · exact absurd (by simp [hm]) hz2
              · exact hm
        · left
          have hkids : fmErase ((g, x0) :: rest) xo0.guid = rest := by
            rw [h2]
            simp [fmErase]
          refine ⟨rfl, ?_⟩
          rw [hkids]
          refine forest_frame Frest ?_ ?_
          · intro z hz
            refine hagree z (by simp [hz]) ?_ ?_
            · intro hmem
              exact hdisj z hmem hz
            · intro hh
              rw [hh] at hz
              exact forest_pr_not_mem Frest hz
          · intro z hz zo hzo
            refine hO1 z (by simp [hz]) ?_ zo hzo
            intro hmem
            exact hdisj z hmem hz
    · rcases List.mem_append.mp hxm with hxm | hxm
      · -- x lies inside the head subtree
        obtain ⟨xo, lx, op, hc1, hc2, hc3, hc4, hc5, hc6, hc7, hc9, hc8⟩ := ihx hxm
        have hopin : op ∈ x0 :: lx0 := by
          rcases hc9 with hh | hh
          · simp [hh]
          · simp [hh]
        have hxsub : ∀ z ∈ x :: lx, z ∈ x0 :: (lx0 ++ lrest) := by
          intro z hz
          simp [List.mem_append.mpr (Or.inl (hc7 z hz))]
        have hx0nsub : x0 ∉ x :: lx := by
          intro hmem
          exact hxl (hc7 x0 hmem)
        have hopnrest : op ∉ lrest := by
          rcases List.mem_cons.mp hopin with hh | hh
          · rw [hh]
            exact hdisj x0 (by simp)
          · exact hdisj op (by simp [hh])
        refine ⟨xo, lx, op, hc1, hc2, hc3, hc4, hc5, hc6, hxsub,
          Or.inr (by
            rcases List.mem_cons.mp hopin with hh | hh
            · simp [hh]
            · simp [List.mem_append.mpr (Or.inl hh)]), ?_⟩
        intro hagree hop hO1
        obtain ⟨lrem_in, hmem_in, hdis⟩ := by
          refine hc8 ?_ ?_ ?_
          · intro z hz hz2 hz3
            exact hagree z (by simp [List.mem_append.mpr (Or.inl hz)]) hz2 hz3
          · exact hop
          · intro z hz hz2 zo hzo
            exact hO1 z (by simp [List.mem_append.mpr (Or.inl hz)]) hz2 zo hzo
        have hO1g : fmLookup O₁ g = some x0 := by
          have hgg := hO1 x0 (by simp) hx0nsub xo0 h1
          rw [h2] at hgg
          rw [hgg]
          exact h4
        have Frest1 : Forest h₁ O₁ pr rest lrest := by
          refine forest_frame Frest ?_ ?_
          · intro z hz
            refine hagree z (by simp [hz]) ?_ ?_
            · intro hmem
              exact hdisj z (by simp [hc7 z hmem]) hz
            · intro hh
              rw [hh] at hz
              exact hopnrest hz
          · intro z hz zo hzo
            refine hO1 z (by simp [hz]) ?_ zo hzo
            intro hmem
            exact hdisj z (by simp [hc7 z hmem]) hz
        have hmemgoal : ∀ lrem_in2 : List Nat,
            (∀ z, z ∈ lrem_in2 ↔ z ∈ lx0 ∧ z ∉ x :: lx) →
            (∀ z, z ∈ x0 :: (lrem_in2 ++ lrest) ↔
              z ∈ x0 :: (lx0 ++ lrest) ∧ z ∉ x :: lx) := by
          intro li hmi z
          constructor
          · intro hz
            rcases List.mem_cons.mp hz with hh | hh
            · refine ⟨by simp [hh], ?_⟩
              rw [hh]
              exact hx0nsub
            · rcases List.mem_append.mp hh with hm | hm
              · obtain ⟨hm1, hm2⟩ := (hmi z).mp hm
                exact ⟨by simp [List.mem_append.mpr (Or.inl hm1)], hm2⟩
              · refine ⟨by simp [List.mem_append.mpr (Or.inr hm)], ?_⟩
                intro hmem
                exact hdisj z (by simp [hc7 z hmem]) hm
          · intro hz
            obtain ⟨hz1, hz2⟩ := hz
            rcases List.mem_cons.mp hz1 with hh | hh
            · simp [hh]
            · rcases List.mem_append.mp hh with hm | hm
              · have : z ∈ li := (hmi z).mpr ⟨hm, hz2⟩
                simp [List.mem_append.mpr (Or.inl this)]
              · simp [List.mem_append.mpr (Or.inr hm)]
        have hopnepr : op ≠ pr := by
          intro hh
          rw [hh] at hopin
          exact hpr hopin
        rcases hdis with ⟨hopx0, Fin⟩ | ⟨hopx0, Fin⟩
        · -- x's parent is the head node x0 itself
          have hlookx0 : fmLookup h₁ x0
              = some { xo0 with children := fmErase xo0.children xo.guid } := by
            rw [← hopx0]
            exact hop xo0 (hopx0 ▸ h1)
          refine ⟨x0 :: (lrem_in ++ lrest), hmemgoal lrem_in hmem_in,
            Or.inr ⟨hopnepr, ?_⟩⟩
          refine Forest.cons pr g x0 { xo0 with children := fmErase xo0.children xo.guid }
            rest lrem_in lrest hlookx0 (by simpa using h2) (by simpa using h3)
            hO1g (by simpa using (hopx0 ▸ Fin)) Frest1 hkey ?_ ?_ ?_
          · intro hmem
            exact hxl ((hmem_in x0).mp hmem).1
          · intro hmem
            rcases List.mem_cons.mp hmem with hh | hh
            · exact hpr (by simp [hh])
            · exact hpr (by simp [((hmem_in pr).mp hh).1])
          · intro z hz
            rcases List.mem_cons.mp hz with hh | hh
            · rw [hh]
              exact hdisj x0 (by simp)
            · exact hdisj z (by simp [((hmem_in z).mp hh).1])
        · -- x's parent lies deeper in the head subtree; x0 is untouched
          have hx0op : x0 ≠ op := fun hh => hopx0 hh.symm
          have hlookx0 : fmLookup h₁ x0 = some xo0 := by
            rw [hagree x0 (by simp) hx0nsub hx0op]
            exact h1
          refine ⟨x0 :: (lrem_in ++ lrest), hmemgoal lrem_in hmem_in,
            Or.inr ⟨hopnepr, ?_⟩⟩
          refine Forest.cons pr g x0 xo0 rest lrem_in lrest hlookx0 h2 h3
            hO1g Fin Frest1 hkey ?_ ?_ ?_
          · intro hmem
            exact hxl ((hmem_in x0).mp hmem).1
          · intro hmem
            rcases List.mem_cons.mp hmem with hh | hh
            · exact hpr (by simp [hh])
            · exact hpr (by simp [((hmem_in pr).mp hh).1])
          · intro z hz
            rcases List.mem_cons.mp hz with hh | hh
            · rw [hh]
              exact hdisj x0 (by simp)
            · exact hdisj z (by simp [((hmem_in z).mp hh).1])
      · -- x lies among the later siblings
        obtain ⟨xo, lx, op, hc1, hc2, hc3, hc4, hc5, hc6, hc7, hc9, hc8⟩ := ihrest hxm
        have hxsub : ∀ z ∈ x :: lx, z ∈ x0 :: (lx0 ++ lrest) := by
          intro z hz
          simp [List.mem_append.mpr (Or.inr (hc7 z hz))]
        have hxsubrest : ∀ z ∈ x :: lx, z ∈ lrest := hc7
        have hx0nrest : x0 ∉ lrest := hdisj x0 (by simp)
        have hx0nsub : x0 ∉ x :: lx := by
          intro hmem
          exact hx0nrest (hc7 x0 hmem)
        refine ⟨xo, lx, op, hc1, hc2, hc3, hc4, hc5, hc6, hxsub,
          (by
            rcases hc9 with hh | hh
            · exact Or.inl hh
            · exact Or.inr (by simp [List.mem_append.mpr (Or.inr hh)])), ?_⟩
        intro hagree hop hO1
        obtain ⟨lrem_r, hmem_r, hdis⟩ := by
          refine hc8 ?_ ?_ ?_
          · intro z hz hz2 hz3
            exact hagree z (by simp [List.mem_append.mpr (Or.inr hz)]) hz2 hz3
          · exact hop
          · intro z hz hz2 zo hzo
            exact hO1 z (by simp [List.mem_append.mpr (Or.inr hz)]) hz2 zo hzo
        have hx0ne_op : x0 ≠ op := by
          intro hh
          rcases hc9 with hh2 | hh2
          · rw [hh, hh2] at hpr
            exact hpr (by simp)
          · rw [hh] at hx0nrest
            exact hx0nrest hh2
        have hlookx0 : fmLookup h₁ x0 = some xo0 := by
          rw [hagree x0 (by simp) hx0nsub hx0ne_op]
          exact h1
        have hO1g : fmLookup O₁ g = some x0 := by
          have hgg := hO1 x0 (by simp) hx0nsub xo0 h1
          rw [h2] at hgg
          rw [hgg]
          exact h4
        have Fx1 : Forest h₁ O₁ x0 xo0.children lx0 := by
          refine forest_frame Fx ?_ ?_
          · intro z hz
            refine hagree z (by simp [List.mem_append.mpr (Or.inl hz)]) ?_ ?_
            · intro hmem
              exact hdisj z (by simp [hz]) (hxsubrest z hmem)
            · intro hh
              rcases hc9 with hh2 | hh2
              · rw [hh, hh2] at hz
                exact hpr (by simp [hz])
              · rw [hh] at hz
                exact hdisj op (by simp [hz]) hh2
          · intro z hz zo hzo
            refine hO1 z (by simp [List.mem_append.mpr (Or.inl hz)]) ?_ zo hzo
            intro hmem
            exact hdisj z (by simp [hz]) (hxsubrest z hmem)
        have hprnr : pr ∉ lrem_r := by
          intro hmem
          have := ((hmem_r pr).mp hmem).1
          exact forest_pr_not_mem Frest this
        have hmemfinal : ∀ z, z ∈ x0 :: (lx0 ++ lrem_r) ↔
            z ∈ x0 :: (lx0 ++ lrest) ∧ z ∉ x :: lx := by
          intro z
          constructor
          · intro hz
            rcases List.mem_cons.mp hz with hh | hh
            · refine ⟨by simp [hh], ?_⟩
              rw [hh]
              exact hx0nsub
            · rcases List.mem_append.mp hh with hm | hm
              · refine ⟨by simp [List.mem_append.mpr (Or.inl hm)], ?_⟩
                intro hmem
                exact hdisj z (by simp [hm]) (hxsubrest z hmem)
              · obtain ⟨hm1, hm2⟩ := (hmem_r z).mp hm
                exact ⟨by simp [List.mem_append.mpr (Or.inr hm1)], hm2⟩
          · intro hz
            obtain ⟨hz1, hz2⟩ := hz
            rcases List.mem_cons.mp hz1 with hh | hh
            · simp [hh]
            · rcases List.mem_append.mp hh with hm | hm
              · simp [List.mem_append.mpr (Or.inl hm)]
              · have : z ∈ lrem_r := (hmem_r z).mpr ⟨hm, hz2⟩
                simp [List.mem_append.mpr (Or.inr this)]
        have hdisjnew : ∀ z ∈ x0 :: lx0, z ∉ lrem_r := by
          intro z hz hmem
          exact hdisj z hz ((hmem_r z).mp hmem).1
        rcases hdis with ⟨hoppr, Frem⟩ | ⟨hoppr, Frem⟩
        · -- x was a direct child of pr, deeper among the siblings
          have hgne : (g == xo.guid) = false := by
            have hgne2 : g ≠ xo.guid := by
              intro hh
              rw [← hh] at hc6
              rw [h4] at hc6
              have hx0x : x0 = x := Option.some.inj hc6
              rw [← hx0x] at hxm
              exact hx0nrest (by
                have := hc7 x (by simp)
                rw [← hx0x] at this
                exact this)
            simpa using hgne2
          have herase : fmErase ((g, x0) :: rest) xo.guid
              = (g, x0) :: fmErase rest xo.guid := by
            simp [fmErase, hgne]
          refine ⟨x0 :: (lx0 ++ lrem_r), hmemfinal, Or.inl ⟨hoppr, ?_⟩⟩
          rw [herase]
          refine Forest.cons pr g x0 xo0 (fmErase rest xo.guid) lx0 lrem_r
            hlookx0 h2 h3 hO1g Fx1 Frem ?_ hxl hpr hdisjnew
          have hgne3 : g ≠ xo.guid := by
            intro hh
            rw [hh] at hgne
            simp at hgne
          rw [fmLookup_erase_ne _ _ _ hgne3]
          exact hkey
        · refine ⟨x0 :: (lx0 ++ lrem_r), hmemfinal, Or.inr ⟨hoppr, ?_⟩⟩
          exact Forest.cons pr g x0 xo0 rest lx0 lrem_r hlookx0 h2 h3 hO1g
            Fx1 Frem hkey hxl hpr hdisjnew

/-- `ChannelOwner._adopt` preserves registry well-formedness when both
objects are live and the new parent does not lie inside the child's
subtree (the child cannot reach the new parent by walking child dicts). -/
theorem wf_channelOwnerAdopt (c : Conn) (p x : Nat)
    (hwf : WFconn c)
    (hplive : ∃ pg, fmLookup c.objects pg = some p)
    (hxlive : ∃ cg, fmLookup c.objects cg = some x)
    (hnoc : ¬ Reach c.heap x p) :
    ∃ c', channelOwnerAdopt c p x = .ok c' ∧ WFconn c' := by
  obtain ⟨pg, hpg⟩ := hplive
  obtain ⟨cg, hcg⟩ := hxlive
  rcases hwf with hdead | hrooted
  · rw [hdead pg] at hpg
    exact Option.noConfusion hpg
  obtain ⟨ro, l, hro, hrop, hrog, hro0, F, h0l, hlive, hmatch, hfresh, hhnd, hond⟩ :=
    hrooted
  have hpmem := hlive pg p hpg
  have hxmem0 := hlive cg x hcg
  have hreach0p : Reach c.heap 0 p := by
    rcases List.mem_cons.mp hpmem with hh | hh
    · rw [hh]
      exact .refl 0
    · obtain ⟨g', y, hmem, hre⟩ := forest_reach F p hh
      exact .step 0 y p ro g' hro hmem hre
  have hxne0 : x ≠ 0 := fun hh => hnoc (hh ▸ hreach0p)
  have hxmem : x ∈ l := by
    rcases List.mem_cons.mp hxmem0 with hh | hh
    · exact absurd hh hxne0
    · exact hh
  obtain ⟨xo, lx, op, hcx, Fsub, hpar, hopn, hxlx, hOx, hsubl, hedge⟩ :=
    forest_sub F x hxmem
  obtain ⟨oo, hoo, hooedge⟩ : ∃ oo, fmLookup c.heap op = some oo
      ∧ fmLookup oo.children xo.guid = some x := by
    rcases hedge with ⟨hop0, hlook⟩ | ⟨_, oo, hoo, hlook⟩
    · exact ⟨ro, by rw [hop0]; exact hro, hlook⟩
    · exact ⟨oo, hoo, hlook⟩
  obtain ⟨po, hpo, hpog, hpoc⟩ := hmatch pg p hpg
  have hreachsub : ∀ z ∈ x :: lx, Reach c.heap x z := subtree_reach x xo lx hcx Fsub
  have hpnot : p ∉ x :: lx := fun hmem => hnoc (hreachsub p hmem)
  have hpnex : p ≠ x := fun hh => hpnot (List.mem_cons.mpr (Or.inl hh))
  have hopnex : op ≠ x := fun hh => hopn (List.mem_cons.mpr (Or.inl hh))
  have h0sub : (0 : Nat) ∉ x :: lx := fun hmem => h0l (hsubl 0 hmem)
  have hoond : (oo.children.map Prod.fst).Nodup := by
    rcases hedge with ⟨hop0, _⟩ | ⟨hopl, _⟩
    · have hooro : oo = ro := by
        have hoo2 := hoo
        rw [hop0, hro] at hoo2
        exact (Option.some.inj hoo2).symm
      rw [hooro]
      exact forest_kids_nodupKeys F
    · obtain ⟨oo₂, lop, opp, hcop, Fop, _, _, _, _, _⟩ := forest_sub F op hopl
      have hoe : oo₂ = oo := by
        rw [hoo] at hcop
        exact (Option.some.inj hcop).symm
      rw [← hoe]
      exact forest_kids_nodupKeys Fop
  have hgxne : ∀ z ∈ l, z ≠ x → ∀ zo, fmLookup c.heap z = some zo →
      zo.guid ≠ xo.guid := by
    intro z hz hzx zo hzo hguid
    obtain ⟨zo₂, hzo₂, hOz⟩ := forest_mem_node F z hz
    rw [hzo] at hzo₂
    have hzz := Option.some.inj hzo₂
    rw [← hzz] at hOz
    rw [hguid, hOx] at hOz
    exact hzx (Option.some.inj hOz).symm
  set h1 : List (Nat × ObjData) :=
    fmInsert c.heap op { oo with children := fmErase oo.children xo.guid } with hh1
  obtain ⟨so, hso, hsocase⟩ : ∃ so, fmLookup h1 p = some so
      ∧ ((p = op ∧ so = { oo with children := fmErase oo.children xo.guid })
         ∨ (p ≠ op ∧ so = po)) := by
    by_cases hpop : p = op
    · refine ⟨_, ?_, Or.inl ⟨hpop, rfl⟩⟩
      rw [hh1, hpop]
      exact fmLookup_insert_self _ _ _
    · refine ⟨po, ?_, Or.inr ⟨hpop, rfl⟩⟩
      rw [hh1, fmLookup_insert_ne _ _ _ _ hpop]
      exact hpo
  have hpooo : p = op → po = oo := by
    intro hh
    have hpo2 := hpo
    rw [hh, hoo] at hpo2
    exact (Option.some.inj hpo2).symm
  have hsofields : so.guid = po.guid ∧ so.channel = po.channel := by
    rcases hsocase with ⟨hpop, hsoeq⟩ | ⟨_, hsoeq⟩
    · rw [hsoeq, hpooo hpop]
      exact ⟨rfl, rfl⟩
    · rw [hsoeq]
      exact ⟨rfl, rfl⟩
  have hkey_so : fmLookup so.children xo.guid = none := by
    rcases hsocase with ⟨hpop, hsoeq⟩ | ⟨hpop, hsoeq⟩
    · rw [hsoeq]
      exact fmLookup_erase_self_of_nodup _ _ hoond
    · rw [hsoeq]
      rw [fmLookup_eq_none_iff]
      intro hmem
      obtain ⟨w, hw⟩ : ∃ w, (xo.guid, w) ∈ po.children := by simpa using hmem
      rcases List.mem_cons.mp hpmem with hp0 | hpl
      · have hpro : po = ro := by
          have hpo2 := hpo
          rw [hp0, hro] at hpo2
          exact (Option.some.inj hpo2).symm
        rw [hpro] at hw
        obtain ⟨hwl, wo, hwlook, hwg, hwpar, hOw⟩ := forest_edge F xo.guid w hw
        rw [hOx] at hOw
        have hwx : x = w := Option.some.inj hOw
        rw [← hwx] at hwlook
        rw [hcx] at hwlook
        have hxw : xo = wo := Option.some.inj hwlook
        rw [← hxw] at hwpar
        rw [hpar] at hwpar
        exact hpop (hp0.trans (Option.some.inj hwpar).symm)
      · obtain ⟨po₂, lp, ppp, hpo₂, Fp, _, _, _, _, _⟩ := forest_sub F p hpl
        have hpe : po₂ = po := by
          rw [hpo] at hpo₂
          exact (Option.some.inj hpo₂).symm
        rw [hpe] at Fp
        obtain ⟨hwl, wo, hwlook, hwg, hwpar, hOw⟩ := forest_edge Fp xo.guid w hw
        rw [hOx] at hOw
        have hwx : x = w := Option.some.inj hOw
        rw [← hwx] at hwlook
        rw [hcx] at hwlook
        have hxw : xo = wo := Option.some.inj hwlook
        rw [← hxw] at hwpar
        rw [hpar] at hwpar
        exact hpop (Option.some.inj hwpar).symm
  have hinsapp : fmInsert so.children xo.guid x = so.children ++ [(xo.guid, x)] :=
    fmInsert_fresh _ _ _ hkey_so
  set h2 : List (Nat × ObjData) :=
    fmInsert h1 p { so with children := fmInsert so.children xo.guid x } with hh2
  have hx2 : fmLookup h2 x = some xo := by
    rw [hh2, fmLookup_insert_ne _ _ _ _ (Ne.symm hpnex), hh1,
        fmLookup_insert_ne _ _ _ _ (Ne.symm hopnex)]
    exact hcx
  set h3 : List (Nat × ObjData) :=
    fmInsert h2 x { xo with parent := some p } with hh3
  have hexec : channelOwnerAdopt c p x = .ok { c with heap := h3 } := by
    unfold channelOwnerAdopt
    simp only [hcx, hpar, hoo, hooedge]
    rw [← hh1]
    simp only [hso]
    rw [← hh2]
    simp only [hx2]
  have hlook3x : fmLookup h3 x = some { xo with parent := some p } := by
    rw [hh3]
    exact fmLookup_insert_self _ _ _
  have hlook3p : fmLookup h3 p =
      some { so with children := fmInsert so.children xo.guid x } := by
    rw [hh3, fmLookup_insert_ne _ _ _ _ hpnex, hh2]
    exact fmLookup_insert_self _ _ _
  have hlook3op : p ≠ op → fmLookup h3 op =
      some { oo with children := fmErase oo.children xo.guid } := by
    intro hpop
    rw [hh3, fmLookup_insert_ne _ _ _ _ hopnex, hh2,
        fmLookup_insert_ne _ _ _ _ (Ne.symm hpop), hh1]
    exact fmLookup_insert_self _ _ _
  have hlook31 : ∀ z, z ≠ x → z ≠ p → fmLookup h3 z = fmLookup h1 z := by
    intro z hzx hzp
    rw [hh3, fmLookup_insert_ne _ _ _ _ hzx, hh2, fmLookup_insert_ne _ _ _ _ hzp]
  have hlook3other : ∀ z, z ≠ x → z ≠ p → z ≠ op →
      fmLookup h3 z = fmLookup c.heap z := by
    intro z hzx hzp hzop
    rw [hlook31 z hzx hzp, hh1, fmLookup_insert_ne _ _ _ _ hzop]
  have hkeys : h3.map Prod.fst = c.heap.map Prod.fst := by
    rw [hh3, fmInsert_present_keys _ _ _ _ hx2, hh2, fmInsert_present_keys _ _ _ _ hso,
        hh1, fmInsert_present_keys _ _ _ _ hoo]
  have hmatch3 : ∀ g r, fmLookup c.objects g = some r →
      ∃ o, fmLookup h3 r = some o ∧ o.guid = g
        ∧ o.channel = { ref := r, guid := g } := by
    intro g r hgr
    obtain ⟨o₀, ho₀, hg₀, hc₀⟩ := hmatch g r hgr
    by_cases hrx : r = x
    · subst hrx
      rw [hcx] at ho₀
      have hxe : xo = o₀ := Option.some.inj ho₀
      refine ⟨{ xo with parent := some p }, hlook3x, ?_, ?_⟩
      · show xo.guid = g
        rw [hxe]
        exact hg₀
      · show xo.channel = _
        rw [hxe]
        exact hc₀
    · by_cases hrp : r = p
      · subst hrp
        rw [hpo] at ho₀
        have hpe : po = o₀ := Option.some.inj ho₀
        refine ⟨{ so with children := fmInsert so.children xo.guid x }, hlook3p, ?_, ?_⟩
        · show so.guid = g
          rw [hsofields.1, hpe]
          exact hg₀
        · show so.channel = _
          rw [hsofields.2, hpe]
          exact hc₀
      · by_cases hrop : r = op
        · subst hrop
          rw [hoo] at ho₀
          have hoe : oo = o₀ := Option.some.inj ho₀
          refine ⟨{ oo with children := fmErase oo.children xo.guid },
            hlook3op (fun hh => hrp hh.symm), ?_, ?_⟩
          · show oo.guid = g
            rw [hoe]
            exact hg₀
          · show oo.channel = _
            rw [hoe]
            exact hc₀
        · refine ⟨o₀, ?_, hg₀, hc₀⟩
          rw [hlook3other r hrx hrp hrop]
          exact ho₀
  have hfresh3 : ∀ r, r ∈ h3.map Prod.fst → r < c.nextRef := by
    intro r hr
    rw [hkeys] at hr
    exact hfresh r hr
  have hhnd3 : (h3.map Prod.fst).Nodup := by
    rw [hkeys]
    exact hhnd
  have Fsub3 : Forest h3 c.objects x xo.children lx := by
    refine forest_frame Fsub (fun z hz => ?_) (fun z hz zo hzo => rfl)
    refine hlook3other z (fun hh => hxlx (hh ▸ hz)) ?_ ?_
    · intro hh
      exact hpnot (List.mem_cons.mpr (Or.inr (hh ▸ hz)))
    · intro hh
      exact hopn (List.mem_cons.mpr (Or.inr (hh ▸ hz)))
  obtain ⟨xo₂, lx₂, op₂, hcx₂, Fsub₂, hpar₂, hopn₂, hxlx₂, hOx₂, hsubl₂, hoploc₂, hcut⟩ :=
    @forest_cut c.heap h1 c.objects c.objects x ro.children l 0 F hxmem
  have hxoeq : xo₂ = xo := by
    rw [hcx] at hcx₂
    exact (Option.some.inj hcx₂).symm
  rw [hxoeq] at hpar₂ Fsub₂
  have hopeq : op₂ = op := by
    rw [hpar] at hpar₂
    exact (Option.some.inj hpar₂).symm
  have hlxeq : lx₂ = lx := forest_functional Fsub₂ lx Fsub
  rw [hxoeq, hopeq, hlxeq] at hcut
  obtain ⟨lrem, hlremmem, hforest⟩ := hcut
    (by
      intro z hz hzs hzop
      rw [hh1, fmLookup_insert_ne _ _ _ _ hzop])
    (by
      intro oo' hoo'
      rw [hoo] at hoo'
      rw [← Option.some.inj hoo', hh1]
      exact fmLookup_insert_self _ _ _)
    (fun z hz hzs zo hzo => rfl)
  have h0lrem : (0 : Nat) ∉ lrem := fun hm => h0l ((hlremmem 0).mp hm).1
  have hdisjSL1 : ∀ z ∈ x :: lx, z ∉ lrem :=
    fun z hz hzm => ((hlremmem z).mp hzm).2 hz
  have hagree1 : ∀ z ∈ lrem, z ≠ p → fmLookup h3 z = fmLookup h1 z := by
    intro z hz hzp
    have hzl := (hlremmem z).mp hz
    exact hlook31 z (fun hh => hzl.2 (List.mem_cons.mpr (Or.inl hh))) hzp
  have hgl1 : ∀ z ∈ lrem, ∀ zo, fmLookup h1 z = some zo → zo.guid ≠ xo.guid := by
    intro z hz zo hzo hg
    have hzl := (hlremmem z).mp hz
    have hzx : z ≠ x := fun hh => hzl.2 (List.mem_cons.mpr (Or.inl hh))
    by_cases hzop : z = op
    · subst hzop
      have h1op : fmLookup h1 z = some { oo with children := fmErase oo.children xo.guid } := by
        rw [hh1]
        exact fmLookup_insert_self _ _ _
      rw [h1op] at hzo
      rw [(Option.some.inj hzo).symm] at hg
      exact hgxne z hzl.1 hzx oo hoo hg
    · rw [hh1, fmLookup_insert_ne _ _ _ _ hzop] at hzo
      exact hgxne z hzl.1 hzx zo hzo hg
  refine ⟨{ c with heap := h3 }, hexec, ?_⟩
  rcases hforest with ⟨hop0, FA⟩ | ⟨hopne0, FB⟩
  · by_cases hp0 : p = 0
    · -- new parent is the root, which is also the old parent
      have hpop : p = op := by rw [hp0, hop0]
      have horo : oo = ro := by
        have hoo2 := hoo
        rw [hop0, hro] at hoo2
        exact (Option.some.inj hoo2).symm
      have hsoeq : so = { oo with children := fmErase oo.children xo.guid } := by
        rcases hsocase with ⟨_, hs⟩ | ⟨hne, _⟩
        · exact hs
        · exact absurd hpop hne
      have FAf : Forest h3 c.objects 0 (fmErase ro.children xo.guid) lrem := by
        refine forest_frame FA (fun z hz => ?_) (fun z hz zo hzo => rfl)
        have hzl := (hlremmem z).mp hz
        refine hlook31 z (fun hh => hzl.2 (List.mem_cons.mpr (Or.inl hh))) ?_
        intro hh
        rw [hp0] at hh
        exact h0l (hh ▸ hzl.1)
      have hkA : fmLookup (fmErase ro.children xo.guid) xo.guid = none :=
        fmLookup_erase_self_of_nodup _ _ (forest_kids_nodupKeys F)
      have hatt : Forest h3 c.objects 0
          ((fmErase ro.children xo.guid) ++ [(xo.guid, x)]) (lrem ++ (x :: lx)) := by
        refine forest_attach_here 0 x xo.guid lx { xo with parent := some p }
          hlook3x rfl ?_ Fsub3 hOx hxlx h0sub _ _ _ FAf rfl hkA hdisjSL1
        show some p = some 0
        rw [hp0]
      have hroE : fmLookup h3 0 =
          some { so with children := fmInsert so.children xo.guid x } := by
        rw [← hp0]
        exact hlook3p
      have hch : ({ so with children := fmInsert so.children xo.guid x } : ObjData).children
          = (fmErase ro.children xo.guid) ++ [(xo.guid, x)] := by
        show fmInsert so.children xo.guid x = _
        rw [hinsapp, hsoeq, horo]
      have Fnew : Forest h3 c.objects 0
          ({ so with children := fmInsert so.children xo.guid x } : ObjData).children
          (lrem ++ (x :: lx)) := by
        rw [hch]
        exact hatt
      have hmemfin : ∀ z, z ∈ lrem ++ (x :: lx) ↔ z ∈ l := by
        intro z
        constructor
        · intro hz
          rcases List.mem_append.mp hz with hz | hz
          · exact ((hlremmem z).mp hz).1
          · exact hsubl z hz
        · intro hz
          by_cases hzs : z ∈ x :: lx
          · exact List.mem_append.mpr (Or.inr hzs)
          · exact List.mem_append.mpr (Or.inl ((hlremmem z).mpr ⟨hz, hzs⟩))
      have h0fin : (0 : Nat) ∉ lrem ++ (x :: lx) := fun hm => h0l ((hmemfin 0).mp hm)
      have hlive3 : ∀ g r, fmLookup c.objects g = some r → r ∈ 0 :: (lrem ++ (x :: lx)) := by
        intro g r hgr
        rcases List.mem_cons.mp (hlive g r hgr) with hh | hh
        · exact List.mem_cons.mpr (Or.inl hh)
        · exact List.mem_cons.mpr (Or.inr ((hmemfin r).mpr hh))
      have hpar' : ({ so with children := fmInsert so.children xo.guid x } : ObjData).parent
          = none := by
        show so.parent = none
        rw [hsoeq]
        show oo.parent = none
        rw [horo]
        exact hrop
      have hguid' : ({ so with children := fmInsert so.children xo.guid x } : ObjData).guid
          = "" := by
        show so.guid = ""
        rw [hsoeq]
        show oo.guid = ""
        rw [horo]
        exact hrog
      exact Or.inr ⟨{ so with children := fmInsert so.children xo.guid x },
        lrem ++ (x :: lx), hroE, hpar', hguid', hro0, Fnew, h0fin, hlive3, hmatch3,
        hfresh3, hhnd3, hond⟩
    · -- old parent is the root, new parent is a deeper node
      have hpop : p ≠ op := by
        rw [hop0]
        exact hp0
      have horo : oo = ro := by
        have hoo2 := hoo
        rw [hop0, hro] at hoo2
        exact (Option.some.inj hoo2).symm
      have hpl : p ∈ l := by
        rcases List.mem_cons.mp hpmem with hh | hh
        · exact absurd hh hp0
        · exact hh
      have hplrem : p ∈ lrem := (hlremmem p).mpr ⟨hpl, hpnot⟩
      have hpp : ∀ po', fmLookup h1 p = some po' →
          fmLookup h3 p = some { po' with children := po'.children ++ [(xo.guid, x)] } := by
        intro po' hpo'
        rw [hso] at hpo'
        rw [← Option.some.inj hpo', hlook3p, hinsapp]
      obtain ⟨l', Fl', hl'⟩ := forest_attach_deep p x xo.guid lx
        { xo with parent := some p } hlook3x rfl rfl Fsub3 hOx hpp hxlx hpnot
        (fmErase ro.children xo.guid) lrem 0 FA hplrem hagree1
        (fun z hz zo hzo => rfl) hgl1 hdisjSL1 h0sub
      have hroE : fmLookup h3 0 =
          some { ro with children := fmErase ro.children xo.guid } := by
        rw [← hop0, hlook3op hpop, horo]
      have Fnew : Forest h3 c.objects 0
          ({ ro with children := fmErase ro.children xo.guid } : ObjData).children l' := by
        show Forest h3 c.objects 0 (fmErase ro.children xo.guid) l'
        exact Fl'
      have hmemfin : ∀ z, z ∈ l' ↔ z ∈ l := by
        intro z
        rw [hl' z]
        constructor
        · rintro (hz | hz)
          · exact ((hlremmem z).mp hz).1
          · exact hsubl z hz
        · intro hz
          by_cases hzs : z ∈ x :: lx
          · exact Or.inr hzs
          · exact Or.inl ((hlremmem z).mpr ⟨hz, hzs⟩)
      have h0fin : (0 : Nat) ∉ l' := fun hm => h0l ((hmemfin 0).mp hm)
      have hlive3 : ∀ g r, fmLookup c.objects g = some r → r ∈ 0 :: l' := by
        intro g r hgr
        rcases List.mem_cons.mp (hlive g r hgr) with hh | hh
        · exact List.mem_cons.mpr (Or.inl hh)
        · exact List.mem_cons.mpr (Or.inr ((hmemfin r).mpr hh))
      have hpar' : ({ ro with children := fmErase ro.children xo.guid } : ObjData).parent
          = none := by
        show ro.parent = none
        exact hrop
      have hguid' : ({ ro with children := fmErase ro.children xo.guid } : ObjData).guid
          = "" := by
        show ro.guid = ""
        exact hrog
      exact Or.inr ⟨{ ro with children := fmErase ro.children xo.guid }, l',
        hroE, hpar', hguid', hro0, Fnew, h0fin, hlive3, hmatch3, hfresh3, hhnd3, hond⟩
  · by_cases hp0 : p = 0
    · -- new parent is the root, old parent is a deeper node
      have hpop : p ≠ op := by
        rw [hp0]
        exact fun hh => hopne0 hh.symm
      have hsoeq : so = po := by
        rcases hsocase with ⟨heq, _⟩ | ⟨_, hs⟩
        · exact absurd heq hpop
        · exact hs
      have hpro : po = ro := by
        have hpo2 := hpo
        rw [hp0, hro] at hpo2
        exact (Option.some.inj hpo2).symm
      have FBf : Forest h3 c.objects 0 ro.children lrem := by
        refine forest_frame FB (fun z hz => ?_) (fun z hz zo hzo => rfl)
        have hzl := (hlremmem z).mp hz
        refine hlook31 z (fun hh => hzl.2 (List.mem_cons.mpr (Or.inl hh))) ?_
        intro hh
        rw [hp0] at hh
        exact h0l (hh ▸ hzl.1)
      have hkB : fmLookup ro.children xo.guid = none := by
        rw [← hpro, ← hsoeq]
        exact hkey_so
      have hatt : Forest h3 c.objects 0
          (ro.children ++ [(xo.guid, x)]) (lrem ++ (x :: lx)) := by
        refine forest_attach_here 0 x xo.guid lx { xo with parent := some p }
          hlook3x rfl ?_ Fsub3 hOx hxlx h0sub _ _ _ FBf rfl hkB hdisjSL1
        show some p = some 0
        rw [hp0]
      have hroE : fmLookup h3 0 =
          some { so with children := fmInsert so.children xo.guid x } := by
        rw [← hp0]
        exact hlook3p
      have hch : ({ so with children := fmInsert so.children xo.guid x } : ObjData).children
          = ro.children ++ [(xo.guid, x)] := by
        show fmInsert so.children xo.guid x = _
        rw [hinsapp, hsoeq, hpro]
      have Fnew : Forest h3 c.objects 0
          ({ so with children := fmInsert so.children xo.guid x } : ObjData).children
          (lrem ++ (x :: lx)) := by
        rw [hch]
        exact hatt
      have hmemfin : ∀ z, z ∈ lrem ++ (x :: lx) ↔ z ∈ l := by
        intro z
        constructor
        · intro hz
          rcases List.mem_append.mp hz with hz | hz
          · exact ((hlremmem z).mp hz).1
          · exact hsubl z hz
        · intro hz
          by_cases hzs : z ∈ x :: lx
          · exact List.mem_append.mpr (Or.inr hzs)
          · exact List.mem_append.mpr (Or.inl ((hlremmem z).mpr ⟨hz, hzs⟩))
      have h0fin : (0 : Nat) ∉ lrem ++ (x :: lx) := fun hm => h0l ((hmemfin 0).mp hm)
      have hlive3 : ∀ g r, fmLookup c.objects g = some r → r ∈ 0 :: (lrem ++ (x :: lx)) := by
        intro g r hgr
        rcases List.mem_cons.mp (hlive g r hgr) with hh | hh
        · exact List.mem_cons.mpr (Or.inl hh)
        · exact List.mem_cons.mpr (Or.inr ((hmemfin r).mpr hh))
      have hpar' : ({ so with children := fmInsert so.children xo.guid x } : ObjData).parent
          = none := by
        show so.parent = none
        rw [hsoeq, hpro]
        exact hrop
      have hguid' : ({ so with children := fmInsert so.children xo.guid x } : ObjData).guid
          = "" := by
        show so.guid = ""
        rw [hsoeq, hpro]
        exact hrog
      exact Or.inr ⟨{ so with children := fmInsert so.children xo.guid x },
        lrem ++ (x :: lx), hroE, hpar', hguid', hro0, Fnew, h0fin, hlive3, hmatch3,
        hfresh3, hhnd3, hond⟩
    · -- both the old and the new parent are deeper nodes
      have hpl : p ∈ l := by
        rcases List.mem_cons.mp hpmem with hh | hh
        · exact absurd hh hp0
        · exact hh
      have hplrem : p ∈ lrem := (hlremmem p).mpr ⟨hpl, hpnot⟩
      have hpp : ∀ po', fmLookup h1 p = some po' →
          fmLookup h3 p = some { po' with children := po'.children ++ [(xo.guid, x)] } := by
        intro po' hpo'
        rw [hso] at hpo'
        rw [← Option.some.inj hpo', hlook3p, hinsapp]
      obtain ⟨l', Fl', hl'⟩ := forest_attach_deep p x xo.guid lx
        { xo with parent := some p } hlook3x rfl rfl Fsub3 hOx hpp hxlx hpnot
        ro.children lrem 0 FB hplrem hagree1
        (fun z hz zo hzo => rfl) hgl1 hdisjSL1 h0sub
      have hroE : fmLookup h3 0 = some ro := by
        rw [hlook3other 0 (Ne.symm hxne0) (fun hh => hp0 hh.symm)
          (fun hh => hopne0 hh.symm)]
        exact hro
      have hmemfin : ∀ z, z ∈ l' ↔ z ∈ l := by
        intro z
        rw [hl' z]
        constructor
        · rintro (hz | hz)
          · exact ((hlremmem z).mp hz).1
          · exact hsubl z hz
        · intro hz
          by_cases hzs : z ∈ x :: lx
          · exact Or.inr hzs
          · exact Or.inl ((hlremmem z).mpr ⟨hz, hzs⟩)
      have h0fin : (0 : Nat) ∉ l' := fun hm => h0l ((hmemfin 0).mp hm)
      have hlive3 : ∀ g r, fmLookup c.objects g = some r → r ∈ 0 :: l' := by
        intro g r hgr
        rcases List.mem_cons.mp (hlive g r hgr) with hh | hh
        · exact List.mem_cons.mpr (Or.inl hh)
        · exact List.mem_cons.mpr (Or.inr ((hmemfin r).mpr hh))
      exact Or.inr ⟨ro, l', hroE, hrop, hrog, hro0, Fl', h0fin, hlive3, hmatch3,
        hfresh3, hhnd3, hond⟩

/-- Full characterisation of `ChannelOwner._dispose` on a well-formed
subtree: the call succeeds (the fuel bound is met on well-formed states),
removes exactly the subtree's guids from the flat index, clears the
subtree nodes' child dicts, removes the disposed guid from the parent's
child dict, and leaves everything else untouched. -/
theorem disposeRec_spec : ∀ fuel : Nat, ∀ c : Conn, ∀ x : Nat, ∀ xo : ObjData,
    ∀ lx : List Nat,
    fmLookup c.heap x = some xo →
    Forest c.heap c.objects x xo.children lx →
    fmLookup c.objects xo.guid = some x →
    x ∉ lx →
    (∀ pq, xo.parent = some pq → pq ∉ x :: lx ∧
      ∃ po, fmLookup c.heap pq = some po ∧ fmLookup po.children xo.guid = some x) →
    (∀ z ∈ lx, ∀ zo, fmLookup c.heap z = some zo → fmLookup c.objects zo.guid = some z) →
    (c.objects.map Prod.fst).Nodup →
    (x :: lx).length ≤ fuel →
    ∃ c', channelOwnerDisposeRec fuel c x = .ok c'
      ∧ c'.nextRef = c.nextRef ∧ c'.lastId = c.lastId ∧ c'.callbacks = c.callbacks
      ∧ c'.futures = c.futures ∧ c'.error = c.error ∧ c'.sent = c.sent
      ∧ (∀ z ∈ x :: lx, ∀ zo, fmLookup c.heap z = some zo →
          fmLookup c'.heap z = some { zo with children := [] }
          ∧ fmLookup c'.objects zo.guid = none)
      ∧ (∀ z, z ∉ x :: lx → (∀ pq, xo.parent = some pq → z ≠ pq) →
          fmLookup c'.heap z = fmLookup c.heap z)
      ∧ (∀ pq po', xo.parent = some pq → fmLookup c.heap pq = some po' →
          fmLookup c'.heap pq = some { po' with children := fmErase po'.children xo.guid })
      ∧ (∀ g', (∀ z ∈ x :: lx, ∀ zo, fmLookup c.heap z = some zo → zo.guid ≠ g') →
          fmLookup c'.objects g' = fmLookup c.objects g')
      ∧ c'.heap.map Prod.fst = c.heap.map Prod.fst
      ∧ List.Sublist (c'.objects.map Prod.fst) (c.objects.map Prod.fst)
      ∧ c'.objects.length + (x :: lx).length = c.objects.length := by
  intro fuel
  induction fuel with
  | zero =>
    intro c x xo lx hcx F hOg hxlx hparh hOinj hond hfuel
    simp at hfuel
  | succ fuel ih =>
    intro c x xo lx hcx F hOg hxlx hparh hOinj hond hfuel
    have hglx : ∀ z ∈ lx, ∀ zo, fmLookup c.heap z = some zo → zo.guid ≠ xo.guid := by
      intro z hz zo hzo hg
      have e1 := hOinj z hz zo hzo
      rw [hg, hOg] at e1
      have hxz : x = z := Option.some.inj e1
      rw [← hxz] at hz
      exact hxlx hz
    -- the child-dispose loop, characterised against a fixed pre-loop state
    have loop : ∀ d : Conn,
        ∀ pr kids lk, Forest d.heap d.objects pr kids lk →
        (∀ z ∈ lk, ∀ zo, fmLookup d.heap z = some zo →
          fmLookup d.objects zo.guid = some z) →
        lk.length ≤ fuel →
        pr ∉ lk →
        ∀ cc : Conn, ∀ xoc : ObjData,
        fmLookup cc.heap pr = some xoc →
        (∀ g r, fmLookup kids g = some r → fmLookup xoc.children g = some r) →
        (∀ z ∈ lk, fmLookup cc.heap z = fmLookup d.heap z) →
        (∀ z ∈ lk, ∀ zo, fmLookup d.heap z = some zo →
          fmLookup cc.objects zo.guid = fmLookup d.objects zo.guid) →
        (cc.objects.map Prod.fst).Nodup →
        ∃ cf, disposeListF (channelOwnerDisposeRec fuel) cc (kids.map Prod.snd) = .ok cf
          ∧ cf.nextRef = cc.nextRef ∧ cf.lastId = cc.lastId ∧ cf.callbacks = cc.callbacks
          ∧ cf.futures = cc.futures ∧ cf.error = cc.error ∧ cf.sent = cc.sent
          ∧ (∀ z ∈ lk, ∀ zo, fmLookup d.heap z = some zo →
              fmLookup cf.heap z = some { zo with children := [] }
              ∧ fmLookup cf.objects zo.guid = none)
          ∧ (∀ z, z ∉ lk → z ≠ pr → fmLookup cf.heap z = fmLookup cc.heap z)
          ∧ (∃ E, fmLookup cf.heap pr = some { xoc with children := E })
          ∧ (∀ g', (∀ z ∈ lk, ∀ zo, fmLookup d.heap z = some zo → zo.guid ≠ g') →
              fmLookup cf.objects g' = fmLookup cc.objects g')
          ∧ cf.heap.map Prod.fst = cc.heap.map Prod.fst
          ∧ List.Sublist (cf.objects.map Prod.fst) (cc.objects.map Prod.fst)
          ∧ cf.objects.length + lk.length = cc.objects.length := by
      intro d pr kids lk Fk
      induction Fk with
      | nil pr0 =>
        intro hOinjL hfuelL hprlk cc xoc hxc hkc hagr hOag hccnod
        exact ⟨cc, rfl, rfl, rfl, rfl, rfl, rfl, rfl, by intro z hz; simp at hz,
          fun z h1 h2 => rfl, ⟨xoc.children, hxc⟩, fun g' h => rfl, rfl,
          List.Sublist.refl _, by simp⟩
      | cons pr g ci cio rest lci lrest h1 h2 h3 h4 Fx Frest hkey hxl hpr hdisj _ihx ihrest =>
        intro hOinjL hfuelL hprlk cc xoc hxc hkc hagr hOag hccnod
        have hmci : ci ∈ ci :: (lci ++ lrest) := List.mem_cons.mpr (Or.inl rfl)
        have hmlci : ∀ z ∈ lci, z ∈ ci :: (lci ++ lrest) := by
          intro z hz
          exact List.mem_cons.mpr (Or.inr (List.mem_append.mpr (Or.inl hz)))
        have hmlrest : ∀ z ∈ lrest, z ∈ ci :: (lci ++ lrest) := by
          intro z hz
          exact List.mem_cons.mpr (Or.inr (List.mem_append.mpr (Or.inr hz)))
        have hmsub : ∀ z ∈ ci :: lci, z ∈ ci :: (lci ++ lrest) := by
          intro z hz
          rcases List.mem_cons.mp hz with hh | hh
          · exact List.mem_cons.mpr (Or.inl hh)
          · exact hmlci z hh
        have hgdist : ∀ z₁ ∈ ci :: (lci ++ lrest), ∀ z₂ ∈ ci :: (lci ++ lrest), z₁ ≠ z₂ →
            ∀ zo₁, fmLookup d.heap z₁ = some zo₁ → ∀ zo₂, fmLookup d.heap z₂ = some zo₂ →
            zo₁.guid ≠ zo₂.guid := by
          intro z₁ hm₁ z₂ hm₂ hne zo₁ hzo₁ zo₂ hzo₂ hg
          have e₁ := hOinjL z₁ hm₁ zo₁ hzo₁
          have e₂ := hOinjL z₂ hm₂ zo₂ hzo₂
          rw [hg, e₂] at e₁
          exact hne (Option.some.inj e₁).symm
        -- dispose the head child using the outer induction hypothesis
        have hcxc : fmLookup cc.heap ci = some cio := by
          rw [hagr ci hmci]
          exact h1
        have Fc : Forest cc.heap cc.objects ci cio.children lci := by
          refine forest_frame Fx (fun z hz => hagr z (hmlci z hz)) ?_
          intro z hz zo hzo
          exact hOag z (hmlci z hz) zo hzo
        have hOgc : fmLookup cc.objects cio.guid = some ci :=
          (hOag ci hmci cio h1).trans (hOinjL ci hmci cio h1)
        have hparc : ∀ pq, cio.parent = some pq → pq ∉ ci :: lci ∧
            ∃ po', fmLookup cc.heap pq = some po'
              ∧ fmLookup po'.children cio.guid = some ci := by
          intro pq hpq
          rw [h3] at hpq
          have hpq' : pr = pq := Option.some.inj hpq
          subst hpq'
          refine ⟨hpr, xoc, hxc, ?_⟩
          have hk0 : fmLookup ((g, ci) :: rest) g = some ci := by
            simp [fmLookup]
          have h5 := hkc g ci hk0
          rw [h2]
          exact h5
        have hOinjc : ∀ z ∈ lci, ∀ zo, fmLookup cc.heap z = some zo →
            fmLookup cc.objects zo.guid = some z := by
          intro z hz zo hzo
          rw [hagr z (hmlci z hz)] at hzo
          rw [hOag z (hmlci z hz) zo hzo]
          exact hOinjL z (hmlci z hz) zo hzo
        have hfuelc : (ci :: lci).length ≤ fuel := by
          simp only [List.length_cons, List.length_append] at hfuelL ⊢
          omega
        obtain ⟨c1, hrun1, hn1, hl1, hcb1, hf1, he1, hs1, hin1, hout1, hpar1, hobj1,
          hk1, hsl1, hlen1⟩ :=
          ih cc ci cio lci hcxc Fc hOgc hxl hparc hOinjc hccnod hfuelc
        -- dispose the remaining children using the forest induction hypothesis
        have hOinjrest : ∀ z ∈ lrest, ∀ zo, fmLookup d.heap z = some zo →
            fmLookup d.objects zo.guid = some z :=
          fun z hz zo hzo => hOinjL z (hmlrest z hz) zo hzo
        have hfuelrest : lrest.length ≤ fuel := by
          simp only [List.length_cons, List.length_append] at hfuelL
          omega
        have hprrest : pr ∉ lrest := fun hh => hprlk (hmlrest pr hh)
        have hagrrest : ∀ z ∈ lrest, fmLookup c1.heap z = fmLookup d.heap z := by
          intro z hz
          have hz1 : z ∉ ci :: lci := fun hh => hdisj z hh hz
          have hzpr : z ≠ pr := fun hh => hprlk (by rw [← hh]; exact hmlrest z hz)
          rw [hout1 z hz1 ?_]
          · exact hagr z (hmlrest z hz)
          · intro pq hpq
            rw [h3] at hpq
            rw [← Option.some.inj hpq]
            exact hzpr
        have hOagrest : ∀ z ∈ lrest, ∀ zo, fmLookup d.heap z = some zo →
            fmLookup c1.objects zo.guid = fmLookup d.objects zo.guid := by
          intro z hz zo hzo
          have hstep : fmLookup c1.objects zo.guid = fmLookup cc.objects zo.guid := by
            refine hobj1 zo.guid ?_
            intro w hw wo hwo
            rw [hagr w (hmsub w hw)] at hwo
            refine hgdist w (hmsub w hw) z (hmlrest z hz) ?_ wo hwo zo hzo
            intro hh
            exact hdisj w hw (by rw [hh]; exact hz)
          rw [hstep]
          exact hOag z (hmlrest z hz) zo hzo
        have hxc1 : fmLookup c1.heap pr =
            some { xoc with children := fmErase xoc.children cio.guid } :=
          hpar1 pr xoc h3 hxc
        have hkc1 : ∀ g' r, fmLookup rest g' = some r →
            fmLookup (fmErase xoc.children cio.guid) g' = some r := by
          intro g' r hr
          have hgg : g' ≠ g := by
            intro hh
            rw [hh, hkey] at hr
            exact Option.noConfusion hr
          have hb : ¬ (g == g') = true := by
            simp only [beq_iff_eq]
            exact fun hh => hgg hh.symm
          have hkg : fmLookup ((g, ci) :: rest) g' = some r := by
            show (if (g == g') = true then some ci else fmLookup rest g') = some r
            rw [if_neg hb]
            exact hr
          have h6 := hkc g' r hkg
          have hgg2 : g' ≠ cio.guid := by
            rw [h2]
            exact hgg
          rw [fmLookup_erase_ne _ _ _ hgg2]
          exact h6
        have hccnod1 : (c1.objects.map Prod.fst).Nodup := hsl1.nodup hccnod
        obtain ⟨cf, hrunr, hnr, hlr, hcbr, hfr, her, hsr, hinr, houtr, hxr, hobjr,
          hkr, hslr, hlenr⟩ :=
          ihrest hOinjrest hfuelrest hprrest c1
            { xoc with children := fmErase xoc.children cio.guid }
            hxc1 hkc1 hagrrest hOagrest hccnod1
        refine ⟨cf, ?_, ?_, ?_, ?_, ?_, ?_, ?_, ?_, ?_, ?_, ?_, ?_, ?_, ?_⟩
        · simp only [List.map_cons, disposeListF, hrun1]
          exact hrunr
        · rw [hnr, hn1]
        · rw [hlr, hl1]
        · rw [hcbr, hcb1]
        · rw [hfr, hf1]
        · rw [her, he1]
        · rw [hsr, hs1]
        · intro z hz zo hzo
          have hcases : z ∈ ci :: lci ∨ z ∈ lrest := by
            rcases List.mem_cons.mp hz with hh | hh
            · exact Or.inl (List.mem_cons.mpr (Or.inl hh))
            · rcases List.mem_append.mp hh with hh2 | hh2
              · exact Or.inl (List.mem_cons.mpr (Or.inr hh2))
              · exact Or.inr hh2
          rcases hcases with hzsub | hzrest
          · have hzo' : fmLookup cc.heap z = some zo := by
              rw [hagr z hz]
              exact hzo
            obtain ⟨hh1, hh2⟩ := hin1 z hzsub zo hzo'
            have hznr : z ∉ lrest := hdisj z hzsub
            have hzpr : z ≠ pr := fun hh => hprlk (by rw [← hh]; exact hz)
            constructor
            · rw [houtr z hznr hzpr]
              exact hh1
            · have hstep := hobjr zo.guid ?_
              · rw [hstep]
                exact hh2
              · intro w hw wo hwo
                refine hgdist w (hmlrest w hw) z hz ?_ wo hwo zo hzo
                intro hh
                exact hznr (by rw [← hh]; exact hw)
          · exact hinr z hzrest zo hzo
        · intro z hznk hzpr
          have hznr : z ∉ lrest := fun hh => hznk (hmlrest z hh)
          have hzsub : z ∉ ci :: lci := fun hh => hznk (hmsub z hh)
          rw [houtr z hznr hzpr, hout1 z hzsub ?_]
          intro pq hpq
          rw [h3] at hpq
          rw [← Option.some.inj hpq]
          exact hzpr
        · obtain ⟨E, hEr⟩ := hxr
          exact ⟨E, hEr⟩
        · intro g' hpred
          have hstep2 := hobjr g' (fun w hw wo hwo => hpred w (hmlrest w hw) wo hwo)
          have hstep1 := hobj1 g' ?_
          · rw [hstep2, hstep1]
          · intro w hw wo hwo
            rw [hagr w (hmsub w hw)] at hwo
            exact hpred w (hmsub w hw) wo hwo
        · rw [hkr, hk1]
        · exact hslr.trans hsl1
        · simp only [List.length_cons, List.length_append] at hlen1 hlenr ⊢
          omega
    -- combine: bookkeeping steps, then the loop, then the final clear
    have main2 : ∀ cD : Conn,
        cD.nextRef = c.nextRef → cD.lastId = c.lastId → cD.callbacks = c.callbacks →
        cD.futures = c.futures → cD.error = c.error → cD.sent = c.sent →
        cD.objects = fmErase c.objects xo.guid →
        (∀ z ∈ x :: lx, fmLookup cD.heap z = fmLookup c.heap z) →
        (∀ z, z ∉ x :: lx → (∀ pq, xo.parent = some pq → z ≠ pq) →
          fmLookup cD.heap z = fmLookup c.heap z) →
        (∀ pq po', xo.parent = some pq → fmLookup c.heap pq = some po' →
          fmLookup cD.heap pq = some { po' with children := fmErase po'.children xo.guid }) →
        cD.heap.map Prod.fst = c.heap.map Prod.fst →
        ∃ cf E c',
          disposeListF (channelOwnerDisposeRec fuel) cD (xo.children.map Prod.snd) = .ok cf
          ∧ fmLookup cf.heap x = some { xo with children := E }
          ∧ c' = { cf with heap := fmInsert cf.heap x { { xo with children := E } with children := [] } }
          ∧ c'.nextRef = c.nextRef ∧ c'.lastId = c.lastId ∧ c'.callbacks = c.callbacks
          ∧ c'.futures = c.futures ∧ c'.error = c.error ∧ c'.sent = c.sent
          ∧ (∀ z ∈ x :: lx, ∀ zo, fmLookup c.heap z = some zo →
              fmLookup c'.heap z = some { zo with children := [] }
              ∧ fmLookup c'.objects zo.guid = none)
          ∧ (∀ z, z ∉ x :: lx → (∀ pq, xo.parent = some pq → z ≠ pq) →
              fmLookup c'.heap z = fmLookup c.heap z)
          ∧ (∀ pq po', xo.parent = some pq → fmLookup c.heap pq = some po' →
              fmLookup c'.heap pq = some { po' with children := fmErase po'.children xo.guid })
          ∧ (∀ g', (∀ z ∈ x :: lx, ∀ zo, fmLookup c.heap z = some zo → zo.guid ≠ g') →
              fmLookup c'.objects g' = fmLookup c.objects g')
          ∧ c'.heap.map Prod.fst = c.heap.map Prod.fst
          ∧ List.Sublist (c'.objects.map Prod.fst) (c.objects.map Prod.fst)
          ∧ c'.objects.length + (x :: lx).length = c.objects.length := by
      intro cD hn hl hcb hf he hs hDobj hD2 hD1 hD6 hD4
      have hDonod : (cD.objects.map Prod.fst).Nodup := by
        rw [hDobj]
        exact fmErase_nodupKeys _ _ hond
      have FD : Forest cD.heap cD.objects x xo.children lx := by
        refine forest_frame F (fun z hz => hD2 z (List.mem_cons.mpr (Or.inr hz))) ?_
        intro z hz zo hzo
        rw [hDobj]
        exact fmLookup_erase_ne _ _ _ (hglx z hz zo hzo)
      have hOinjD : ∀ z ∈ lx, ∀ zo, fmLookup cD.heap z = some zo →
          fmLookup cD.objects zo.guid = some z := by
        intro z hz zo hzo
        rw [hD2 z (List.mem_cons.mpr (Or.inr hz))] at hzo
        rw [hDobj, fmLookup_erase_ne _ _ _ (hglx z hz zo hzo)]
        exact hOinj z hz zo hzo
      have hxcD : fmLookup cD.heap x = some xo := by
        rw [hD2 x (List.mem_cons.mpr (Or.inl rfl))]
        exact hcx
      have hfuelLx : lx.length ≤ fuel := by
        simp only [List.length_cons] at hfuel
        omega
      obtain ⟨cf, hrunloop, hfn, hfl, hfcb, hff, hfe, hfs, hfin, hfout, hfx, hfobj,
        hfk, hfsl, hflen⟩ :=
        loop cD x xo.children lx FD hOinjD hfuelLx hxlx
          cD xo hxcD (fun g r hgr => hgr) (fun z hz => rfl) (fun z hz zo hzo => rfl) hDonod
      obtain ⟨E, hE⟩ := hfx
      refine ⟨cf, E, _, hrunloop, hE, rfl, ?_, ?_, ?_, ?_, ?_, ?_, ?_, ?_, ?_, ?_, ?_, ?_, ?_⟩
      · show cf.nextRef = c.nextRef
        rw [hfn, hn]
      · show cf.lastId = c.lastId
        rw [hfl, hl]
      · show cf.callbacks = c.callbacks
        rw [hfcb, hcb]
      · show cf.futures = c.futures
        rw [hff, hf]
      · show cf.error = c.error
        rw [hfe, he]
      · show cf.sent = c.sent
        rw [hfs, hs]
      · intro z hz zo hzo
        rcases List.mem_cons.mp hz with hzx | hzlx
        · subst hzx
          rw [hcx] at hzo
          have hzoxo : xo = zo := Option.some.inj hzo
          constructor
          · rw [← hzoxo]
            show fmLookup (fmInsert cf.heap z { { xo with children := E } with children := [] }) z
              = some { xo with children := [] }
            rw [fmLookup_insert_self]
          · rw [← hzoxo]
            show fmLookup cf.objects xo.guid = none
            have hstep := hfobj xo.guid ?_
            · rw [hstep, hDobj]
              exact fmLookup_erase_self_of_nodup _ _ hond
            · intro w hw wo hwo
              rw [hD2 w (List.mem_cons.mpr (Or.inr hw))] at hwo
              exact hglx w hw wo hwo
        · have hzo' : fmLookup cD.heap z = some zo := by
            rw [hD2 z (List.mem_cons.mpr (Or.inr hzlx))]
            exact hzo
          obtain ⟨hh1, hh2⟩ := hfin z hzlx zo hzo'
          have hzx : z ≠ x := fun hh => hxlx (by rw [← hh]; exact hzlx)
          constructor
          · show fmLookup (fmInsert cf.heap x { { xo with children := E } with children := [] }) z
              = some { zo with children := [] }
            rw [fmLookup_insert_ne _ _ _ _ hzx]
            exact hh1
          · exact hh2
      · intro z hznot hzpq
        have hzx : z ≠ x := fun hh => hznot (List.mem_cons.mpr (Or.inl hh))
        show fmLookup (fmInsert cf.heap x { { xo with children := E } with children := [] }) z
          = fmLookup c.heap z
        rw [fmLookup_insert_ne _ _ _ _ hzx,
          hfout z (fun hh => hznot (List.mem_cons.mpr (Or.inr hh))) hzx]
        exact hD1 z hznot hzpq
      · intro pq po' hpq hpo'
        have hpqn := (hparh pq hpq).1
        have hpqx : pq ≠ x := fun hh => hpqn (List.mem_cons.mpr (Or.inl hh))
        show fmLookup (fmInsert cf.heap x { { xo with children := E } with children := [] }) pq
          = some { po' with children := fmErase po'.children xo.guid }
        rw [fmLookup_insert_ne _ _ _ _ hpqx,
          hfout pq (fun hh => hpqn (List.mem_cons.mpr (Or.inr hh))) hpqx]
        exact hD6 pq po' hpq hpo'
      · intro g' hpred
        show fmLookup cf.objects g' = fmLookup c.objects g'
        have hgne : g' ≠ xo.guid := Ne.symm (hpred x (List.mem_cons.mpr (Or.inl rfl)) xo hcx)
        have hstep := hfobj g' ?_
        · rw [hstep, hDobj]
          exact fmLookup_erase_ne _ _ _ hgne
        · intro w hw wo hwo
          rw [hD2 w (List.mem_cons.mpr (Or.inr hw))] at hwo
          exact hpred w (List.mem_cons.mpr (Or.inr hw)) wo hwo
      · show (fmInsert cf.heap x { { xo with children := E } with children := [] }).map Prod.fst
          = c.heap.map Prod.fst
        rw [fmInsert_present_keys _ _ _ _ hE, hfk, hD4]
      · show List.Sublist (cf.objects.map Prod.fst) (c.objects.map Prod.fst)
        refine hfsl.trans ?_
        rw [hDobj]
        exact fmErase_map_fst_sublist _ _
      · show cf.objects.length + (x :: lx).length = c.objects.length
        have he1 : (fmErase c.objects xo.guid).length + 1 = c.objects.length :=
          fmErase_length _ _ _ hOg
        have he2 : cD.objects.length = (fmErase c.objects xo.guid).length := by
          rw [hDobj]
        simp only [List.length_cons]
        omega
    have hpcase : xo.parent = none ∨ ∃ pp, xo.parent = some pp := by
      cases xo.parent
      · exact Or.inl rfl
      · exact Or.inr ⟨_, rfl⟩
    rcases hpcase with hxopar | ⟨pp, hxopar⟩
    · obtain ⟨cf, E, c', hrunloop, hE, hcdef, hcs⟩ :=
        main2 { c with objects := fmErase c.objects xo.guid } rfl rfl rfl rfl rfl rfl rfl
          (fun z hz => rfl) (fun z h1' h2' => rfl)
          (fun pq po' hpq hpo' => by rw [hxopar] at hpq; exact Option.noConfusion hpq) rfl
      refine ⟨c', ?_, hcs⟩
      unfold channelOwnerDisposeRec
      simp only [hcx, hxopar, hOg, hrunloop, hE]
      rw [hcdef]
      simp only [hxopar]
    · obtain ⟨hppnot, po, hpolook, hpoedge⟩ := hparh pp hxopar
      have hppx : pp ≠ x := fun hh => hppnot (List.mem_cons.mpr (Or.inl hh))
      have hDx : fmLookup (fmInsert c.heap pp
          { po with children := fmErase po.children xo.guid }) x = some xo := by
        rw [fmLookup_insert_ne _ _ _ _ (Ne.symm hppx)]
        exact hcx
      obtain ⟨cf, E, c', hrunloop, hE, hcdef, hcs⟩ :=
        main2 { c with
            heap := fmInsert c.heap pp { po with children := fmErase po.children xo.guid },
            objects := fmErase c.objects xo.guid }
          rfl rfl rfl rfl rfl rfl rfl
          (fun z hz => fmLookup_insert_ne _ _ _ _ (fun hh => hppnot (by rw [← hh]; exact hz)))
          (fun z h1' h2' => fmLookup_insert_ne _ _ _ _ (h2' pp hxopar))
          (fun pq po' hpq hpo' => by
            rw [hxopar] at hpq
            have hpqe : pp = pq := Option.some.inj hpq
            subst hpqe
            rw [hpolook] at hpo'
            have hpoe : po = po' := Option.some.inj hpo'
            subst hpoe
            exact fmLookup_insert_self _ _ _)
          (fmInsert_present_keys _ _ _ _ hpolook)
      refine ⟨c', ?_, hcs⟩
      unfold channelOwnerDisposeRec
      simp only [hcx, hxopar, hpolook, hpoedge, hOg, hDx, hrunloop, hE]
      rw [hcdef]
      simp only [hxopar]

/-- A forest spans at most as many nodes as the flat index has entries
(each spanned node is the value of an index entry, and nodes are distinct). -/
theorem forest_length_le {h : List (Nat × ObjData)} {O : List (String × Nat)}
    {pr : Nat} {kids : List (String × Nat)} {l : List Nat}
    (F : Forest h O pr kids l) : l.length ≤ O.length := by
  have hsub : l ⊆ O.map Prod.snd := by
    intro z hz
    obtain ⟨zo, hzo, hOz⟩ := forest_mem_node F z hz
    exact List.mem_map_of_mem Prod.snd (fmLookup_some_mem _ _ _ hOz)
  have hnd := forest_nodup F
  have hle := (List.subperm_of_subset hnd hsub).length_le
  simpa using hle

/-- `ChannelOwner._dispose`, run with the fuel `dispatch` passes, succeeds
on every live object of a well-formed connection and preserves
well-formedness; disposing the root object empties the registry. -/
theorem wf_channelOwnerDispose (c : Conn) (g : String) (r : Nat)
    (hwf : WFconn c) (hlook : fmLookup c.objects g = some r) :
    ∃ c', channelOwnerDisposeRec (c.objects.length + 1) c r = .ok c' ∧ WFconn c' := by
  rcases hwf with hdead | hrooted
  · rw [hdead g] at hlook
    exact Option.noConfusion hlook
  obtain ⟨ro, l, hro, hrop, hrog, hro0, F, h0l, hlive, hmatch, hfresh, hhnd, hond⟩ :=
    hrooted
  have hOg0 : fmLookup c.objects ro.guid = some 0 := by
    rw [hrog]
    exact hro0
  have hOinjl : ∀ z ∈ l, ∀ zo, fmLookup c.heap z = some zo →
      fmLookup c.objects zo.guid = some z := by
    intro z hz zo hzo
    obtain ⟨zo₂, hzo₂, hOz⟩ := forest_mem_node F z hz
    rw [hzo] at hzo₂
    rw [← Option.some.inj hzo₂] at hOz
    exact hOz
  have hOinj0 : ∀ z ∈ (0 : Nat) :: l, ∀ zo, fmLookup c.heap z = some zo →
      fmLookup c.objects zo.guid = some z := by
    intro z hz zo hzo
    rcases List.mem_cons.mp hz with hh | hh
    · subst hh
      rw [hro] at hzo
      rw [← Option.some.inj hzo]
      exact hOg0
    · exact hOinjl z hh zo hzo
  rcases List.mem_cons.mp (hlive g r hlook) with hr0 | hrl
  · -- the root is being disposed: every index entry disappears
    subst hr0
    have hparh0 : ∀ pq, ro.parent = some pq → pq ∉ (0 : Nat) :: l ∧
        ∃ po, fmLookup c.heap pq = some po ∧ fmLookup po.children ro.guid = some 0 := by
      intro pq hpq
      rw [hrop] at hpq
      exact Option.noConfusion hpq
    have hfuel0 : ((0 : Nat) :: l).length ≤ c.objects.length + 1 := by
      have hle := forest_length_le F
      simp only [List.length_cons]
      omega
    obtain ⟨c', hrun, hn, hl2, hcb, hf, he, hs, hin, hout, hparc, hobj, hkeys, hsl, hlen⟩ :=
      disposeRec_spec (c.objects.length + 1) c 0 ro l hro F hOg0 h0l hparh0 hOinjl
        hond hfuel0
    refine ⟨c', hrun, Or.inl ?_⟩
    intro g'
    by_cases hg : ∃ w, fmLookup c.objects g' = some w
    · obtain ⟨w, hw⟩ := hg
      have hwmem := hlive g' w hw
      obtain ⟨wo, hwo, hwog, hwoc⟩ := hmatch g' w hw
      have hnone := (hin w hwmem wo hwo).2
      rw [hwog] at hnone
      exact hnone
    · have hnone : fmLookup c.objects g' = none := by
        cases hcase : fmLookup c.objects g' with
        | none => rfl
        | some w => exact absurd ⟨w, hcase⟩ hg
      rw [hobj g' ?_, hnone]
      intro z hz zo hzo hgz
      have e := hOinj0 z hz zo hzo
      rw [hgz, hnone] at e
      exact Option.noConfusion e
  · -- a non-root node is being disposed: prune its subtree
    obtain ⟨xo, lx, op, hcx, Fsub, hpar, hopn, hxlx, hOx, hsubl, hedge⟩ :=
      forest_sub F r hrl
    obtain ⟨oo, hoo, hooedge⟩ : ∃ oo, fmLookup c.heap op = some oo
        ∧ fmLookup oo.children xo.guid = some r := by
      rcases hedge with ⟨hop0, hlk⟩ | ⟨_, oo, hoo, hlk⟩
      · exact ⟨ro, by rw [hop0]; exact hro, hlk⟩
      · exact ⟨oo, hoo, hlk⟩
    have hparhr : ∀ pq, xo.parent = some pq → pq ∉ r :: lx ∧
        ∃ po, fmLookup c.heap pq = some po ∧ fmLookup po.children xo.guid = some r := by
      intro pq hpq
      rw [hpar] at hpq
      have hpqe : op = pq := Option.some.inj hpq
      subst hpqe
      exact ⟨hopn, oo, hoo, hooedge⟩
    have hOinjx : ∀ z ∈ lx, ∀ zo, fmLookup c.heap z = some zo →
        fmLookup c.objects zo.guid = some z :=
      fun z hz zo hzo => hOinjl z (hsubl z (List.mem_cons.mpr (Or.inr hz))) zo hzo
    have hfuelr : (r :: lx).length ≤ c.objects.length + 1 := by
      have hle := forest_length_le Fsub
      have hle2 := forest_length_le F
      simp only [List.length_cons]
      omega
    obtain ⟨c', hrun, hn, hl2, hcb, hf, he, hs, hin, hout, hparc, hobj, hkeys, hsl, hlen⟩ :=
      disposeRec_spec (c.objects.length + 1) c r xo lx hcx Fsub hOx hxlx hparhr hOinjx
        hond hfuelr
    refine ⟨c', hrun, Or.inr ?_⟩
    obtain ⟨xo₂, lx₂, op₂, hcx₂, Fsub₂, hpar₂, hopn₂, hxlx₂, hOx₂, hsubl₂, hoploc₂, hcut⟩ :=
      @forest_cut c.heap c'.heap c.objects c'.objects r ro.children l 0 F hrl
    have hxoeq : xo₂ = xo := by
      rw [hcx] at hcx₂
      exact (Option.some.inj hcx₂).symm
    rw [hxoeq] at hpar₂ Fsub₂
    have hopeq : op₂ = op := by
      rw [hpar] at hpar₂
      exact (Option.some.inj hpar₂).symm
    have hlxeq : lx₂ = lx := forest_functional Fsub₂ lx Fsub
    rw [hxoeq, hopeq, hlxeq] at hcut
    have hgdist : ∀ z₁ ∈ (0 : Nat) :: l, ∀ z₂ ∈ (0 : Nat) :: l, z₁ ≠ z₂ →
        ∀ zo₁, fmLookup c.heap z₁ = some zo₁ → ∀ zo₂, fmLookup c.heap z₂ = some zo₂ →
        zo₁.guid ≠ zo₂.guid := by
      intro z₁ h₁ z₂ h₂ hne zo₁ h₁o zo₂ h₂o hgg
      have e₁ := hOinj0 z₁ h₁ zo₁ h₁o
      have e₂ := hOinj0 z₂ h₂ zo₂ h₂o
      rw [hgg, e₂] at e₁
      exact hne (Option.some.inj e₁).symm
    obtain ⟨lrem, hlremmem, hforest⟩ := hcut
      (by
        intro z hz hzs hzop
        refine hout z hzs ?_
        intro pq hpq
        rw [hpar] at hpq
        rw [← Option.some.inj hpq]
        exact hzop)
      (fun oo' hoo' => hparc op oo' hpar hoo')
      (by
        intro z hz hzs zo hzo
        refine hobj zo.guid ?_
        intro w hw wo hwo
        refine hgdist w (List.mem_cons.mpr (Or.inr (hsubl w hw)))
          z (List.mem_cons.mpr (Or.inr hz)) ?_ wo hwo zo hzo
        intro hh
        exact hzs (by rw [← hh]; exact hw))
    have h0nr : (0 : Nat) ∉ r :: lx := fun hm => h0l (hsubl 0 hm)
    have h0lrem : (0 : Nat) ∉ lrem := fun hm => h0l ((hlremmem 0).mp hm).1
    have hOkeep : ∀ g' w, fmLookup c'.objects g' = some w →
        fmLookup c.objects g' = some w ∧ w ∉ r :: lx := by
      intro g' w hw
      by_cases hclash : ∃ z, z ∈ r :: lx ∧ ∃ zo, fmLookup c.heap z = some zo ∧ zo.guid = g'
      · obtain ⟨z, hz, zo, hzo, hzg⟩ := hclash
        have hnone := (hin z hz zo hzo).2
        rw [hzg, hw] at hnone
        exact Option.noConfusion hnone
      · have hunch : fmLookup c'.objects g' = fmLookup c.objects g' := by
          refine hobj g' ?_
          intro z hz zo hzo hg2
          exact hclash ⟨z, hz, zo, hzo, hg2⟩
        rw [hunch] at hw
        refine ⟨hw, ?_⟩
        intro hwin
        obtain ⟨wo, hwo, hwog, _⟩ := hmatch g' w hw
        exact hclash ⟨w, hwin, wo, hwo, hwog⟩
    have hlive' : ∀ g' w, fmLookup c'.objects g' = some w → w ∈ 0 :: lrem := by
      intro g' w hw
      obtain ⟨hw', hwnot⟩ := hOkeep g' w hw
      rcases List.mem_cons.mp (hlive g' w hw') with hh | hh
      · exact List.mem_cons.mpr (Or.inl hh)
      · exact List.mem_cons.mpr (Or.inr ((hlremmem w).mpr ⟨hh, hwnot⟩))
    have hmatch' : ∀ g' w, fmLookup c'.objects g' = some w →
        ∃ o, fmLookup c'.heap w = some o ∧ o.guid = g'
          ∧ o.channel = { ref := w, guid := g' } := by
      intro g' w hw
      obtain ⟨hw', hwnot⟩ := hOkeep g' w hw
      obtain ⟨wo, hwo, hwog, hwoc⟩ := hmatch g' w hw'
      by_cases hwop : w = op
      · subst hwop
        exact ⟨{ wo with children := fmErase wo.children xo.guid },
          hparc w wo hpar hwo, hwog, hwoc⟩
      · refine ⟨wo, ?_, hwog, hwoc⟩
        rw [hout w hwnot ?_]
        · exact hwo
        · intro pq hpq
          rw [hpar] at hpq
          rw [← Option.some.inj hpq]
          exact hwop
    have hfresh' : ∀ q, q ∈ c'.heap.map Prod.fst → q < c'.nextRef := by
      intro q hq
      rw [hkeys] at hq
      rw [hn]
      exact hfresh q hq
    have hhnd' : (c'.heap.map Prod.fst).Nodup := by
      rw [hkeys]
      exact hhnd
    have hond' : (c'.objects.map Prod.fst).Nodup := hsl.nodup hond
    have hro0' : fmLookup c'.objects "" = some 0 := by
      have hstep := hobj "" ?_
      · rw [hstep]
        exact hro0
      · intro w hw wo hwo hgw
        have e := hOinj0 w (List.mem_cons.mpr (Or.inr (hsubl w hw))) wo hwo
        rw [hgw, hro0] at e
        have hw0 : w = 0 := (Option.some.inj e).symm
        rw [hw0] at hw
        exact h0nr hw
    rcases hforest with ⟨hop0, FA⟩ | ⟨hopne, FB⟩
    · have hroE : fmLookup c'.heap 0 =
          some { ro with children := fmErase ro.children xo.guid } := by
        rw [← hop0]
        exact hparc op ro hpar (by rw [hop0]; exact hro)
      refine ⟨{ ro with children := fmErase ro.children xo.guid }, lrem, hroE, ?_, ?_,
        hro0', ?_, h0lrem, hlive', hmatch', hfresh', hhnd', hond'⟩
      · show ro.parent = none
        exact hrop
      · show ro.guid = ""
        exact hrog
      · show Forest c'.heap c'.objects 0 (fmErase ro.children xo.guid) lrem
        exact FA
    · have hroE : fmLookup c'.heap 0 = some ro := by
        rw [hout 0 h0nr ?_]
        · exact hro
        · intro pq hpq
          rw [hpar] at hpq
          rw [← Option.some.inj hpq]
          exact fun hh => hopne hh.symm
      exact ⟨ro, lrem, hroE, hrop, hrog, hro0', FB, h0lrem, hlive', hmatch', hfresh',
        hhnd', hond'⟩

/-- One registry-manipulating notification of the protocol, as sent by the
server: `__create__`, `__adopt__` or `__dispose__`. -/
inductive GraphOp where
  | create (parentGuid type newGuid : String) (init : Payload)
  | adopt (newParentGuid childGuid : String)
  | dispose (guid : String)

/-- The wire message carried by a graph notification. -/
def graphOpMsg : GraphOp → Msg
  | .create pg t g i => gCreateMsg pg t g i
  | .adopt pg cg => gAdoptMsg pg cg
  | .dispose g => gDisposeMsg g

/-- The spec's ordering guarantee, read operationally against the current
registry: every notification refers only to already-created (still live)
guids, and a `__create__` introduces a fresh guid. -/
def ValidGraphOp (c : Conn) : GraphOp → Prop
  | .create pg _ g _ =>
      (∃ r, fmLookup c.objects pg = some r) ∧ fmLookup c.objects g = none
  | .adopt pg cg =>
      (∃ r, fmLookup c.objects pg = some r) ∧ (∃ r, fmLookup c.objects cg = some r)
  | .dispose g => ∃ r, fmLookup c.objects g = some r

/-- A trace of graph notifications in which every step satisfies the
ordering guarantee in the state it is dispatched in. -/
def ValidGraphTrace (c : Conn) : List GraphOp → Prop
  | [] => True
  | op :: ops => ValidGraphOp c op ∧
      ∀ c', dispatch c (graphOpMsg op) = .ok c' → ValidGraphTrace c' ops

/-- The amended step condition: additionally, an adoption must not move an
object underneath its own subtree (the new parent must not be reachable
from the child by walking child dicts; self-adoption is the smallest
violation). -/
def AmendedGraphOp (c : Conn) : GraphOp → Prop
  | .adopt pg cg =>
      (∃ r, fmLookup c.objects pg = some r) ∧ (∃ r, fmLookup c.objects cg = some r)
      ∧ ∀ p r, fmLookup c.objects pg = some p → fmLookup c.objects cg = some r →
          ¬ Reach c.heap r p
  | op => ValidGraphOp c op

/-- A trace of graph notifications satisfying the amended step condition. -/
def AmendedGraphTrace (c : Conn) : List GraphOp → Prop
  | [] => True
  | op :: ops => AmendedGraphOp c op ∧
      ∀ c', dispatch c (graphOpMsg op) = .ok c' → AmendedGraphTrace c' ops

/-- The C2 counterexample trace: create `"a"` under the root, then have
`"a"` adopt itself. -/
def c2BadOps : List GraphOp :=
  [GraphOp.create "" "t" "a" Payload.null, GraphOp.adopt "a" "a"]

/-- The state after the counterexample's `__create__` step. -/
def c2MidState : Conn :=
  match dispatch conn0 (graphOpMsg (GraphOp.create "" "t" "a" Payload.null)) with
  | .ok c => c
  | .error _ => conn0

/-- The state after the full counterexample trace. -/
def c2BadState : Conn :=
  match runMsgs conn0 (c2BadOps.map graphOpMsg) with
  | .ok c => c
  | .error _ => conn0

theorem dispatch_gCreate (c : Conn) (pg t g : String) (init : Payload) :
    dispatch c (gCreateMsg pg t g init) =
      match fmLookup c.objects pg with
      | none => .error "KeyError"
      | some pr => .ok (createRemoteObject c pr t g init) := rfl

theorem dispatch_gAdopt (c : Conn) (pg cg : String) :
    dispatch c (gAdoptMsg pg cg) =
      match fmLookup c.objects pg with
      | none => .error ("Cannot find object to \"__adopt__\": " ++ pg)
      | some r =>
        match fmLookup c.objects cg with
        | none => .error ("Unknown new child: " ++ cg)
        | some childRef => channelOwnerAdopt c r childRef := rfl

theorem dispatch_gDispose (c : Conn) (g : String) :
    dispatch c (gDisposeMsg g) =
      match fmLookup c.objects g with
      | none => .error ("Cannot find object to \"__dispose__\": " ++ g)
      | some r => channelOwnerDisposeRec (c.objects.length + 1) c r := rfl

/-- The fresh connection (root object only) is well-formed. -/
theorem wf_conn0 : WFconn conn0 := by
  refine Or.inr ⟨{ guid := "", type := "Root", parent := none, children := [], listeners := [], channel := { ref := 0, guid := "" }, initializer := .dict [] }, [], rfl, rfl, rfl, rfl, Forest.nil 0, by simp, ?_, ?_, ?_, ?_, ?_⟩
  · intro g r hgr
    have h2 : (if ("" == g) = true then some (0 : Nat) else none) = some r := hgr
    by_cases hg : ("" == g) = true
    · rw [if_pos hg] at h2
      simp [← Option.some.inj h2]
    · rw [if_neg hg] at h2
      exact Option.noConfusion h2
  · intro g r hgr
    have h2 : (if ("" == g) = true then some (0 : Nat) else none) = some r := hgr
    by_cases hg : ("" == g) = true
    · rw [if_pos hg] at h2
      have hge : "" = g := by simpa using hg
      have hr0 : (0 : Nat) = r := Option.some.inj h2
      refine ⟨{ guid := "", type := "Root", parent := none, children := [], listeners := [], channel := { ref := 0, guid := "" }, initializer := .dict [] }, ?_, ?_, ?_⟩
      · rw [← hr0]
        rfl
      · show "" = g
        exact hge
      · show ({ ref := 0, guid := "" } : ChannelV) = { ref := r, guid := g }
        rw [← hge, ← hr0]
    · rw [if_neg hg] at h2
      exact Option.noConfusion h2
  · intro q hq
    have h3 : q ∈ [0] := hq
    simp at h3
    rw [h3]
    show (0 : Nat) < 1
    decide
  · show ([0] : List Nat).Nodup
    simp
  · show ([""] : List String).Nodup
    simp

/-- A valid graph notification dispatches successfully on a well-formed
connection and preserves well-formedness (with the amended adoption
condition). -/
theorem wf_graphOp_step (c : Conn) (op : GraphOp)
    (hwf : WFconn c) (hvalid : AmendedGraphOp c op) :
    ∃ c', dispatch c (graphOpMsg op) = .ok c' ∧ WFconn c' := by
  cases op with
  | create pg t g init =>
    obtain ⟨⟨pr, hpr⟩, hfresh⟩ := hvalid
    refine ⟨createRemoteObject c pr t g init, ?_, ?_⟩
    · show dispatch c (gCreateMsg pg t g init) = _
      rw [dispatch_gCreate, hpr]
    · show WFconn (channelOwnerInit c pr t g
        (replaceGuidsWithChannels c.objects c.heap init))
      exact wf_channelOwnerInit c pr t g _ hwf ⟨pg, hpr⟩ hfresh
  | adopt pg cg =>
    obtain ⟨⟨pr, hpr⟩, ⟨cr, hcr⟩, hnr⟩ := hvalid
    obtain ⟨c', hok, hwf'⟩ :=
      wf_channelOwnerAdopt c pr cr hwf ⟨pg, hpr⟩ ⟨cg, hcr⟩ (hnr pr cr hpr hcr)
    refine ⟨c', ?_, hwf'⟩
    show dispatch c (gAdoptMsg pg cg) = _
    rw [dispatch_gAdopt, hpr, hcr]
    exact hok
  | dispose g =>
    obtain ⟨r, hr⟩ := hvalid
    obtain ⟨c', hok, hwf'⟩ := wf_channelOwnerDispose c g r hwf hr
    refine ⟨c', ?_, hwf'⟩
    show dispatch c (gDisposeMsg g) = _
    rw [dispatch_gDispose, hr]
    exact hok

/-- Running an amended-valid trace preserves well-formedness. -/
theorem wf_graphTrace (ops : List GraphOp) : ∀ c : Conn, WFconn c →
    AmendedGraphTrace c ops →
    ∃ c', runMsgs c (ops.map graphOpMsg) = .ok c' ∧ WFconn c' := by
  induction ops with
  | nil =>
    intro c hwf _
    exact ⟨c, rfl, hwf⟩
  | cons op ops ihop =>
    intro c hwf hvt
    obtain ⟨hv, hrest⟩ := hvt
    obtain ⟨c1, hok, hwf1⟩ := wf_graphOp_step c op hwf hv
    obtain ⟨c', hok', hwf'⟩ := ihop c1 hwf1 (hrest c1 hok)
    refine ⟨c', ?_, hwf'⟩
    simp only [List.map_cons, runMsgs, hok]
    exact hok'

/-- C2 (amended): for every sequence of `__create__`, `__adopt__` and
`__dispose__` notifications in which each step refers only to live guids,
a created guid is fresh, and no adoption moves an object underneath its
own subtree, dispatch succeeds on the whole trace and the final registries
are consistent: every live object carries its index guid and sits in its
parent's child dict, no object sits in two parents' child dicts, and
every live object is reachable from the root by walking child dicts
(applying the theorem to any prefix gives consistency after each step). -/
theorem c2_graph_consistency (ops : List GraphOp)
    (h : AmendedGraphTrace conn0 ops) :
    ∃ c', runMsgs conn0 (ops.map graphOpMsg) = .ok c' ∧ Consistent c' := by
  obtain ⟨c', hrun, hwf⟩ := wf_graphTrace ops conn0 wf_conn0 h
  exact ⟨c', hrun, wf_consistent c' hwf⟩

theorem c2_graph_consistency_witness :
    AmendedGraphTrace conn0 [GraphOp.create "" "t" "a" Payload.null]
    ∧ ∃ c', runMsgs conn0
        ([GraphOp.create "" "t" "a" Payload.null].map graphOpMsg) = .ok c'
      ∧ Consistent c' := by
  have hvt : AmendedGraphTrace conn0 [GraphOp.create "" "t" "a" Payload.null] :=
    ⟨⟨⟨0, rfl⟩, rfl⟩, fun c' _ => trivial⟩
  exact ⟨hvt, c2_graph_consistency [GraphOp.create "" "t" "a" Payload.null] hvt⟩

/-- C2 counterexample: the trace that creates `"a"` under the root and
then lets `"a"` adopt itself satisfies the claim's ordering guarantee
(creation precedes every reference to the guid), every dispatch succeeds,
yet afterwards the live object `"a"` is its own parent and no longer
reachable from the root, so the registries are not consistent. -/
theorem c2_graph_consistency_counterexample :
    ValidGraphTrace conn0 c2BadOps
    ∧ runMsgs conn0 (c2BadOps.map graphOpMsg) = .ok c2BadState
    ∧ fmLookup c2BadState.objects "a" = some 1
    ∧ ¬ Consistent c2BadState := by
  refine ⟨⟨⟨⟨0, rfl⟩, rfl⟩, ?_⟩, rfl, rfl, ?_⟩
  · intro c' h
    have hd : dispatch conn0 (graphOpMsg (GraphOp.create "" "t" "a" Payload.null))
        = .ok c2MidState := rfl
    rw [hd] at h
    have hce : c2MidState = c' := by
      injection h
    rw [← hce]
    exact ⟨⟨⟨1, rfl⟩, ⟨1, rfl⟩⟩, fun c'' _ => trivial⟩
  · intro hcons
    have hr : Reach c2BadState.heap 0 1 := hcons.2.2 "a" 1 rfl
    have himp : ∀ a b, Reach c2BadState.heap a b → a = 0 → b = 0 := by
      intro a b hre
      induction hre with
      | refl a => exact fun h => h
      | step a y b o gg hlookz hmem hre _ih =>
        intro ha
        subst ha
        have hch : (fmLookup c2BadState.heap 0).map ObjData.children = some [] := rfl
        rw [hlookz] at hch
        simp at hch
        rw [hch] at hmem
        simp at hmem
    have h10 := himp 0 1 hr rfl
    exact absurd h10 (by decide)

/-- C3: on a well-formed connection, delivering a `__dispose__`
notification for a live object whose subtree spans the descendant set
`lx` (K = `lx.length` transitive descendants) succeeds and removes all
K + 1 objects - the object and every descendant - from the flat guid
index (other guids are untouched, and the index shrinks by exactly
K + 1 entries) and from their respective parents' child dicts. -/
theorem c3_disposal_cascade (c : Conn) (g : String) (r : Nat) (xo : ObjData)
    (lx : List Nat)
    (hwf : WFconn c)
    (hlook : fmLookup c.objects g = some r)
    (hcx : fmLookup c.heap r = some xo)
    (Fsub : Forest c.heap c.objects r xo.children lx) :
    ∃ c', dispatch c (gDisposeMsg g) = .ok c'
      ∧ (∀ z ∈ r :: lx, ∀ zo, fmLookup c.heap z = some zo →
          fmLookup c'.objects zo.guid = none
          ∧ ∀ pq po', zo.parent = some pq → fmLookup c'.heap pq = some po' →
              fmLookup po'.children zo.guid = none)
      ∧ (∀ g₂, (∀ z ∈ r :: lx, ∀ zo, fmLookup c.heap z = some zo → zo.guid ≠ g₂) →
          fmLookup c'.objects g₂ = fmLookup c.objects g₂)
      ∧ c'.objects.length + (lx.length + 1) = c.objects.length := by
  rcases hwf with hdead | hrooted
  · rw [hdead g] at hlook
    exact Option.noConfusion hlook
  obtain ⟨ro, l, hro, hrop, hrog, hro0, F, h0l, hlive, hmatch, hfreshB, hhnd, hond⟩ :=
    hrooted
  have hOinjl : ∀ z ∈ l, ∀ zo, fmLookup c.heap z = some zo →
      fmLookup c.objects zo.guid = some z := by
    intro z hz zo hzo
    obtain ⟨zo₂, hzo₂, hOz⟩ := forest_mem_node F z hz
    rw [hzo] at hzo₂
    rw [← Option.some.inj hzo₂] at hOz
    exact hOz
  obtain ⟨hOg, hxlx, hparent, hsubxl⟩ :
      fmLookup c.objects xo.guid = some r
      ∧ r ∉ lx
      ∧ (∀ pq, xo.parent = some pq → pq ∉ r :: lx
          ∧ ∃ po, fmLookup c.heap pq = some po
            ∧ fmLookup po.children xo.guid = some r
            ∧ (po.children.map Prod.fst).Nodup)
      ∧ (∀ z ∈ lx, z ∈ l) := by
    rcases List.mem_cons.mp (hlive g r hlook) with hr0 | hrl
    · subst hr0
      have hxoro : xo = ro := by
        rw [hro] at hcx
        exact (Option.some.inj hcx).symm
      have F2 := Fsub
      rw [hxoro] at F2
      have hlxl : lx = l := (forest_functional F2 l F).symm.symm
      refine ⟨?_, ?_, ?_, ?_⟩
      · rw [hxoro, hrog]
        exact hro0
      · rw [hlxl]
        exact h0l
      · intro pq hpq
        rw [hxoro, hrop] at hpq
        exact Option.noConfusion hpq
      · intro z hz
        rw [← hlxl]
        exact hz
    · obtain ⟨xo₂, lx₂, op₂, hcx₂, Fsub₂, hpar₂, hopn₂, hxlx₂, hOx₂, hsubl₂, hedge₂⟩ :=
        forest_sub F r hrl
      have hxoeq : xo₂ = xo := by
        rw [hcx] at hcx₂
        exact (Option.some.inj hcx₂).symm
      rw [hxoeq] at Fsub₂ hpar₂ hOx₂ hedge₂
      have hlxeq : lx₂ = lx := forest_functional Fsub₂ lx Fsub
      rw [hlxeq] at hopn₂ hxlx₂ hsubl₂
      refine ⟨hOx₂, hxlx₂, ?_, fun z hz => hsubl₂ z (List.mem_cons.mpr (Or.inr hz))⟩
      intro pq hpq
      rw [hpar₂] at hpq
      have hpqe : op₂ = pq := Option.some.inj hpq
      subst hpqe
      refine ⟨hopn₂, ?_⟩
      rcases hedge₂ with ⟨hop0, hlk⟩ | ⟨hopl, oo, hoo, hlk⟩
      · exact ⟨ro, by rw [hop0]; exact hro, hlk, forest_kids_nodupKeys F⟩
      · obtain ⟨oo₃, lop, opp, hcop, Fop, _, _, _, _, _⟩ := forest_sub F op₂ hopl
        have hoe : oo₃ = oo := by
          rw [hoo] at hcop
          exact (Option.some.inj hcop).symm
        refine ⟨oo, hoo, hlk, ?_⟩
        rw [← hoe]
        exact forest_kids_nodupKeys Fop
  have hOinjx : ∀ z ∈ lx, ∀ zo, fmLookup c.heap z = some zo →
      fmLookup c.objects zo.guid = some z :=
    fun z hz zo hzo => hOinjl z (hsubxl z hz) zo hzo
  have hfuelr : (r :: lx).length ≤ c.objects.length + 1 := by
    have hle := forest_length_le Fsub
    simp only [List.length_cons]
    omega
  have hparh2 : ∀ pq, xo.parent = some pq → pq ∉ r :: lx
      ∧ ∃ po, fmLookup c.heap pq = some po
        ∧ fmLookup po.children xo.guid = some r := by
    intro pq hpq
    obtain ⟨hn, po, h1, h2, h3⟩ := hparent pq hpq
    exact ⟨hn, po, h1, h2⟩
  obtain ⟨c', hrun, hn, hl2, hcb, hf, he, hs, hin, hout, hparc, hobj, hkeys, hsl, hlen⟩ :=
    disposeRec_spec (c.objects.length + 1) c r xo lx hcx Fsub hOg hxlx hparh2 hOinjx
      hond hfuelr
  refine ⟨c', ?_, ?_, hobj, ?_⟩
  · rw [dispatch_gDispose, hlook]
    exact hrun
  · intro z hz zo hzo
    refine ⟨(hin z hz zo hzo).2, ?_⟩
    intro pq po' hpq hpo'
    rcases List.mem_cons.mp hz with hzr | hzlx
    · subst hzr
      rw [hcx] at hzo
      have hzoxo : xo = zo := Option.some.inj hzo
      rw [← hzoxo] at hpq
      obtain ⟨hpqn, po₀, hpo₀, hedge₀, hnod₀⟩ := hparent pq hpq
      have hpar' := hparc pq po₀ hpq hpo₀
      rw [hpar'] at hpo'
      have hpoe : { po₀ with children := fmErase po₀.children xo.guid } = po' :=
        Option.some.inj hpo'
      rw [← hpoe]
      show fmLookup (fmErase po₀.children xo.guid) zo.guid = none
      rw [← hzoxo]
      exact fmLookup_erase_self_of_nodup _ _ hnod₀
    · have hpqmem : pq = z ∨ pq ∈ r :: lx := by
        obtain ⟨xo₃, lx₃, op₃, hcx₃, Fsub₃, hpar₃, _, _, _, _, hedge₃⟩ :=
          forest_sub Fsub z hzlx
        rw [hzo] at hcx₃
        have hxo₃ : zo = xo₃ := Option.some.inj hcx₃
        rw [← hxo₃] at hpar₃
        rw [hpq] at hpar₃
        have hpq₃ : pq = op₃ := Option.some.inj hpar₃
        rcases hedge₃ with ⟨hh, _⟩ | ⟨hh, _⟩
        · exact Or.inr (by rw [hpq₃, hh]; exact List.mem_cons.mpr (Or.inl rfl))
        · exact Or.inr (by rw [hpq₃]; exact List.mem_cons.mpr (Or.inr hh))
      have hpqmem' : pq ∈ r :: lx := by
        rcases hpqmem with hh | hh
        · rw [hh]
          exact List.mem_cons.mpr (Or.inr hzlx)
        · exact hh
      obtain ⟨qo, hqo⟩ : ∃ qo, fmLookup c.heap pq = some qo := by
        rcases List.mem_cons.mp hpqmem' with hh | hh
        · exact ⟨xo, by rw [hh]; exact hcx⟩
        · obtain ⟨qo, hqo, _⟩ := forest_mem_node Fsub pq hh
          exact ⟨qo, hqo⟩
      have hheapq := (hin pq hpqmem' qo hqo).1
      rw [hheapq] at hpo'
      have hpoe : { qo with children := ([] : List (String × Nat)) } = po' :=
        Option.some.inj hpo'
      rw [← hpoe]
      show fmLookup ([] : List (String × Nat)) zo.guid = none
      rfl
  · simp only [List.length_cons] at hlen
    omega

theorem c3_disposal_cascade_witness :
    ∃ c', dispatch conn0 (gDisposeMsg "") = .ok c'
      ∧ (∀ z ∈ (0 : Nat) :: ([] : List Nat), ∀ zo, fmLookup conn0.heap z = some zo →
          fmLookup c'.objects zo.guid = none
          ∧ ∀ pq po', zo.parent = some pq → fmLookup c'.heap pq = some po' →
              fmLookup po'.children zo.guid = none)
      ∧ (∀ g₂, (∀ z ∈ (0 : Nat) :: ([] : List Nat), ∀ zo,
            fmLookup conn0.heap z = some zo → zo.guid ≠ g₂) →
          fmLookup c'.objects g₂ = fmLookup conn0.objects g₂)
      ∧ c'.objects.length + (([] : List Nat).length + 1) = conn0.objects.length :=
  c3_disposal_cascade conn0 "" 0
    { guid := "", type := "Root", parent := none, children := [], listeners := [], channel := { ref := 0, guid := "" }, initializer := .dict [] }
    [] wf_conn0 rfl rfl (Forest.nil 0)
